import Mathlib

/-!
# signchain-vault: authentication, storage, vault and signer

A shallow embedding of the vault's request-signature scheme
(`pkg/auth/auth.go`), of the error handler of the API (`pkg/api`), of the
anonymized ids and the MongoDB storage backend (`pkg/storage/mongo`), of the
wallet operations of `pkg/vault` and of `packConvert` and `signer.Sign`
(`pkg/signer`), together with the library routines they rely on
(`encoding/base32`, `encoding/hex`, `encoding/binary` varints, `crypto/rc4`,
`strings.Split`, `strings.ToUpper`, `strings.ToLower`, `strings.TrimSpace`,
`strings.TrimPrefix`, `big.Int.SetString`, the types and the packer of
go-ethereum `accounts/abi`), followed by theorems about them.

Conventions of the embedding:

* a Go `string` or `[]byte` is a list of bytes (`Bytes`);
* a `time.Time` is an integer count of nanoseconds since the Unix epoch;
* `int64`/`uint64` values are integers with explicit wrap-around;
* a run-time panic is the distinguished outcome `Result.panic`;
* SHA-256 and the Unicode (non-ASCII) paths of the `strings` package are
  parameters, collected in `Lib`;
* the process environment, the JSON codec outside plain ASCII, AES-GCM,
  Keccak-256, the secp256k1 operations and the remote key-management service
  are parameters, collected in `Env`;
* a Go value held in an `any` is a value of `Any`; the parsing of an ABI
  fragment, the conversion of a float64 to `int64` and the packing of slices,
  arrays and tuples are parameters, collected in `AbiEnv`;
* the database is the pair of its two collections (`DB`), and an operation
  that writes returns the database afterwards next to its result; values
  drawn from outside (random bytes, object ids, the clock) are arguments.
-/

namespace Vault

/-! ## Bytes and strings -/

abbrev Byte := Fin 256

abbrev Bytes := List Byte

/-- Go's conversion `byte(n)`: the low eight bits of `n`. -/
def byte (n : Nat) : Byte := Fin.ofNat n

/-- Bytes of an ASCII string literal. -/
def str (s : String) : Bytes := s.toList.map (fun c => byte c.toNat)

/-! ## `encoding/base32` -/

/-- Go's `base32.Encoding`, reduced to the standard alphabet: only the padding
character varies (`'='` for `StdEncoding`, `-1` for `NoPadding`). -/
structure Encoding where
  padChar : Int
deriving DecidableEq, Repr

def StdPadding : Int := 61

def NoPadding : Int := -1

def StdEncoding : Encoding := ⟨StdPadding⟩

def Encoding.WithPadding (_enc : Encoding) (padding : Int) : Encoding := ⟨padding⟩

/-- Go's `byte(enc.padChar)`. -/
def Encoding.padByte (enc : Encoding) : Byte := byte (enc.padChar % 256).toNat

/-- The standard alphabet of RFC 4648 (`encodeStd`). -/
def encodeStd : Bytes := str "ABCDEFGHIJKLMNOPQRSTUVWXYZ234567"

/-- The table `enc.encode`: symbol index to symbol byte. -/
def encodeSym (i : Nat) : Byte := encodeStd.getD i 0

/-- The table `enc.decodeMap`: symbol byte to symbol index, `0xFF` for a byte
outside the alphabet. -/
def decodeMap (c : Byte) : Nat :=
  if encodeStd.indexOf c < 32 then encodeStd.indexOf c else 0xFF

/-- The eight symbols of one five-byte quantum. -/
def encodeQuantum (b0 b1 b2 b3 b4 : Byte) : Bytes :=
  [ encodeSym (b0.val / 8),
    encodeSym (b0.val % 8 * 4 + b1.val / 64),
    encodeSym (b1.val / 2 % 32),
    encodeSym (b1.val % 2 * 16 + b2.val / 16),
    encodeSym (b2.val % 16 * 2 + b3.val / 128),
    encodeSym (b3.val / 4 % 32),
    encodeSym (b3.val % 4 * 8 + b4.val / 32),
    encodeSym (b4.val % 32) ]

/-- The final, short quantum of `remain` bytes (1 to 4): the missing bytes
count as zero, `remain * 8 / 5 + 1` symbols are written and, unless the
encoding has no padding, the quantum is filled up to eight with the padding
character. -/
def encodeRemain (enc : Encoding) (remain : Nat) (b0 b1 b2 b3 : Byte) : Bytes :=
  (encodeQuantum b0 b1 b2 b3 0).take (remain * 8 / 5 + 1) ++
    (if enc.padChar ≠ NoPadding then
      List.replicate (8 - (remain * 8 / 5 + 1)) enc.padByte
    else [])

/-- Go's `Encoding.EncodeToString`. -/
def Encoding.EncodeToString (enc : Encoding) : Bytes → Bytes
  | [] => []
  | [b0] => encodeRemain enc 1 b0 0 0 0
  | [b0, b1] => encodeRemain enc 2 b0 b1 0 0
  | [b0, b1, b2] => encodeRemain enc 3 b0 b1 b2 0
  | [b0, b1, b2, b3] => encodeRemain enc 4 b0 b1 b2 b3
  | b0 :: b1 :: b2 :: b3 :: b4 :: rest =>
      encodeQuantum b0 b1 b2 b3 b4 ++ Encoding.EncodeToString enc rest

/-! ## Errors and outcomes -/

/-- Go's `time.Time`, as nanoseconds since the Unix epoch. -/
structure Time where
  unixNano : Int
deriving DecidableEq, Repr

/-- Errors returned by the modelled code, one constructor per error site. -/
inductive Err where
  /-- An error returned by `crypto/rand.Read`. -/
  | randRead
  /-- The error `base32.CorruptInputError(offset)`. -/
  | corruptInput (offset : Nat)
  /-- The error `invalid signature: %s` (wrong number of components). -/
  | invalidSignature (v : Bytes)
  /-- The error `invalid timestamp in signature: %s`. -/
  | invalidTimestamp (v : Bytes)
  /-- The error `signature expired timestamp: %s current time: %s`. -/
  | signatureExpired (timestamp now : Time)
  /-- The error `signature not yet valid timestamp: %s current time: %s`. -/
  | signatureNotYetValid (timestamp now : Time)
  /-- The error `invalid signature for data: %s`. -/
  | invalidSignatureForData (signature : Bytes)
  /-- The error `invalid vault key hash size: %d`. -/
  | invalidHashSize (n : Nat)
  /-- The error `vault key for hash not configured: %s`. -/
  | keyNotConfigured (hash : Bytes)
  /-- The error `X-Vault-Key-Hash header not provided`. -/
  | keyHashHeaderMissing
  /-- The error `X-Vault-Signature header not provided`. -/
  | signatureHeaderMissing
  /-- The error `invalid vault signature: %s for key hash: %s, %v`. -/
  | invalidVaultSignature (signature keyHash : Bytes) (err : Err)
  /-- The error `VAULT_AUTH_SECRET_KEY not configured, X-Vault-Auth-Signature not supported`. -/
  | authSecretNotConfigured
  /-- The error `X-Vault-Auth-Signature: %v`. -/
  | authSignature (err : Err)
  /-- The error `VAULT_AUTH_SECRET_KEY configured, required X-Vault-Auth-Signature not provided`. -/
  | authSignatureMissing
  /-- The error `rc4.KeySizeError(k)`. -/
  | rc4KeySize (k : Nat)
  /-- The error `aes.KeySizeError(k)`. -/
  | aesKeySize (k : Nat)
  /-- The error `cipher: message authentication failed` of `gcm.Open`. -/
  | gcmOpenFailed
  /-- The error `invalid length, need 256 bits` of `crypto.ToECDSA`. -/
  | ecdsaInvalidLength
  /-- The error `invalid private key, >=N` of `crypto.ToECDSA`. -/
  | ecdsaTooLarge
  /-- The error `invalid private key, zero or negative` of `crypto.ToECDSA`. -/
  | ecdsaZero
  /-- The error `hex.InvalidByteError(b)`. -/
  | hexInvalidByte (b : Fin 256)
  /-- The error `hex.ErrLength`. -/
  | hexLength
  /-- A `*fiber.Error`, with its status code and message. -/
  | fiber (code : Nat) (message : List (Fin 256))
  /-- The error `invalid signer: %s`. -/
  | invalidSigner (signer : List (Fin 256))
  /-- The error `mongo.ErrNoDocuments`. -/
  | mongoNoDocuments
  /-- The write error of the MongoDB driver for a duplicate key. -/
  | mongoDuplicateKey
  /-- The command error of the MongoDB server for a negative skip. -/
  | mongoBadValue
  /-- Any other error of a library or of the remote key-management service
  that is not a `*fiber.Error`, with its message. -/
  | external (message : List (Fin 256))
  /-- The error `no VAULT_KEY configured, please follow online documentation`. -/
  | vaultKeyNotConfigured
  /-- The error `VAULT_AUTH_SECRET_KEY is too short, must be at least %d characters`. -/
  | authSecretTooShort (min : Nat)
  /-- The error `abi: cannot use %v as type %v as argument` of the ABI packer. -/
  | abiCannotUse
  /-- The error `argument count mismatch: got %d for %d` of the ABI packer. -/
  | abiArgumentCount (got want : Nat)
  /-- The error `Bytes type is neither slice nor array` of the ABI packer. -/
  | abiBytesType
  /-- The error `abi: negatively-signed value cannot be packed into uint parameter`
  of the ABI packer. -/
  | abiInvalidSign
deriving DecidableEq, Repr

/-- Outcome of a call: a value, a returned error, or a run-time panic. -/
inductive Result (α : Type) where
  | ok (a : α)
  | error (e : Err)
  | panic
deriving DecidableEq, Repr

deriving instance DecidableEq for Except

/-! ## `encoding/base32`, decoding -/

/-- Index of the first of the `n` bytes following a padding character that is
not itself the padding character (`src[k] != byte(enc.padChar)`). -/
def badPadding (pad : Byte) (src : Bytes) (n : Nat) : Option Nat :=
  (List.range n).find? (fun k => decide (k < src.length) && (src.getD k 0 != pad))

/-- The inner loop of `Encoding.decode`: reads the symbols of one quantum.
`fuel` is `8 - j`. The result is the symbol indices read (`dbuf`), their number
(`dlen`), whether the input ended here (`end`), and the unread input. -/
def readQuantum (enc : Encoding) (olen : Nat) :
    Nat → Nat → Bytes → List Nat → Except Err (List Nat × Nat × Bool × Bytes)
  | 0, _, src, dbuf => .ok (dbuf, 8, false, src)
  | _ + 1, j, [], dbuf =>
      if enc.padChar ≠ NoPadding then .error (.corruptInput (olen - j))
      else .ok (dbuf, j, true, [])
  | fuel + 1, j, c :: src, dbuf =>
      if c = enc.padByte ∧ j ≥ 2 ∧ src.length < 8 then
        if src.length + j < 8 - 1 then .error (.corruptInput olen)
        else
          match badPadding enc.padByte src (8 - 1 - j) with
          | some k => .error (.corruptInput (olen - src.length + k - 1))
          | none =>
              if j = 1 ∨ j = 3 ∨ j = 6 then .error (.corruptInput (olen - src.length - 1))
              else .ok (dbuf, j, true, src)
      else if decodeMap c = 0xFF then .error (.corruptInput (olen - src.length - 1))
      else readQuantum enc olen fuel (j + 1) src (dbuf ++ [decodeMap c])

/-- The bytes packed from the symbols of one quantum (`switch dlen`, with its
fall-through): 5 bytes for 8 symbols, 4 for 7, 3 for 5, 2 for 4, 1 for 2, and
none for any other count. -/
def packQuantum (dbuf : List Nat) (dlen : Nat) : Bytes :=
  let d := fun i => dbuf.getD i 0
  let dst0 := byte (d 0 <<< 3 ||| d 1 >>> 2)
  let dst1 := byte (d 1 <<< 6 ||| d 2 <<< 1 ||| d 3 >>> 4)
  let dst2 := byte (d 3 <<< 4 ||| d 4 >>> 1)
  let dst3 := byte (d 4 <<< 7 ||| d 5 <<< 2 ||| d 6 >>> 3)
  let dst4 := byte (d 6 <<< 5 ||| d 7)
  if dlen = 8 then [dst0, dst1, dst2, dst3, dst4]
  else if dlen = 7 then [dst0, dst1, dst2, dst3]
  else if dlen = 5 then [dst0, dst1, dst2]
  else if dlen = 4 then [dst0, dst1]
  else if dlen = 2 then [dst0]
  else []

/-- The outer loop of `Encoding.decode` (`for len(src) > 0 && !end`), one
quantum per unit of fuel. -/
def decodeLoop (enc : Encoding) (olen : Nat) : Nat → Bytes → Except Err Bytes
  | 0, _ => .ok []
  | _, [] => .ok []
  | fuel + 1, c :: src =>
      match readQuantum enc olen 8 0 (c :: src) [] with
      | .error e => .error e
      | .ok (dbuf, dlen, true, _) => .ok (packQuantum dbuf dlen)
      | .ok (dbuf, dlen, false, rest) =>
          match decodeLoop enc olen fuel rest with
          | .error e => .error e
          | .ok out => .ok (packQuantum dbuf dlen ++ out)

/-- Go's `stripNewlines`: drops every `\r` and `\n`. -/
def stripNewlines (src : Bytes) : Bytes :=
  src.filter (fun c => c != 13 && c != 10)

/-- Go's `Encoding.DecodeString`. Every quantum consumes at least one byte, so
the length of the input is enough fuel for the loop. -/
def Encoding.DecodeString (enc : Encoding) (s : Bytes) : Except Err Bytes :=
  decodeLoop enc (stripNewlines s).length (stripNewlines s).length (stripNewlines s)

/-! ## `strings` -/

/-- The environment of the embedding: SHA-256 and the Unicode paths of the
`strings` package, which the code reaches only for input with a non-ASCII
byte. -/
structure Lib where
  /-- SHA-256 of a byte string (`sha256.Sum256`, `sha256.New` ... `Sum`). -/
  sha256 : Bytes → Bytes
  /-- A digest has 32 bytes. -/
  sha256_size : ∀ b, (sha256 b).length = 32
  /-- Go's `strings.Map(unicode.ToUpper, s)`. -/
  mapToUpper : Bytes → Bytes
  /-- Go's `strings.Map(unicode.ToLower, s)`. -/
  mapToLower : Bytes → Bytes
  /-- Go's `strings.TrimFunc(s, unicode.IsSpace)`. -/
  trimFuncSpace : Bytes → Bytes
  /-- Go's `strings.TrimRightFunc(s, unicode.IsSpace)`. -/
  trimRightFuncSpace : Bytes → Bytes

/-- Whether every byte is below `utf8.RuneSelf`. -/
def isASCII (s : Bytes) : Bool := s.all (fun c => decide (c.val < 0x80))

/-- The ASCII branch of `strings.ToUpper`, on one byte. -/
def upperByte (c : Byte) : Byte :=
  if 97 ≤ c.val ∧ c.val ≤ 122 then byte (c.val - 32) else c

/-- The ASCII branch of `strings.ToLower`, on one byte. -/
def lowerByte (c : Byte) : Byte :=
  if 65 ≤ c.val ∧ c.val ≤ 90 then byte (c.val + 32) else c

/-- Go's `strings.ToUpper`. -/
def ToUpper (L : Lib) (s : Bytes) : Bytes :=
  if isASCII s then s.map upperByte else L.mapToUpper s

/-- Go's `strings.ToLower`. -/
def ToLower (L : Lib) (s : Bytes) : Bytes :=
  if isASCII s then s.map lowerByte else L.mapToLower s

/-- Go's `strings.Split(s, sep)` for a one-byte separator. -/
def Split (sep : Byte) : Bytes → List Bytes
  | [] => [[]]
  | c :: s =>
      if c = sep then [] :: Split sep s
      else
        match Split sep s with
        | [] => [[c]]
        | p :: ps => (c :: p) :: ps

/-- The table `asciiSpace`: tab, newline, vertical tab, form feed, carriage
return, space. -/
def asciiSpace (c : Byte) : Bool :=
  c.val = 9 || c.val = 10 || c.val = 11 || c.val = 12 || c.val = 13 || c.val = 32

/-- The second loop of `strings.TrimSpace`, over the reversed string: trims
ASCII space from the end, and hands `s[start:stop]` to the Unicode path when it
meets a non-ASCII byte. -/
def trimSpaceEnd (L : Lib) : Bytes → Bytes
  | [] => []
  | c :: r =>
      if c.val ≥ 0x80 then L.trimRightFuncSpace (c :: r).reverse
      else if asciiSpace c then trimSpaceEnd L r
      else (c :: r).reverse

/-- Go's `strings.TrimSpace`: the first loop trims ASCII space from the start,
and hands `s[start:]` to the Unicode path when it meets a non-ASCII byte. -/
def TrimSpace (L : Lib) : Bytes → Bytes
  | [] => []
  | c :: s =>
      if c.val ≥ 0x80 then L.trimFuncSpace (c :: s)
      else if asciiSpace c then TrimSpace L s
      else trimSpaceEnd L (c :: s).reverse

/-! ## `encoding/binary` varints and `time` -/

/-- Go's `uint64(x)` for an integer `x`. -/
def uint64 (x : Int) : Nat := (x % 2 ^ 64).toNat

/-- Go's `int64(x)` for an integer `x`: wrap-around into `[-2^63, 2^63)`. -/
def int64 (x : Int) : Int := (x + 2 ^ 63) % 2 ^ 64 - 2 ^ 63

/-- The bytes written by the loop of `binary.PutUvarint` for a `uint64`; ten
iterations are enough for any value below `2^64`. -/
def uvarintBytes : Nat → Nat → Bytes
  | 0, x => [byte x]
  | fuel + 1, x =>
      if x ≥ 0x80 then byte (x ||| 0x80) :: uvarintBytes fuel (x >>> 7)
      else [byte x]

/-- Go's `binary.PutUvarint(buf, x)`: the buffer after the call and the number
of bytes written, or `none` when the buffer is too small and the index runs out
of range (a run-time panic). -/
def PutUvarint (buf : Bytes) (x : Nat) : Option (Bytes × Nat) :=
  let bs := uvarintBytes 10 x
  if bs.length ≤ buf.length then some (bs ++ buf.drop bs.length, bs.length) else none

/-- Go's `binary.PutVarint(buf, x)`: zig-zag, then `PutUvarint`. -/
def PutVarint (buf : Bytes) (x : Int) : Option (Bytes × Nat) :=
  let ux := (uint64 x <<< 1) % 2 ^ 64
  PutUvarint buf (if x < 0 then 2 ^ 64 - 1 - ux else ux)

/-- The loop of `binary.Uvarint`, from index `i` with accumulator `x` and
shift `s`. -/
def uvarintLoop : Bytes → Nat → Nat → Nat → Nat × Int
  | [], _, _, _ => (0, 0)
  | b :: buf, i, x, s =>
      if i = 10 then (0, -((i : Int) + 1))
      else if b.val < 0x80 then
        if i = 10 - 1 ∧ b.val > 1 then (0, -((i : Int) + 1))
        else ((x ||| b.val <<< s) % 2 ^ 64, (i : Int) + 1)
      else uvarintLoop buf (i + 1) ((x ||| (b.val &&& 0x7f) <<< s) % 2 ^ 64) (s + 7)

/-- Go's `binary.Uvarint`. -/
def Uvarint (buf : Bytes) : Nat × Int := uvarintLoop buf 0 0 0

/-- Go's `binary.Varint`. -/
def Varint (buf : Bytes) : Int × Int :=
  let (ux, n) := Uvarint buf
  let x : Int := int64 (ux >>> 1)
  (if ux &&& 1 ≠ 0 then -x - 1 else x, n)

/-- Go's `time.Minute`, in nanoseconds. -/
def Minute : Int := 60 * 1000000000

/-- Go's `Time.UnixMicro`. -/
def Time.UnixMicro (t : Time) : Int := int64 (t.unixNano / 1000)

/-- Go's `time.UnixMicro`. -/
def UnixMicro (usec : Int) : Time := ⟨usec * 1000⟩

/-- Go's `Time.Add`. Go saturates at the two ends of its range, some 292
billion years from the epoch; the instants of the embedding are unbounded. -/
def Time.Add (t : Time) (d : Int) : Time := ⟨t.unixNano + d⟩

/-- Go's `Time.Compare`. -/
def Time.Compare (t u : Time) : Int :=
  if t.unixNano < u.unixNano then -1 else if t.unixNano > u.unixNano then 1 else 0

/-! ## `pkg/auth/auth.go` -/

abbrev AuthSecretKey := Bytes

abbrev VaultSignature := Bytes

abbrev VaultKey := Bytes

abbrev VaultKeyCollection := List VaultKey

/-- Go's `hmac.Equal`: same length and same bytes. -/
def hmacEqual (a b : Bytes) : Bool := decide (a = b)

/-- The zeroed array of `var tb [8]byte`. -/
def tb0 : Bytes := List.replicate 8 0

/-- Method `VaultSignature.Parse`: the nonce, the timestamp and the hash, or the
error. -/
def VaultSignature.Parse (L : Lib) (v : VaultSignature) : Except Err (Bytes × Time × Bytes) :=
  match Split 46 v with
  | [c0, c1, c2] =>
      match StdEncoding.DecodeString (ToUpper L c0) with
      | .error err => .error err
      | .ok nonce =>
          match StdEncoding.DecodeString (ToUpper L c1) with
          | .error err => .error err
          | .ok tb =>
              match StdEncoding.DecodeString (ToUpper L c2) with
              | .error err => .error err
              | .ok hash =>
                  if (Varint tb).2 ≠ 8 then .error (.invalidTimestamp v)
                  else .ok (nonce, UnixMicro (Varint tb).1, hash)
  | _ => .error (.invalidSignature v)

/-- Method `AuthSecretKey.Verify`. -/
def AuthSecretKey.Verify (L : Lib) (k : AuthSecretKey) (now : Time) (data : Bytes)
    (signature : VaultSignature) : Result Unit :=
  match VaultSignature.Parse L signature with
  | .error err => .error err
  | .ok (nonce, timestamp, signatureHash) =>
      if timestamp.Compare (now.Add (-2 * Minute)) < 0 then
        .error (.signatureExpired timestamp now)
      else if timestamp.Compare (now.Add (2 * Minute)) > 0 then
        .error (.signatureNotYetValid timestamp now)
      else
        match PutVarint tb0 timestamp.UnixMicro with
        | none => .panic
        | some (tb, _) =>
            if hmacEqual (L.sha256 (data ++ nonce ++ tb ++ k)) signatureHash then .ok ()
            else .error (.invalidSignatureForData signature)

/-- Method `VaultKey.Hash`. -/
def VaultKey.Hash (L : Lib) (v : VaultKey) : Bytes := L.sha256 v

/-- Method `VaultKey.HashString`. -/
def VaultKey.HashString (L : Lib) (v : VaultKey) : Bytes :=
  ToLower L ((StdEncoding.WithPadding NoPadding).EncodeToString (VaultKey.Hash L v))

/-- Method `VaultKey.Verify`. -/
def VaultKey.Verify (L : Lib) (v : VaultKey) (now : Time) (data : Bytes)
    (signature : VaultSignature) : Result Unit :=
  match VaultSignature.Parse L signature with
  | .error err => .error err
  | .ok (nonce, timestamp, signatureHash) =>
      if timestamp.Compare (now.Add (-2 * Minute)) < 0 then
        .error (.signatureExpired timestamp now)
      else if timestamp.Compare (now.Add (2 * Minute)) > 0 then
        .error (.signatureNotYetValid timestamp now)
      else
        match PutVarint tb0 timestamp.UnixMicro with
        | none => .panic
        | some (tb, _) =>
            if hmacEqual (L.sha256 (data ++ nonce ++ tb ++ v)) signatureHash then .ok ()
            else .error (.invalidSignatureForData signature)

/-- Method `VaultKey.Sign`. `rand` is what `rand.Read(nonce[:])` does: the 32
bytes it fills the nonce with, or its error. -/
def VaultKey.Sign (L : Lib) (v : VaultKey) (timestamp : Time) (data : Bytes)
    (rand : Except Err Bytes) : Result VaultSignature :=
  match PutVarint tb0 timestamp.UnixMicro with
  | none => .panic
  | some (tb, _) =>
      match rand with
      | .error err => .error err
      | .ok nonce =>
          .ok (ToLower L (StdEncoding.EncodeToString nonce) ++ [46] ++
            ToLower L (StdEncoding.EncodeToString tb) ++ [46] ++
            ToLower L (StdEncoding.EncodeToString (L.sha256 (data ++ nonce ++ tb ++ v))))

/-- Go's `copy(h[:], b)` into a zeroed `[32]byte`. -/
def copy32 (b : Bytes) : Bytes := (b ++ List.replicate 32 0).take 32

/-- Method `VaultKeyCollection.GetKeyMatchingHash`. -/
def VaultKeyCollection.GetKeyMatchingHash (L : Lib) (c : VaultKeyCollection) (hash : Bytes) :
    Except Err VaultKey :=
  match (StdEncoding.WithPadding NoPadding).DecodeString (ToUpper L hash) with
  | .error err => .error err
  | .ok b =>
      if b.length ≠ 32 then .error (.invalidHashSize b.length)
      else
        match c.find? (fun v => decide (VaultKey.Hash L v = copy32 b)) with
        | some v => .ok v
        | none => .error (.keyNotConfigured hash)

/-- The authenticator: the vault keys and the optional auth secret. -/
structure auth where
  vaultKeys : VaultKeyCollection
  authSecretKey : Option AuthSecretKey

/-- What a middleware sees of a request (`*fiber.Ctx`): `Get` gives a header's
value, the empty string when the request has no such header, and `BodyRaw` the
raw body. -/
structure Ctx where
  Get : String → Bytes
  BodyRaw : Bytes

/-- What a middleware does with a request: hand it to the next handler
(`c.Next()`), return an error without doing so, or panic. -/
inductive Outcome where
  | next
  | error (e : Err)
  | panic
deriving DecidableEq, Repr

/-- Method `auth.RequireVaultKey`; `now` is the value of `time.Now()`. -/
def auth.RequireVaultKey (L : Lib) (a : auth) (now : Time) (c : Ctx) : Outcome :=
  let vaultKeyHash := c.Get "X-Vault-Key-Hash"
  let vaultSignature := c.Get "X-Vault-Signature"
  if vaultKeyHash = [] then .error .keyHashHeaderMissing
  else if vaultSignature = [] then .error .signatureHeaderMissing
  else
    match VaultKeyCollection.GetKeyMatchingHash L a.vaultKeys vaultKeyHash with
    | .error err => .error err
    | .ok v =>
        match VaultKey.Verify L v now c.BodyRaw vaultSignature with
        | .error err => .error (.invalidVaultSignature vaultSignature vaultKeyHash err)
        | .panic => .panic
        | .ok _ => .next

/-- Method `auth.RequireAuthSignature`; `now` is the value of `time.Now()`. -/
def auth.RequireAuthSignature (L : Lib) (a : auth) (now : Time) (c : Ctx) : Outcome :=
  let authSignature := TrimSpace L (c.Get "X-Vault-Auth-Signature")
  if authSignature ≠ [] then
    match a.authSecretKey with
    | none => .error .authSecretNotConfigured
    | some k =>
        match AuthSecretKey.Verify L k now c.BodyRaw authSignature with
        | .error err => .error (.authSignature err)
        | .panic => .panic
        | .ok _ => .next
  else if a.authSecretKey ≠ none then .error .authSignatureMissing
  else .next

/-- A sample environment for evaluating the definitions on ASCII input: the
digest is a 32-byte checksum standing in for SHA-256, and the Unicode paths,
which ASCII input never reaches, are the identity. -/
def sampleLib : Lib where
  sha256 := fun b =>
    (List.range 32).map (fun i =>
      byte ((b.enum.map (fun p => (p.1 + i + 1) * (p.2.val + 1))).sum + i))
  sha256_size := fun _ => by simp
  mapToUpper := id
  mapToLower := id
  trimFuncSpace := id
  trimRightFuncSpace := id

/-! ## Auxiliary definitions for the proofs -/

/-- The two encodings the vault uses. -/
def Encoding.used (enc : Encoding) : Prop := enc = StdEncoding ∨ enc = StdEncoding.WithPadding NoPadding

/-- The symbol indices of one five-byte quantum. -/
def quantumIdx (b0 b1 b2 b3 b4 : Byte) : List Nat :=
  [ b0.val / 8, b0.val % 8 * 4 + b1.val / 64, b1.val / 2 % 32, b1.val % 2 * 16 + b2.val / 16,
    b2.val % 16 * 2 + b3.val / 128, b3.val / 4 % 32, b3.val % 4 * 8 + b4.val / 32, b4.val % 32 ]

/-- The padding that closes a short quantum of `dlen` symbols. -/
def padTail (enc : Encoding) (dlen : Nat) : Bytes :=
  if enc.padChar ≠ NoPadding then List.replicate (8 - dlen) enc.padByte else []

/-- What the proofs need of a byte of an encoded component: it is ASCII and
stays so in lower case, upper-casing undoes lower-casing, and neither it nor
its lower case is a dot or a newline. -/
def wireByte (c : Byte) : Bool :=
  decide (c.val < 0x80) && decide ((lowerByte c).val < 0x80) && decide (upperByte (lowerByte c) = c)
    && decide (lowerByte c ≠ 46) && decide (c ≠ 10) && decide (c ≠ 13)

/-- The `int64` values whose varint takes exactly eight bytes. -/
def fitsEight (x : Int) : Prop := (2 ^ 48 ≤ x ∧ x < 2 ^ 55) ∨ (-2 ^ 55 ≤ x ∧ x < -2 ^ 48)

/-- Go's zig-zag value of `x`, as `PutVarint` computes it. -/
def zigzag (x : Int) : Nat :=
  if x < 0 then 2 ^ 64 - 1 - (uint64 x <<< 1) % 2 ^ 64 else (uint64 x <<< 1) % 2 ^ 64

/-- The signature string that `Sign` assembles from a nonce, a timestamp buffer
and a digest. -/
def wire (L : Lib) (nonce tb hash : Bytes) : VaultSignature :=
  ToLower L (StdEncoding.EncodeToString nonce) ++ [46] ++
    ToLower L (StdEncoding.EncodeToString tb) ++ [46] ++
    ToLower L (StdEncoding.EncodeToString hash)

/-- The key of the spec's round-trip scenario, `"a".repeat(32)`. -/
def sampleKey : VaultKey := str "aaaaaaaaaaaaaaaaaaaaaaaaaaaaaaaa"

/-- A second key. -/
def otherKey : VaultKey := str "bbbbbbbbbbbbbbbbbbbbbbbbbbbbbbbb"

/-- The body of the spec's round-trip scenario. -/
def sampleBody : Bytes := str "\x7b\x7d"

/-- A sample nonce of 32 bytes. -/
def sampleNonce : Bytes := List.replicate 32 7

/-- The instant 2024-01-01T00:00:00Z. -/
def t2024 : Time := ⟨1704067200000000000⟩

/-- The Unix epoch, 1970-01-01T00:00:00Z. -/
def epoch : Time := ⟨0⟩

/-- What `Sign` returns at the epoch for the sample key, body and nonce (in
`sampleLib`): the timestamp component encodes eight zero bytes. -/
def sigEpoch : VaultSignature :=
  str "a4dqobyha4dqobyha4dqobyha4dqobyha4dqobyha4dqobyha4dq====.aaaaaaaaaaaaa===.zqhvffoydnpkdzbhnkw7am3wxh6d7awfbbfy5uiuk6nn2iddu3uq===="

/-- What `Sign` returns at `t2024` for the sample key, body and nonce (in
`sampleLib`). -/
def sig2024 : VaultSignature :=
  str "a4dqobyha4dqobyha4dqobyha4dqobyha4dqobyha4dqobyha4dq====.qcaitaxc6wdam===.ru7o7icrakzwifogo4untcr35sou575qmejmg5bf22dtr2m2jp6a===="

/-- The timestamp buffer `PutVarint` fills for `t2024`. -/
def tb2024 : Bytes := [128, 128, 137, 130, 226, 245, 134, 6]

/-- The sample nonce, the buffer of `t2024` and the sample nonce again (as a
digest), each in lower-case base32 without padding, joined by dots. -/
def sigUnpadded : VaultSignature :=
  str "a4dqobyha4dqobyha4dqobyha4dqobyha4dqobyha4dqobyha4dq.qcaitaxc6wdam.a4dqobyha4dqobyha4dqobyha4dqobyha4dqobyha4dqobyha4dq"

/-- The lower-case alphabet of a signature component. -/
def base32lc : Bytes := str "abcdefghijklmnopqrstuvwxyz234567"

/-- A component written in lower-case base32 with padding: `m` characters of
the lower-case alphabet followed by `p` characters `=`. -/
def lowerPadded (c : Bytes) (m p : Nat) : Prop :=
  c.length = m + p ∧ (∀ x ∈ c.take m, x ∈ base32lc) ∧ c.drop m = List.replicate p 61

/-! ## The environment of the storage, vault and signer packages -/

/-- The operating system, the JSON codec outside plain ASCII and the other
libraries the storage and vault packages call, as parameters. -/
structure Env where
  /-- The process environment, `os.LookupEnv`. -/
  LookupEnv : Bytes → Option Bytes
  /-- The output of `json.Marshal` for a string with a byte outside `jsonPlain`. -/
  jsonQuote : Bytes → Bytes
  /-- The result of `json.Unmarshal` into a string for an input that is not a
  quoted run of `jsonPlain` bytes. -/
  jsonUnquote : Bytes → Except Err Bytes
  /-- Method `Time.String` of a `time.Time`. -/
  timeString : Time → Bytes
  /-- Method `Time.MarshalJSON`: the quoted RFC 3339 form, or its error for a
  year outside 0 to 9999. -/
  marshalTime : Time → Except Err Bytes
  /-- Method `Address.String` of go-ethereum, the checksummed hex form. -/
  addressString : Bytes → Bytes
  /-- The text of the errors whose wording belongs to a library. -/
  errorText : Err → Bytes
  /-- Method `Seal` of AES-GCM with no additional data, as a function of the
  key, the nonce and the plaintext: the ciphertext followed by the tag. -/
  gcmSeal : Bytes → Bytes → Bytes → Bytes
  /-- Method `Open` of AES-GCM with no additional data, `none` when the
  authentication fails. -/
  gcmOpen : Bytes → Bytes → Bytes → Option Bytes
  /-- Opening what was sealed under the same key and nonce gives the plaintext. -/
  gcm_open_seal : ∀ key nonce plaintext : Bytes,
    (key.length = 16 ∨ key.length = 24 ∨ key.length = 32) → nonce.length = 12 →
    gcmOpen key nonce (gcmSeal key nonce plaintext) = some plaintext
  /-- Function `crypto.Keccak256`. -/
  Keccak256 : Bytes → Bytes
  /-- A Keccak-256 digest has 32 bytes. -/
  Keccak256_length : ∀ b : Bytes, (Keccak256 b).length = 32
  /-- Function `crypto.PubkeyToAddress` at the public key of the private scalar `D`. -/
  PubkeyToAddress : Nat → Bytes
  /-- An address has 20 bytes. -/
  PubkeyToAddress_length : ∀ D : Nat, (PubkeyToAddress D).length = 20
  /-- Function `crypto.Sign` on a digest and the private scalar `D`. -/
  cryptoSign : Bytes → Nat → Except Err Bytes
  /-- A signature of `crypto.Sign` has 65 bytes, the last of which is the
  recovery id 0 or 1. -/
  cryptoSign_spec : ∀ (hash : Bytes) (D : Nat) (sig : Bytes), cryptoSign hash D = .ok sig →
    sig.length = 65 ∧ (sig.getD 64 0 = 0 ∨ sig.getD 64 0 = 1)
  /-- The outcome of `auth.Post("/vault/decrypt", &req, &res)` as a function of
  the request `(keyEncryptingKey, encryptedData)`: an error, or `res.Data`. -/
  postDecrypt : Bytes → Bytes → Except Err Bytes
  /-- The outcome of `auth.Post("/vault/encrypt", &req, &res)` as a function of
  the request data: an error, or `(keyEncryptingKey, encryptedData)`. -/
  postEncrypt : Bytes → Except Err (Bytes × Bytes)

/-! ## `encoding/json` on strings, `strings.TrimPrefix` and `copy` -/

/-- The bytes that `json.Marshal` copies unchanged into a string literal and
`json.Unmarshal` copies unchanged out of one: printable ASCII other than the
double quote, the backslash and the HTML characters. -/
def jsonPlain (c : Byte) : Bool :=
  decide (0x20 ≤ c.val) && decide (c.val < 0x7f) && decide (c ≠ 34) && decide (c ≠ 92)
    && decide (c ≠ 60) && decide (c ≠ 62) && decide (c ≠ 38)

/-- Function `json.Marshal` applied to a string. -/
def jsonMarshal (E : Env) (s : Bytes) : Bytes :=
  if s.all jsonPlain then [34] ++ s ++ [34] else E.jsonQuote s

/-- Function `json.Unmarshal` into a string variable. -/
def jsonUnmarshal (E : Env) (b : Bytes) : Except Err Bytes :=
  if 2 ≤ b.length ∧ b.head? = some 34 ∧ b.getLast? = some 34 ∧ ((b.drop 1).dropLast).all jsonPlain
  then .ok (b.drop 1).dropLast
  else E.jsonUnquote b

/-- Function `strings.HasPrefix`. -/
def HasPrefix (s pre : Bytes) : Bool := decide (pre.length ≤ s.length ∧ s.take pre.length = pre)

/-- Function `strings.TrimPrefix`. -/
def TrimPrefix (s pre : Bytes) : Bytes := if HasPrefix s pre then s.drop pre.length else s

/-- The builtin `copy(dst, src)`: the new content of `dst`. -/
def copy (dst src : Bytes) : Bytes := src.take dst.length ++ dst.drop src.length

/-! ## `crypto/rc4` and `pkg/storage/mongo/anonymize/rc4.go` -/

/-- The state of `rc4.Cipher`: the permutation and the two indices. -/
structure Cipher where
  s : List Nat
  i : Nat
  j : Nat
deriving DecidableEq, Repr

/-- The key-scheduling loop of `rc4.NewCipher`, with `n` rounds left. -/
def keySchedule (key : Bytes) : Nat → Nat → Nat → List Nat → List Nat
  | 0, _, _, s => s
  | n + 1, i, j, s =>
    let j1 := (j + s.getD i 0 % 256 + (key.getD (i % key.length) 0).val) % 256
    keySchedule key n (i + 1) j1 ((s.set i (s.getD j1 0)).set j1 (s.getD i 0))

/-- Function `rc4.NewCipher`. -/
def NewCipher (key : Bytes) : Except Err Cipher :=
  if key.length < 1 ∨ key.length > 256 then .error (.rc4KeySize key.length)
  else .ok ⟨keySchedule key 256 0 0 (List.range 256), 0, 0⟩

/-- Method `Cipher.XORKeyStream`: the bytes written to `dst` and the cipher afterwards. -/
def Cipher.XORKeyStream (c : Cipher) : Bytes → Bytes × Cipher
  | [] => ([], c)
  | v :: rest =>
    let i := (c.i + 1) % 256
    let x := c.s.getD i 0
    let j := (c.j + x % 256) % 256
    let y := c.s.getD j 0
    let s1 := (c.s.set i y).set j x
    let r := Cipher.XORKeyStream ⟨s1, i, j⟩ rest
    (byte (v.val ^^^ (s1.getD ((x + y) % 256) 0 % 256)) :: r.1, r.2)

/-- Function `encryptRC4`. -/
def encryptRC4 (key plaintext : Bytes) : Except Err Bytes :=
  match NewCipher key with
  | .error e => .error e
  | .ok cipher => .ok (cipher.XORKeyStream plaintext).1

/-- Function `decryptRC4`. -/
def decryptRC4 (key ciphertext : Bytes) : Except Err Bytes :=
  match NewCipher key with
  | .error e => .error e
  | .ok cipher => .ok (cipher.XORKeyStream ciphertext).1

/-! ## `pkg/storage/mongo/anonymize/anonymize.go` and the id types -/

/-- Function `anonymizationKey`. -/
def anonymizationKey (E : Env) : Bytes :=
  match E.LookupEnv (str "VAULT_ANONYMIZATION_KEY") with
  | some k => k
  | none => str "ee63fc6f6f1e362f6f6a05977034ac9648cd9fde"

/-- The type `anonymize.ObjectID`, an array of 12 bytes. -/
abbrev ObjectID := Bytes

/-- The zero value `ObjectID{}`. -/
def ObjectID.zero : ObjectID := List.replicate 12 0

/-- Method `ObjectID.UnmarshalJSON`: the value of the receiver afterwards. -/
def ObjectID.UnmarshalJSON (L : Lib) (E : Env) (o : ObjectID) (b : Bytes) : Except Err ObjectID :=
  let key := anonymizationKey E
  match jsonUnmarshal E b with
  | .error e => .error e
  | .ok id =>
    match (StdEncoding.WithPadding NoPadding).DecodeString (ToUpper L id) with
    | .error e => .error e
    | .ok s =>
      match decryptRC4 key s with
      | .error e => .error e
      | .ok plaintext => .ok (copy o plaintext)

/-- Method `ObjectID.MarshalJSON`. -/
def ObjectID.MarshalJSON (L : Lib) (E : Env) (o : ObjectID) : Except Err Bytes :=
  let key := anonymizationKey E
  match encryptRC4 key o with
  | .error e => .error e
  | .ok ciphertext =>
    .ok (jsonMarshal E (ToLower L ((StdEncoding.WithPadding NoPadding).EncodeToString ciphertext)))

/-- Method `ObjectID.UnmarshalJSONWithPrefix`: the value of the receiver afterwards. -/
def ObjectID.UnmarshalJSONWithPrefix (L : Lib) (E : Env) (o : ObjectID) (pre b : Bytes) :
    Except Err ObjectID :=
  match jsonUnmarshal E b with
  | .error e => .error e
  | .ok s => ObjectID.UnmarshalJSON L E o (jsonMarshal E (TrimPrefix s (pre ++ str "-")))

/-- Method `ObjectID.MarshalJSONWithPrefix`. -/
def ObjectID.MarshalJSONWithPrefix (L : Lib) (E : Env) (o : ObjectID) (pre : Bytes) :
    Except Err Bytes :=
  match ObjectID.MarshalJSON L E o with
  | .error e => .error e
  | .ok b =>
    match jsonUnmarshal E b with
    | .error e => .error e
    | .ok s => .ok (jsonMarshal E (pre ++ str "-" ++ s))

/-- Method `ObjectID.StringWithPrefix`. -/
def ObjectID.StringWithPrefix (L : Lib) (E : Env) (o : ObjectID) (pre : Bytes) : Bytes :=
  let key := anonymizationKey E
  match encryptRC4 key o with
  | .error _ => []
  | .ok ciphertext =>
    pre ++ str "-" ++ ToLower L ((StdEncoding.WithPadding NoPadding).EncodeToString ciphertext)

/-- Function `ObjectIDFromStringWithPrefix`. -/
def ObjectIDFromStringWithPrefix (L : Lib) (E : Env) (pre id : Bytes) : Except Err ObjectID :=
  let key := anonymizationKey E
  let id := TrimPrefix id (pre ++ str "-")
  match (StdEncoding.WithPadding NoPadding).DecodeString (ToUpper L id) with
  | .error e => .error e
  | .ok s =>
    match decryptRC4 key s with
    | .error e => .error e
    | .ok plaintext => .ok (copy ObjectID.zero plaintext)

/-- The type `DataEncryptingKeyID`. -/
abbrev DataEncryptingKeyID := ObjectID

/-- Method `DataEncryptingKeyID.MarshalJSON`. -/
def DataEncryptingKeyID.MarshalJSON (L : Lib) (E : Env) (o : DataEncryptingKeyID) :
    Except Err Bytes :=
  ObjectID.MarshalJSONWithPrefix L E o (str "dek")

/-- Method `DataEncryptingKeyID.UnmarshalJSON`: the value of the receiver afterwards. -/
def DataEncryptingKeyID.UnmarshalJSON (L : Lib) (E : Env) (o : DataEncryptingKeyID) (b : Bytes) :
    Except Err DataEncryptingKeyID :=
  ObjectID.UnmarshalJSONWithPrefix L E o (str "dek") b

/-- Method `DataEncryptingKeyID.String`. -/
def DataEncryptingKeyID.String (L : Lib) (E : Env) (o : DataEncryptingKeyID) : Bytes :=
  ObjectID.StringWithPrefix L E o (str "dek")

/-- Function `DataEncryptingKeyIDFromString`. -/
def DataEncryptingKeyIDFromString (L : Lib) (E : Env) (id : Bytes) :
    Except Err DataEncryptingKeyID :=
  ObjectIDFromStringWithPrefix L E (str "dek") id

/-- The type `WalletID`. -/
abbrev WalletID := ObjectID

/-- Method `WalletID.MarshalJSON`. -/
def WalletID.MarshalJSON (L : Lib) (E : Env) (o : WalletID) : Except Err Bytes :=
  ObjectID.MarshalJSONWithPrefix L E o (str "wlt")

/-- Method `WalletID.UnmarshalJSON`: the value of the receiver afterwards. -/
def WalletID.UnmarshalJSON (L : Lib) (E : Env) (o : WalletID) (b : Bytes) : Except Err WalletID :=
  ObjectID.UnmarshalJSONWithPrefix L E o (str "wlt") b

/-- Method `WalletID.String`. -/
def WalletID.String (L : Lib) (E : Env) (o : WalletID) : Bytes :=
  ObjectID.StringWithPrefix L E o (str "wlt")

/-- Function `WalletIDFromString`. -/
def WalletIDFromString (L : Lib) (E : Env) (id : Bytes) : Except Err WalletID :=
  ObjectIDFromStringWithPrefix L E (str "wlt") id

/-! ## `encoding/hex`, go-ethereum `common` and the signed payload -/

/-- The table `reverseHexTable` of `encoding/hex`: the value of a hex digit,
`none` for the entries `0xff`. -/
def fromHexChar (c : Byte) : Option Nat :=
  if 48 ≤ c.val ∧ c.val ≤ 57 then some (c.val - 48)
  else if 97 ≤ c.val ∧ c.val ≤ 102 then some (c.val - 97 + 10)
  else if 65 ≤ c.val ∧ c.val ≤ 70 then some (c.val - 65 + 10)
  else none

/-- Function `hex.DecodeString`: the bytes decoded before the first error, and that error. -/
def hex.DecodeString : Bytes → Bytes × Option Err
  | [] => ([], none)
  | [p] => if (fromHexChar p).isNone then ([], some (.hexInvalidByte p)) else ([], some .hexLength)
  | p :: q :: rest =>
    match fromHexChar p, fromHexChar q with
    | none, _ => ([], some (.hexInvalidByte p))
    | some _, none => ([], some (.hexInvalidByte q))
    | some a, some b =>
      let r := hex.DecodeString rest
      (byte (a * 16 + b) :: r.1, r.2)

/-- The table `hextable` of `encoding/hex`. -/
def hextable : Bytes := str "0123456789abcdef"

/-- Function `hex.EncodeToString`. -/
def hex.EncodeToString : Bytes → Bytes
  | [] => []
  | v :: rest => hextable.getD (v.val / 16) 0 :: hextable.getD (v.val % 16) 0 :: hex.EncodeToString rest

/-- Function `common.Hex2Bytes`, which drops the error of the decoder. -/
def common.Hex2Bytes (s : Bytes) : Bytes := (hex.DecodeString s).1

/-- Function `common.Bytes2Hex`. -/
def common.Bytes2Hex (d : Bytes) : Bytes := hex.EncodeToString d

/-- Function `common.Hex2BytesFixed`. -/
def common.Hex2BytesFixed (s : Bytes) (flen : Nat) : Bytes :=
  let h := (hex.DecodeString s).1
  if h.length = flen then h
  else if h.length > flen then h.drop (h.length - flen)
  else
    let hh : Bytes := List.replicate flen 0
    hh.take (flen - h.length) ++ copy (hh.drop (flen - h.length)) h

/-- Function `common.RightPadBytes`. -/
def common.RightPadBytes (slice : Bytes) (l : Nat) : Bytes :=
  if l ≤ slice.length then slice else copy (List.replicate l 0) slice

/-- Function `common.LeftPadBytes`. -/
def common.LeftPadBytes (slice : Bytes) (l : Nat) : Bytes :=
  if l ≤ slice.length then slice
  else
    let padded : Bytes := List.replicate l 0
    padded.take (l - slice.length) ++ copy (padded.drop (l - slice.length)) slice

/-- Function `packNum` of the ABI package on a non-negative integer: the
32-byte big-endian form of the number modulo `2 ^ 256`. -/
def packNum (n : Nat) : Bytes := (List.range 32).map (fun i => byte (n / 256 ^ (31 - i)))

/-- Method `Arguments.Pack` at the argument types `(bytes32, bytes32, address, bytes)`
of the signed payload: three static words, the offset of the dynamic
argument, then its length and its bytes padded to a multiple of 32. -/
def payloadPack (uniq nonce sender encodedParams : Bytes) : Bytes :=
  let inputOffset := 32 + 32 + 32 + 32
  let packed := packNum encodedParams.length ++
    common.RightPadBytes encodedParams ((encodedParams.length + 31) / 32 * 32)
  common.RightPadBytes uniq 32 ++ common.RightPadBytes nonce 32 ++ common.LeftPadBytes sender 32
    ++ packNum inputOffset ++ packed

/-- The values of `nonce` and `buffer` in `signer.Sign` (lines 147 to 156):
`rnd` is what `rand.Read` wrote into the nonce array. -/
def signBuffer (_uniq rnd sender encodedParams : Bytes) : Bytes × Bytes :=
  let nonce := copy (List.replicate 32 0) rnd
  let uniq := copy (List.replicate 32 0) (common.Hex2BytesFixed _uniq 32)
  (nonce, payloadPack uniq nonce sender encodedParams)

/-- A 20-byte sender address for closed examples. -/
def sampleSender : Bytes := List.replicate 20 0x11

/-! ## Error messages, `pkg/api/interop` and the error handler of `pkg/api` -/

/-- The digits of `formatInt` in base 10, most significant first; `fuel` bounds
the number of digits. -/
def decimalDigits : Nat → Nat → Bytes → Bytes
  | 0, _, acc => acc
  | fuel + 1, n, acc =>
    if n < 10 then byte (48 + n) :: acc
    else decimalDigits fuel (n / 10) (byte (48 + n % 10) :: acc)

/-- Function `strconv.Itoa` on a non-negative number, the verb `%d`. -/
def Itoa (n : Nat) : Bytes := decimalDigits (n + 1) n []

/-- Method `Error` of an error value: its message. The verbs `%s` and `%v`
print a string as it is, a `time.Time` by `Time.String` and an error by its
own message. -/
def Err.Error (E : Env) : Err → Bytes
  | .randRead => E.errorText .randRead
  | .corruptInput offset => str "illegal base32 data at input byte " ++ Itoa offset
  | .invalidSignature v => str "invalid signature: " ++ v
  | .invalidTimestamp v => str "invalid timestamp in signature: " ++ v
  | .signatureExpired timestamp now =>
    str "signature expired timestamp: " ++ E.timeString timestamp ++ str " current time: "
      ++ E.timeString now
  | .signatureNotYetValid timestamp now =>
    str "signature not yet valid timestamp: " ++ E.timeString timestamp ++ str " current time: "
      ++ E.timeString now
  | .invalidSignatureForData signature => str "invalid signature for data: " ++ signature
  | .invalidHashSize n => str "invalid vault key hash size: " ++ Itoa n
  | .keyNotConfigured hash => str "vault key for hash not configured: " ++ hash
  | .keyHashHeaderMissing => str "X-Vault-Key-Hash header not provided"
  | .signatureHeaderMissing => str "X-Vault-Signature header not provided"
  | .invalidVaultSignature signature keyHash err =>
    str "invalid vault signature: " ++ signature ++ str " for key hash: " ++ keyHash ++ str ", "
      ++ Err.Error E err
  | .authSecretNotConfigured =>
    str "VAULT_AUTH_SECRET_KEY not configured, X-Vault-Auth-Signature not supported"
  | .authSignature err => str "X-Vault-Auth-Signature: " ++ Err.Error E err
  | .authSignatureMissing =>
    str "VAULT_AUTH_SECRET_KEY configured, required X-Vault-Auth-Signature not provided"
  | .rc4KeySize k => str "crypto/rc4: invalid key size " ++ Itoa k
  | .aesKeySize k => str "crypto/aes: invalid key size " ++ Itoa k
  | .gcmOpenFailed => str "cipher: message authentication failed"
  | .ecdsaInvalidLength => str "invalid length, need 256 bits"
  | .ecdsaTooLarge => str "invalid private key, >=N"
  | .ecdsaZero => str "invalid private key, zero or negative"
  | .hexInvalidByte b => E.errorText (.hexInvalidByte b)
  | .hexLength => str "encoding/hex: odd length hex string"
  | .fiber _ message => message
  | .invalidSigner signer => str "invalid signer: " ++ E.addressString signer
  | .mongoNoDocuments => str "mongo: no documents in result"
  | .mongoDuplicateKey => E.errorText .mongoDuplicateKey
  | .mongoBadValue => E.errorText .mongoBadValue
  | .external message => message
  | .vaultKeyNotConfigured => str "no VAULT_KEY configured, please follow online documentation"
  | .authSecretTooShort min =>
    str "VAULT_AUTH_SECRET_KEY is too short, must be at least " ++ Itoa min ++ str " characters"
  | .abiCannotUse => E.errorText .abiCannotUse
  | .abiArgumentCount got want =>
    str "argument count mismatch: got " ++ Itoa got ++ str " for " ++ Itoa want
  | .abiBytesType => str "Bytes type is neither slice nor array"
  | .abiInvalidSign => str "abi: negatively-signed value cannot be packed into uint parameter"

/-- The envelope `interop.APIResponse` of an error response: `Data` is nil
and left out. -/
structure APIResponse where
  Success : Bool
  Error : Option Bytes
deriving DecidableEq, Repr

/-- Function `interop.NewErrorResponse` on an error value. -/
def NewErrorResponse (E : Env) (err : Err) : APIResponse := ⟨false, some (Err.Error E err)⟩

/-- The constant `fiber.StatusInternalServerError`. -/
def StatusInternalServerError : Nat := 500

/-- The call `errors.As(err, &e)` with `e` of type `*fiber.Error`: the code of
the error when it is a `*fiber.Error`. An error built by `fmt.Errorf` with
the verb `%v` wraps nothing. -/
def asFiberError : Err → Option Nat
  | .fiber code _ => some code
  | _ => none

/-- What the error handler writes: the status and the JSON envelope. -/
structure Response where
  status : Nat
  body : APIResponse
deriving DecidableEq, Repr

/-- The `ErrorHandler` of `NewAPI`. The envelope holds a flag and a string, so
its JSON serialisation cannot fail and the fallback response is never written. -/
def ErrorHandler (E : Env) (err : Err) : Response :=
  let code := match asFiberError err with
    | some c => c
    | none => StatusInternalServerError
  ⟨code, NewErrorResponse E err⟩

/-! ## `pkg/storage/mongo` -/

/-- The document type `dataEncryptingKey` of the mongo package. -/
structure mongo.dataEncryptingKey where
  ID_ : DataEncryptingKeyID
  KeyEncryptingKey_ : Bytes
  EncryptedKey_ : Bytes
  Expires_ : Option Time
deriving DecidableEq, Repr

/-- The document type `wallet` of the mongo package. -/
structure mongo.wallet where
  ID_ : WalletID
  Account_ : Bytes
  Name_ : Bytes
  Address_ : Bytes
  DataEncryptingKey_ : DataEncryptingKeyID
  EncryptedPrivateKey_ : Bytes
  Created_ : Time
  Updated_ : Time
  Expires_ : Option Time
deriving DecidableEq, Repr

/-- The database: the collections `keys` and `wallets`, each in natural order. -/
structure DB where
  keys : List mongo.dataEncryptingKey
  wallets : List mongo.wallet
deriving DecidableEq, Repr

/-- A `time.Time` after a round trip through BSON, which keeps whole milliseconds. -/
def bsonTime (t : Time) : Time := ⟨t.unixNano / 1000000 * 1000000⟩

/-- A wallet document as the collection holds it. -/
def mongo.wallet.bson (w : mongo.wallet) : mongo.wallet :=
  { w with Created_ := bsonTime w.Created_, Updated_ := bsonTime w.Updated_,
           Expires_ := w.Expires_.map bsonTime }

/-- Method `InsertOne` on the collection `keys`: the `_id` is unique. -/
def DB.InsertOneKey (db : DB) (k : mongo.dataEncryptingKey) : Except Err DB :=
  if db.keys.any (fun x => decide (x.ID_ = k.ID_)) then .error .mongoDuplicateKey
  else .ok { db with keys := db.keys ++ [{ k with Expires_ := k.Expires_.map bsonTime }] }

/-- Method `InsertOne` on the collection `wallets`: the `_id` is unique, and
so is the address, by the unique index of `NewMongoStorageBackend`. -/
def DB.InsertOneWallet (db : DB) (w : mongo.wallet) : Except Err DB :=
  if db.wallets.any (fun x => decide (x.ID_ = w.ID_ ∨ x.Address_ = w.Address_)) then
    .error .mongoDuplicateKey
  else .ok { db with wallets := db.wallets ++ [w.bson] }

/-- Method `Find` with `SetSkip(skip)` and `SetLimit(limit)` on the documents
that match the filter: a negative skip is an error of the server, the limit 0
is no limit, and a negative limit is its absolute value. -/
def Find {α : Type} (docs : List α) (skip limit : Int) : Except Err (List α) :=
  if skip < 0 then .error .mongoBadValue
  else if limit = 0 then .ok (docs.drop skip.toNat)
  else .ok ((docs.drop skip.toNat).take limit.natAbs)

/-- Method `CountDocuments` on the documents that match the filter. -/
def CountDocuments {α : Type} (docs : List α) : Int := docs.length

/-- Method `dataEncryptingKey.ID`. -/
def mongo.dataEncryptingKey.ID (L : Lib) (E : Env) (k : mongo.dataEncryptingKey) : Bytes :=
  DataEncryptingKeyID.String L E k.ID_

/-- Method `dataEncryptingKey.RefCount`. -/
def mongo.dataEncryptingKey.RefCount (db : DB) (k : mongo.dataEncryptingKey) : Int :=
  CountDocuments (db.wallets.filter (fun w => decide (w.DataEncryptingKey_ = k.ID_)))

/-- Method `wallet.ID` of the mongo package. -/
def mongo.wallet.ID (L : Lib) (E : Env) (w : mongo.wallet) : Bytes := WalletID.String L E w.ID_

/-- Method `wallet.DataEncryptingKey` of the mongo package. -/
def mongo.wallet.DataEncryptingKey (L : Lib) (E : Env) (w : mongo.wallet) : Bytes :=
  DataEncryptingKeyID.String L E w.DataEncryptingKey_

/-- The result types `listWalletsResult` and `listDataEncryptingKeysResult`. -/
structure listResult (α : Type) where
  Count_ : Int
  Page_ : List α
deriving DecidableEq, Repr

/-- Method `mongoStorageBackend.GetDataEncryptingKey`. -/
def mongoStorageBackend.GetDataEncryptingKey (L : Lib) (E : Env) (db : DB) (id : Bytes) :
    Except Err mongo.dataEncryptingKey :=
  match DataEncryptingKeyIDFromString L E id with
  | .error e => .error e
  | .ok _id =>
    match db.keys.find? (fun k => decide (k.ID_ = _id)) with
    | none => .error .mongoNoDocuments
    | some k => .ok k

/-- Method `mongoStorageBackend.CreateDataEncryptingKey`; `objectID` is the
value of `primitive.NewObjectID()`. The result is paired with the database
afterwards. -/
def mongoStorageBackend.CreateDataEncryptingKey (db : DB) (keyEncryptingKey encryptedKey : Bytes)
    (objectID : Bytes) : Except Err mongo.dataEncryptingKey × DB :=
  let k : mongo.dataEncryptingKey := ⟨copy ObjectID.zero objectID, keyEncryptingKey, encryptedKey, none⟩
  match db.InsertOneKey k with
  | .error e => (.error e, db)
  | .ok db1 => (.ok k, db1)

/-- The type `ecdsa.PrivateKey` on the curve secp256k1: the scalar `D`, which
determines the public key. -/
structure PrivateKey where
  D : Nat
deriving DecidableEq, Repr

/-- What one call of `vault.CreateWallet` draws from outside the program: the
key of `crypto.GenerateKey`, the document `$sample` picks, the bytes of the
two `rand.Read` calls, the two values of `primitive.NewObjectID()` and the
value of `time.Now()`. -/
structure Oracle where
  GenerateKey : Except Err PrivateKey
  sample : Nat
  keyRand : Except Err Bytes
  keyObjectID : Bytes
  nonceRand : Except Err Bytes
  walletObjectID : Bytes
  now : Time

/-- Method `vault.CreateDataEncryptingKey`. -/
def vault.CreateDataEncryptingKey (E : Env) (db : DB) (o : Oracle) :
    Except Err mongo.dataEncryptingKey × DB :=
  match o.keyRand with
  | .error e => (.error e, db)
  | .ok rnd =>
    let data := copy (List.replicate 32 0) rnd
    match E.postEncrypt data with
    | .error e => (.error e, db)
    | .ok res => mongoStorageBackend.CreateDataEncryptingKey db res.1 res.2 o.keyObjectID

/-- The stage `$lookup` of the pipeline for one key: the sub-pipeline matches
the wallets that reference the key and counts them, and `$count` emits no
document when nothing is left to count. -/
def lookupWallets (db : DB) (k : mongo.dataEncryptingKey) : List Int :=
  let matched := db.wallets.filter (fun w => decide (k.ID_ = w.DataEncryptingKey_))
  if matched = [] then [] else [(matched.length : Int)]

/-- The stages `$lookup`, `$unwind` and `$match` of the pipeline: `$unwind`
emits one document per element of `wallets`, hence none for an empty array,
and `$match` keeps the counts below `maxRefCount`. -/
def aggregate (db : DB) (maxRefCount : Int) : List (DataEncryptingKeyID × Int) :=
  ((db.keys.map (fun k => (lookupWallets db k).map (fun c => (k.ID_, c)))).flatten).filter
    (fun r => decide (r.2 < maxRefCount))

/-- Method `mongoStorageBackend.GetOrCreateRandomKey`. -/
def mongoStorageBackend.GetOrCreateRandomKey (L : Lib) (E : Env) (db : DB) (maxRefCount : Int)
    (o : Oracle) : Except Err mongo.dataEncryptingKey × DB :=
  let cursor := aggregate db maxRefCount
  match cursor.get? (o.sample % cursor.length) with
  | none => vault.CreateDataEncryptingKey E db o
  | some r => (mongoStorageBackend.GetDataEncryptingKey L E db (DataEncryptingKeyID.String L E r.1), db)

set_option linter.unusedVariables false in
/-- Method `mongoStorageBackend.ListDataEncryptingKeys`. The variable `count`
of the `if` statement, the number of documents, hides the parameter `count`
in the call of `SetLimit`. -/
def mongoStorageBackend.ListDataEncryptingKeys (db : DB) (offset count : Int) :
    Except Err (listResult mongo.dataEncryptingKey) :=
  let count := CountDocuments db.keys
  match Find db.keys offset count with
  | .error e => .error e
  | .ok page => .ok ⟨count, page⟩

/-- Method `mongoStorageBackend.CreateWallet`; `objectID` is the value of
`primitive.NewObjectID()` and `now` that of `time.Now()`. -/
def mongoStorageBackend.CreateWallet (L : Lib) (E : Env) (db : DB) (account name address : Bytes)
    (dataEncryptingKey encryptedPrivateKey : Bytes) (objectID : Bytes) (now : Time) :
    Except Err mongo.wallet × DB :=
  match DataEncryptingKeyIDFromString L E dataEncryptingKey with
  | .error e => (.error e, db)
  | .ok _dataEncryptingKey =>
    let w : mongo.wallet := ⟨copy ObjectID.zero objectID, account, name, address,
      _dataEncryptingKey, encryptedPrivateKey, now, now, none⟩
    match db.InsertOneWallet w with
    | .error e => (.error e, db)
    | .ok db1 => (.ok w, db1)

/-- Method `mongoStorageBackend.GetWallet`. -/
def mongoStorageBackend.GetWallet (E : Env) (db : DB) (account address : Bytes) :
    Except Err mongo.wallet :=
  match db.wallets.find? (fun w => decide (w.Account_ = account ∧ w.Address_ = address)) with
  | none => .error (.fiber 404 (str "wallet " ++ E.addressString address ++
      str " not found for account " ++ account))
  | some w => .ok w

set_option linter.unusedVariables false in
/-- Method `mongoStorageBackend.ListWallets`. The variable `count` of the `if`
statement, the number of documents, hides the parameter `count` in the call
of `SetLimit`. -/
def mongoStorageBackend.ListWallets (db : DB) (account : Bytes) (offset count : Int) :
    Except Err (listResult mongo.wallet) :=
  let filter := fun (w : mongo.wallet) => decide (w.Account_ = account)
  let count := CountDocuments (db.wallets.filter filter)
  match Find (db.wallets.filter filter) offset count with
  | .error e => .error e
  | .ok page => .ok ⟨count, page⟩

/-! ## `pkg/vault` -/

/-- The order `secp256k1N` of the curve. -/
def secp256k1N : Nat := 0xFFFFFFFFFFFFFFFFFFFFFFFFFFFFFFFEBAAEDCE6AF48A03BBFD25E8CD0364141

/-- The `n` low bytes of `x`, big-endian. -/
def beBytes : Nat → Nat → Bytes
  | 0, _ => []
  | n + 1, x => beBytes n (x / 256) ++ [byte x]

/-- The number of bytes of `big.Int.Bytes`, none for zero; `fuel` bounds it. -/
def byteLen : Nat → Nat → Nat
  | 0, _ => 0
  | fuel + 1, x => if x = 0 then 0 else byteLen fuel (x / 256) + 1

/-- Function `math.PaddedBigBytes`: the big-endian bytes of `x`, padded on the
left to `n` bytes when they are fewer. -/
def PaddedBigBytes (x n : Nat) : Bytes := beBytes (max n (byteLen x x)) x

/-- Method `big.Int.SetBytes`: the number a big-endian byte string denotes. -/
def SetBytes (d : Bytes) : Nat := d.foldl (fun acc b => acc * 256 + b.val) 0

/-- Function `crypto.FromECDSA`. -/
def FromECDSA (priv : PrivateKey) : Bytes := PaddedBigBytes priv.D (256 / 8)

/-- Function `crypto.ToECDSA`. -/
def ToECDSA (d : Bytes) : Except Err PrivateKey :=
  if 8 * d.length ≠ 256 then .error .ecdsaInvalidLength
  else if SetBytes d ≥ secp256k1N then .error .ecdsaTooLarge
  else if SetBytes d ≤ 0 then .error .ecdsaZero
  else .ok ⟨SetBytes d⟩

/-- Function `aes.NewCipher` followed by `cipher.NewGCM`: the error for a key
that has not 16, 24 or 32 bytes. -/
def newGCM (secretKey : Bytes) : Option Err :=
  if secretKey.length = 16 ∨ secretKey.length = 24 ∨ secretKey.length = 32 then none
  else some (.aesKeySize secretKey.length)

/-- Function `encrypt` of the vault package; `rand` is what `rand.Read(nonce)`
does. The nonce of 12 bytes is followed by the output of `Seal`. -/
def encrypt (E : Env) (secretKey plaintext : Bytes) (rand : Except Err Bytes) : Except Err Bytes :=
  match newGCM secretKey with
  | some err => .error err
  | none =>
    match rand with
    | .error err => .error err
    | .ok rnd =>
      let nonce := copy (List.replicate 12 0) rnd
      .ok (nonce ++ E.gcmSeal secretKey nonce plaintext)

/-- Function `decrypt` of the vault package. Slicing a ciphertext shorter
than the nonce panics. -/
def decrypt (E : Env) (secretKey ciphertext : Bytes) : Result Bytes :=
  match newGCM secretKey with
  | some err => .error err
  | none =>
    let nonceSize := 12
    if ciphertext.length < nonceSize then .panic
    else
      match E.gcmOpen secretKey (ciphertext.take nonceSize) (ciphertext.drop nonceSize) with
      | none => .error .gcmOpenFailed
      | some plaintext => .ok plaintext

set_option linter.dupNamespace false in
/-- The type `wallet` of the vault package, which wraps a wallet of the storage. -/
structure vault.wallet where
  wallet : mongo.wallet
deriving DecidableEq, Repr

/-- Method `wallet.PrivateKey` of the vault package. -/
def vault.wallet.PrivateKey (L : Lib) (E : Env) (db : DB) (w : vault.wallet) : Result PrivateKey :=
  match mongoStorageBackend.GetDataEncryptingKey L E db (w.wallet.DataEncryptingKey L E) with
  | .error err => .error err
  | .ok dataEncryptingKey =>
    match E.postDecrypt dataEncryptingKey.KeyEncryptingKey_ dataEncryptingKey.EncryptedKey_ with
    | .error err => .error err
    | .ok data =>
      match decrypt E data w.wallet.EncryptedPrivateKey_ with
      | .error err => .error err
      | .panic => .panic
      | .ok b =>
        match ToECDSA b with
        | .error err => .error err
        | .ok privateKey => .ok privateKey

/-- Method `vault.CreateWallet`: the result and the database afterwards. -/
def vault.CreateWallet (L : Lib) (E : Env) (db : DB) (account name : Bytes) (o : Oracle) :
    Except Err vault.wallet × DB :=
  match o.GenerateKey with
  | .error err => (.error err, db)
  | .ok privateKey =>
    let privateKeyBytes := FromECDSA privateKey
    match mongoStorageBackend.GetOrCreateRandomKey L E db 1000 o with
    | (.error err, db1) => (.error err, db1)
    | (.ok dataEncryptingKey, db1) =>
      match E.postDecrypt dataEncryptingKey.KeyEncryptingKey_ dataEncryptingKey.EncryptedKey_ with
      | .error err => (.error err, db1)
      | .ok data =>
        match encrypt E data privateKeyBytes o.nonceRand with
        | .error err => (.error err, db1)
        | .ok b =>
          match mongoStorageBackend.CreateWallet L E db1 account name
              (E.PubkeyToAddress privateKey.D) (dataEncryptingKey.ID L E) b o.walletObjectID o.now with
          | (.error err, db2) => (.error err, db2)
          | (.ok w, db2) => (.ok ⟨w⟩, db2)

/-- Method `vault.GetWallet`. -/
def vault.GetWallet (E : Env) (db : DB) (account address : Bytes) : Except Err vault.wallet :=
  match mongoStorageBackend.GetWallet E db account address with
  | .error err => .error err
  | .ok w => .ok ⟨w⟩

/-- Method `vault.ListWallets`. -/
def vault.ListWallets (db : DB) (account : Bytes) (offset count : Int) :
    Except Err (listResult vault.wallet) :=
  match mongoStorageBackend.ListWallets db account offset count with
  | .error err => .error err
  | .ok r => .ok ⟨r.Count_, r.Page_.map (fun w => ⟨w⟩)⟩

/-- Function `json.Marshal` on a map with string keys, given the entries in
the order of their keys with the encoding of each value: the first error of a
value, or the members of the object. -/
def jsonMarshalMap (E : Env) : List (Bytes × Except Err Bytes) → Except Err (List Bytes)
  | [] => .ok []
  | (k, v) :: rest =>
    match v with
    | .error err => .error err
    | .ok b =>
      match jsonMarshalMap E rest with
      | .error err => .error err
      | .ok out => .ok ((jsonMarshal E k ++ str ":" ++ b) :: out)

/-- The text of a JSON object with the given members. -/
def jsonObject (members : List Bytes) : Bytes :=
  str "\x7b" ++ (members.intersperse (str ",")).flatten ++ str "\x7d"

/-- The map that `wallet.MarshalJSON` of the vault package builds, in the
order of its keys, each value with its JSON encoding: an address is encoded
as the string `0x` and its hex digits, a nil pointer as `null`. -/
def vault.wallet.jsonMap (L : Lib) (E : Env) (w : vault.wallet) : List (Bytes × Except Err Bytes) :=
  [ (str "address", .ok (jsonMarshal E (str "0x" ++ hex.EncodeToString w.wallet.Address_))),
    (str "created", E.marshalTime w.wallet.Created_),
    (str "expires", match w.wallet.Expires_ with
      | none => .ok (str "null")
      | some t => E.marshalTime t),
    (str "id", .ok (jsonMarshal E (w.wallet.ID L E))),
    (str "name", .ok (jsonMarshal E w.wallet.Name_)),
    (str "updated", E.marshalTime w.wallet.Updated_) ]

/-- Method `wallet.MarshalJSON` of the vault package. -/
def vault.wallet.MarshalJSON (L : Lib) (E : Env) (w : vault.wallet) : Except Err Bytes :=
  match jsonMarshalMap E (w.jsonMap L E) with
  | .error err => .error err
  | .ok members => .ok (jsonObject members)

/-! ## Runs of creations -/

/-- Creating wallets one after another, every creation succeeding: the store
afterwards, and none when a creation fails. Each step has its account, its
name and what the creation draws from outside. -/
def createWallets (L : Lib) (E : Env) : List (Bytes × Bytes × Oracle) → DB → Option DB
  | [], db => some db
  | step :: rest, db =>
    match vault.CreateWallet L E db step.1 step.2.1 step.2.2 with
    | (.ok _, db1) => createWallets L E rest db1
    | (.error _, _) => none

/-- The invariant of a store that successful creations have filled: the key
ids have 12 bytes and differ from one another, every wallet references a
stored key, and either the store is empty or every key but the last is
referenced by 1000 wallets and the last by 1 to 1000, which accounts for all
the wallets. -/
def DB.filled (db : DB) : Prop :=
  (∀ k ∈ db.keys, k.ID_.length = 12) ∧
  (∀ w ∈ db.wallets, ∃ k ∈ db.keys, k.ID_ = w.DataEncryptingKey_) ∧
  db.keys.Pairwise (fun a b => a.ID_ ≠ b.ID_) ∧
  ((db.keys = [] ∧ db.wallets = []) ∨
    ∃ init last, db.keys = init ++ [last] ∧ (∀ k ∈ init, k.RefCount db = 1000) ∧
      1 ≤ last.RefCount db ∧ last.RefCount db ≤ 1000 ∧
      (db.wallets.length : Int) = 1000 * (init.length : Int) + last.RefCount db)

/-! ## `pkg/signer` -/

/-- The type `signature` of the signer package. -/
structure signature where
  Nonce_ : Bytes
  R_ : Bytes
  S_ : Bytes
  V_ : Byte
deriving DecidableEq, Repr

/-- The type `cacheKey` of the signer package. -/
structure cacheKey where
  Account : Bytes
  Signer : Bytes
deriving DecidableEq, Repr

/-- The cache `lru.Cache[cacheKey, ecdsa.PrivateKey]` of `NewSigner`: the
entries, most recently used first. -/
abbrev Cache := List (cacheKey × PrivateKey)

/-- The size `10 * 1024` of the cache of `NewSigner`. -/
def cacheSize : Nat := 10 * 1024

/-- Method `Cache.Get`: the value found, and the cache with that entry moved
to the front. -/
def Cache.Get (c : Cache) (key : cacheKey) : Option PrivateKey × Cache :=
  match c.find? (fun e => decide (e.1 = key)) with
  | some e => (some e.2, e :: c.filter (fun x => decide (x.1 ≠ key)))
  | none => (none, c)

/-- Method `Cache.Add`: an entry of the key is replaced and moved to the
front; otherwise the entry is put in front and the oldest one is evicted
when the cache is over its size. -/
def Cache.Add (c : Cache) (key : cacheKey) (value : PrivateKey) : Cache :=
  if c.any (fun e => decide (e.1 = key)) then (key, value) :: c.filter (fun x => decide (x.1 ≠ key))
  else ((key, value) :: c).take cacheSize

/-- The end of `signer.Sign` (lines 186 to 213): the signature over the digest
and the result. Reading `signatureBytes[64]` panics on a shorter signature. -/
def signResult {α : Type} (E : Env) (hash nonce : Bytes) (privateKey : PrivateKey)
    (_args : List α) : Result (List (α ⊕ signature)) :=
  match E.cryptoSign hash privateKey.D with
  | .error err => .error err
  | .ok signatureBytes =>
    match signatureBytes.get? 64 with
    | none => .panic
    | some b =>
      let v := byte (b.val + 27)
      let r := copy (List.replicate 32 0) (signatureBytes.take 32)
      let s := copy (List.replicate 32 0) ((signatureBytes.take 64).drop 32)
      let sig : signature :=
        ⟨str "0x" ++ common.Bytes2Hex nonce, str "0x" ++ common.Bytes2Hex r,
          str "0x" ++ common.Bytes2Hex s, v⟩
      .ok (_args.map Sum.inl ++ [Sum.inr sig])

/-- Method `signer.Sign` from line 136 on. The outcome of lines 109 to 135,
the packing of the selector and the converted arguments, is the parameter
`encodedParams`; `rnd` is what `rand.Read` wrote into the nonce array. The
result is paired with the cache afterwards. -/
def signer.Sign {α : Type} (L : Lib) (E : Env) (db : DB) (cache : Cache)
    (account sender _uniq _signer : Bytes) (_args : List α) (encodedParams : Result Bytes)
    (rnd : Bytes) : Result (List (α ⊕ signature)) × Cache :=
  match encodedParams with
  | .error err => (.error err, cache)
  | .panic => (.panic, cache)
  | .ok encodedParams =>
    let nb := signBuffer _uniq rnd sender encodedParams
    let hash := E.Keccak256 nb.2
    match cache.Get ⟨account, _signer⟩ with
    | (some pk, cache1) => (signResult E hash nb.1 pk _args, cache1)
    | (none, cache1) =>
      match vault.GetWallet E db account _signer with
      | .error err => (.error err, cache1)
      | .ok wallet =>
        if wallet.wallet.Address_ ≠ _signer then (.error (.invalidSigner _signer), cache1)
        else
          match wallet.PrivateKey L E db with
          | .error err => (.error err, cache1)
          | .panic => (.panic, cache1)
          | .ok pk => (signResult E hash nb.1 pk _args, cache1.Add ⟨account, _signer⟩ pk)

/-- A lower-case hex digit. -/
def isHexDigit (c : Byte) : Bool := (48 ≤ c.val && c.val ≤ 57) || (97 ≤ c.val && c.val ≤ 102)

/-! ## The auth secret and `NewAuth` of `pkg/auth/auth.go` -/

/-- The constant `minAuthSecretKeyLength`. -/
def minAuthSecretKeyLength : Nat := 32

/-- Method `AuthSecretKey.Validate`: the error it returns, if any. The length
of a Go string is its number of bytes. -/
def AuthSecretKey.Validate (k : AuthSecretKey) : Option Err :=
  if k.length < minAuthSecretKeyLength then some (.authSecretTooShort minAuthSecretKeyLength)
  else none

/-- Function `os.Getenv`: the value of the variable, empty when it is not set. -/
def Getenv (E : Env) (key : Bytes) : Bytes := (E.LookupEnv key).getD []

/-- Function `NewAuth`: the authenticator, with the warnings it logs. The
error of `Validate` is logged and the secret is installed all the same. -/
def NewAuth (L : Lib) (E : Env) : Except Err (auth × List Bytes) :=
  let env := TrimSpace L (Getenv E (str "VAULT_KEY"))
  if env = [] then .error .vaultKeyNotConfigured
  else
    let authSecretKey := TrimSpace L (Getenv E (str "VAULT_AUTH_SECRET_KEY"))
    let secret : Option AuthSecretKey × List Bytes :=
      if authSecretKey ≠ [] then
        match AuthSecretKey.Validate authSecretKey with
        | some err => (some authSecretKey, [Err.Error E err])
        | none => (some authSecretKey, [])
      else (none, [str "VAULT_AUTH_SECRET_KEY not configured. It is recommended for self-hosted vaults to configure this."])
    let vaultKeys := Split 44 env
    .ok (⟨vaultKeys.map (TrimSpace L), secret.1⟩, secret.2)

/-- A signature as `sig2024`, with one zero byte after the eight bytes of the
timestamp component. -/
def sigTrailing : VaultSignature :=
  wire sampleLib sampleNonce (tb2024 ++ [0])
    (sampleLib.sha256 (sampleBody ++ sampleNonce ++ tb2024 ++ sampleKey))

/-- A signature at the epoch whose timestamp component is the varint of 0
written in eight bytes, seven of them continuation bytes. -/
def sigLongZero : VaultSignature :=
  wire sampleLib sampleNonce [128, 128, 128, 128, 128, 128, 128, 0]
    (sampleLib.sha256 (sampleBody ++ sampleNonce ++ tb0 ++ sampleKey))

/-- A signature as `sig2024` whose nonce component encodes the last byte of
the sample body followed by the sample nonce. -/
def sigShifted : VaultSignature :=
  wire sampleLib (str "\x7d" ++ sampleNonce) tb2024
    (sampleLib.sha256 (sampleBody ++ sampleNonce ++ tb2024 ++ sampleKey))

/-! ## The key cache in `signer.Sign` -/

/-- Lines 163 to 184 of `signer.Sign` against any vault: `getWallet` is the
outcome of `s.vault.GetWallet` and `unwrap` that of `wallet.PrivateKey`, both
consulted on a miss only. The private key or the failure, and the cache
afterwards. -/
def signer.privateKey (cache : Cache) (account _signer : Bytes)
    (getWallet : Except Err vault.wallet) (unwrap : vault.wallet → Result PrivateKey) :
    Result PrivateKey × Cache :=
  match cache.Get ⟨account, _signer⟩ with
  | (some pk, cache1) => (.ok pk, cache1)
  | (none, cache1) =>
    match getWallet with
    | .error err => (.error err, cache1)
    | .ok wallet =>
      if wallet.wallet.Address_ ≠ _signer then (.error (.invalidSigner _signer), cache1)
      else
        match unwrap wallet with
        | .error err => (.error err, cache1)
        | .panic => (.panic, cache1)
        | .ok pk => (.ok pk, cache1.Add ⟨account, _signer⟩ pk)

/-- Lines 186 to 213 of `signer.Sign` after lines 163 to 184: a failure to find
the private key is returned, a key signs. -/
def signer.finish {α : Type} (E : Env) (hash nonce : Bytes) (_args : List α) :
    Result PrivateKey × Cache → Result (List (α ⊕ signature)) × Cache
  | (.ok pk, cache) => (signResult E hash nonce pk _args, cache)
  | (.error err, cache) => (.error err, cache)
  | (.panic, cache) => (.panic, cache)

/-! ## go-ethereum `accounts/abi`, `packConvert` and the first phase of `signer.Sign` -/

/-- The type `abi.Type` of go-ethereum, by its kind field `T` with the fields
that this kind uses. -/
inductive abi.Ty where
  | IntTy (Size : Nat)
  | UintTy (Size : Nat)
  | BoolTy
  | StringTy
  | SliceTy (Elem : abi.Ty)
  | ArrayTy (Size : Nat) (Elem : abi.Ty)
  | TupleTy (TupleRawNames : List Bytes) (TupleElems : List abi.Ty)
  | AddressTy
  | FixedBytesTy (Size : Nat)
  | BytesTy
  | FunctionTy

/-- The kinds of `reflect` that the values and types of the signer have. The
only pointer type among them is `*big.Int`. -/
inductive reflect.Kind where
  | Invalid
  | Bool
  | Int8
  | Int16
  | Int32
  | Int64
  | Uint8
  | Uint16
  | Uint32
  | Uint64
  | Float64
  | Array
  | Map
  | Ptr
  | Slice
  | String
  | Struct
deriving DecidableEq, Repr

/-- The Go values held in an `any` here: what `encoding/json` decodes (nil,
bool, float64 given by its bits, string, `[]any`, `map[string]any`) and what
`packConvert` builds (a `*big.Int`, the nil pointer when `none`; a byte slice;
an array of bytes; a struct by the values of its fields). -/
inductive Any where
  | nil
  | bool (b : Bool)
  | float64 (bits : Nat)
  | string (s : Bytes)
  | slice (xs : List Any)
  | map (m : List (Bytes × Any))
  | bigInt (x : Option Int)
  | bytes (b : Bytes)
  | array (b : Bytes)
  | struct (fields : List Any)

/-- Method `Kind` of `reflect.ValueOf(v)`. -/
def Any.Kind : Any → reflect.Kind
  | .nil => .Invalid
  | .bool _ => .Bool
  | .float64 _ => .Float64
  | .string _ => .String
  | .slice _ => .Slice
  | .map _ => .Map
  | .bigInt _ => .Ptr
  | .bytes _ => .Slice
  | .array _ => .Array
  | .struct _ => .Struct

/-- An index expression `m[key]` on a `map[string]any`: nil when the key is absent. -/
def mapIndex (m : List (Bytes × Any)) (key : Bytes) : Any :=
  match m.lookup key with
  | some v => v
  | none => .nil

/-- Function `reflectIntType` of the ABI package, by the kind of the type it
returns: a native integer for the sizes 8, 16, 32 and 64, otherwise `*big.Int`. -/
def reflectIntType (unsigned : Bool) (size : Nat) : reflect.Kind :=
  if unsigned ∧ size = 8 then .Uint8
  else if unsigned ∧ size = 16 then .Uint16
  else if unsigned ∧ size = 32 then .Uint32
  else if unsigned ∧ size = 64 then .Uint64
  else if size = 8 then .Int8
  else if size = 16 then .Int16
  else if size = 32 then .Int32
  else if size = 64 then .Int64
  else .Ptr

/-- Method `Type.GetType` followed by `Kind`. -/
def abi.Ty.Kind : abi.Ty → reflect.Kind
  | .IntTy size => reflectIntType false size
  | .UintTy size => reflectIntType true size
  | .BoolTy => .Bool
  | .StringTy => .String
  | .SliceTy _ => .Slice
  | .ArrayTy _ _ => .Array
  | .TupleTy _ _ => .Struct
  | .AddressTy => .Array
  | .FixedBytesTy _ => .Array
  | .BytesTy => .Slice
  | .FunctionTy => .Array

/-- The length of the Go type of `Type.GetType` when it is an array of bytes:
`common.Address`, `[N]uint8` for `bytesN`, `[24]uint8` for a function and
`[N]uint8` for the array type `uint8[N]`. -/
def abi.Ty.byteArrayLen : abi.Ty → Option Nat
  | .AddressTy => some 20
  | .FixedBytesTy size => some size
  | .FunctionTy => some 24
  | .ArrayTy size (.UintTy 8) => some size
  | _ => none

/-- Whether `reflect.Value.Set` accepts the value for a struct field of the Go
type of `Type.GetType`: the type of the value is assignable to that of the
field. A struct value is one that `packConvert` built for the type of the
field. -/
def abi.Ty.assignable : abi.Ty → Any → Bool
  | .IntTy size, .bigInt _ => reflectIntType false size = .Ptr
  | .UintTy size, .bigInt _ => reflectIntType true size = .Ptr
  | .BoolTy, .bool _ => true
  | .StringTy, .string _ => true
  | .TupleTy _ _, .struct _ => true
  | .BytesTy, .bytes _ => true
  | .SliceTy (.UintTy 8), .bytes _ => true
  | t, .array b => t.byteArrayLen = some b.length
  | _, _ => false

mutual
/-- Method `Type.String`: the canonical name of the type. -/
def abi.Ty.String : abi.Ty → Bytes
  | .IntTy size => str "int" ++ Itoa size
  | .UintTy size => str "uint" ++ Itoa size
  | .BoolTy => str "bool"
  | .StringTy => str "string"
  | .SliceTy elem => elem.String ++ str "[]"
  | .ArrayTy size elem => elem.String ++ str "[" ++ Itoa size ++ str "]"
  | .TupleTy _ elems => str "(" ++ (str ",").intercalate (abi.Ty.Strings elems) ++ str ")"
  | .AddressTy => str "address"
  | .FixedBytesTy size => str "bytes" ++ Itoa size
  | .BytesTy => str "bytes"
  | .FunctionTy => str "function"
/-- The names of a list of types. -/
def abi.Ty.Strings : List abi.Ty → List Bytes
  | [] => []
  | t :: rest => t.String :: abi.Ty.Strings rest
end

mutual
/-- Function `isDynamicType` of the ABI package. -/
def isDynamicType : abi.Ty → Bool
  | .TupleTy _ elems => anyDynamicType elems
  | .StringTy => true
  | .BytesTy => true
  | .SliceTy _ => true
  | .ArrayTy _ elem => isDynamicType elem
  | _ => false
/-- The loop of `isDynamicType` over the elements of a tuple. -/
def anyDynamicType : List abi.Ty → Bool
  | [] => false
  | t :: rest => isDynamicType t || anyDynamicType rest
end

mutual
/-- Function `getTypeSize` of the ABI package. -/
def getTypeSize : abi.Ty → Nat
  | .ArrayTy size elem =>
    if isDynamicType elem then 32
    else
      match elem with
      | .ArrayTy _ _ => size * getTypeSize elem
      | .TupleTy _ _ => size * getTypeSize elem
      | _ => size * 32
  | .TupleTy names elems => if isDynamicType (.TupleTy names elems) then 32 else sumTypeSize elems
  | _ => 32
/-- The loop of `getTypeSize` over the elements of a tuple. -/
def sumTypeSize : List abi.Ty → Nat
  | [] => 0
  | t :: rest => getTypeSize t + sumTypeSize rest
end

/-- The type `abi.Argument`: the name and the type of an input. -/
structure abi.Argument where
  Name : Bytes
  Ty : abi.Ty

/-- The fields of `abi.Method` that the signer reads. -/
structure abi.Method where
  Name : Bytes
  RawName : Bytes
  Inputs : List abi.Argument
  Sig : Bytes
  ID : Bytes

/-- Function `abi.NewMethod` for a function: the signature is the raw name
and the names of the input types, the id the first four bytes of its
Keccak-256 digest. -/
def abi.NewMethod (E : Env) (name rawName : Bytes) (inputs : List abi.Argument) : abi.Method :=
  let types := inputs.map (fun input => input.Ty.String)
  let sig := rawName ++ str "(" ++ (str ",").intercalate types ++ str ")"
  ⟨name, rawName, inputs, sig, (E.Keccak256 sig).take 4⟩

/-- The type `abi.ABI`: its map `Methods`. -/
structure ABI where
  Methods : List (Bytes × abi.Method)

/-- An index expression `a.Methods[name]`: the zero method when the name is absent. -/
def ABI.method (a : ABI) (name : Bytes) : abi.Method :=
  match a.Methods.lookup name with
  | some m => m
  | none => ⟨[], [], [], [], []⟩

/-- What the signer takes from Go and go-ethereum beyond `Env`: the
conversion `int64(f)` of a float64 given by its bits; `Type.pack` on slice,
array and tuple types; and lines 109 to 111 of `signer.Sign`, which marshal
the fragment and parse it with `abi.JSON` as an ABI of one entry. -/
structure AbiEnv where
  int64 : Nat → Int
  packComposite : abi.Ty → Any → Result Bytes
  JSON : List (Bytes × Any) → Except Err ABI

/-- The value of a byte as a digit in `nat.scan` of `math/big`, for a base of
at most 36. -/
def digitVal (ch : Byte) : Option Nat :=
  if 48 ≤ ch.val ∧ ch.val ≤ 57 then some (ch.val - 48)
  else if 97 ≤ ch.val ∧ ch.val ≤ 122 then some (ch.val - 97 + 10)
  else if 65 ≤ ch.val ∧ ch.val ≤ 90 then some (ch.val - 65 + 10)
  else none

/-- The digits that `nat.scan` reads in the base, up to the end of the
string: the number, `none` when a byte is not a digit of the base. -/
def scanDigits (base : Nat) : Bytes → Nat → Option Nat
  | [], acc => some acc
  | ch :: rest, acc =>
    match digitVal ch with
    | some d1 => if d1 < base then scanDigits base rest (acc * base + d1) else none
    | none => none

/-- Method `(*big.Int).SetString` for a base from 2 to 36: an optional sign
and at least one digit of the base, up to the end of the string; `none` is the
failure, on which the method returns a nil pointer and false. -/
def SetString (s : Bytes) (base : Nat) : Option Int :=
  let neg := decide (s.head? = some 45)
  let digits := if s.head? = some 43 ∨ s.head? = some 45 then s.drop 1 else s
  if digits = [] then none
  else
    match scanDigits base digits 0 with
    | some n => some (if neg then -(n : Int) else (n : Int))
    | none => none

mutual
/-- Function `packConvert`. A type assertion without the comma, a slice
expression out of range, `reflect.Copy` on elements of different types and
`reflect.Value.Set` on a value that is not assignable panic. -/
def packConvert (A : AbiEnv) (arg : abi.Ty) (param : Any) : Result Any :=
  if arg.Kind = .Ptr then
    match param with
    | .string s =>
      if HasPrefix s (str "0x") then .ok (.bigInt (SetString (s.drop 2) 16))
      else .ok (.bigInt (SetString s 10))
    | .float64 i => .ok (.bigInt (some (A.int64 i)))
    | _ => .ok param
  else if arg.Kind = .Struct then
    match param with
    | .map p =>
      match arg with
      | .TupleTy names elems =>
        match packConvertFields A names elems p with
        | .ok out => .ok (.struct out)
        | .error err => .error err
        | .panic => .panic
      | _ => .ok (.struct [])
    | _ => .panic
  else if arg.Kind = .Array then
    match param with
    | .string s =>
      if s.length < 2 then .panic
      else
        let src := common.Hex2Bytes (s.drop 2)
        match arg.byteArrayLen with
        | some n => .ok (.array (copy (List.replicate n 0) src))
        | none => .panic
    | _ => .panic
  else if arg.Kind = .Slice then
    match param with
    | .string s => if s.length < 2 then .panic else .ok (.bytes (common.Hex2Bytes (s.drop 2)))
    | _ => .panic
  else .ok param
/-- The loop of `packConvert` over the elements of a tuple (lines 88 to 94):
the values of the fields of `out`. -/
def packConvertFields (A : AbiEnv) : List Bytes → List abi.Ty → List (Bytes × Any) → Result (List Any)
  | _, [], _ => .ok []
  | [], _ :: _, _ => .panic
  | name :: names, a :: args, p =>
    match packConvert A a (mapIndex p name) with
    | .error err => .error err
    | .panic => .panic
    | .ok v =>
      if a.assignable v then
        match packConvertFields A names args p with
        | .ok out => .ok (v :: out)
        | .error err => .error err
        | .panic => .panic
      else .panic
end

/-- Function `math.U256Bytes`: the 32 bytes of the integer modulo `2 ^ 256`. -/
def U256Bytes (x : Int) : Bytes := packNum (x % 2 ^ 256).toNat

/-- Function `packBytesSlice` of the ABI package. -/
def packBytesSlice (b : Bytes) (l : Nat) : Bytes :=
  packNum l ++ common.RightPadBytes b ((l + 31) / 32 * 32)

/-- Method `Type.pack`: `indirect`, which panics on a nil pointer, then
`typeCheck` and `packElement`, which refuses a negative number for an
unsigned type. -/
def abi.Ty.pack (A : AbiEnv) (t : abi.Ty) (v : Any) : Result Bytes :=
  match t with
  | .SliceTy _ => A.packComposite t v
  | .ArrayTy _ _ => A.packComposite t v
  | .TupleTy _ _ => A.packComposite t v
  | _ =>
    match v with
    | .bigInt none => .panic
    | _ =>
      if t.Kind ≠ v.Kind then .error .abiCannotUse
      else
        match t, v with
        | .IntTy _, .bigInt (some x) => .ok (U256Bytes x)
        | .UintTy _, .bigInt (some x) =>
          if x < 0 then .error .abiInvalidSign else .ok (U256Bytes x)
        | .BoolTy, .bool b => .ok (PaddedBigBytes (if b then 1 else 0) 32)
        | .StringTy, .string s => .ok (packBytesSlice s s.length)
        | .AddressTy, .array b => .ok (common.LeftPadBytes b 32)
        | .FixedBytesTy size, .array b =>
          if size ≠ b.length then .error .abiCannotUse else .ok (common.RightPadBytes b 32)
        | .FunctionTy, .array b => .ok (common.RightPadBytes b 32)
        | .BytesTy, .bytes b => .ok (packBytesSlice b b.length)
        | .BytesTy, .slice _ => .error .abiBytesType
        | _, _ => .panic

/-- The loop of `Arguments.Pack`: `ret` is the head and `variableInput` the tail. -/
def packArguments (A : AbiEnv) : List abi.Argument → List Any → Nat → Bytes → Bytes → Result Bytes
  | input :: abiArgs, a :: args, inputOffset, ret, variableInput =>
    match input.Ty.pack A a with
    | .error err => .error err
    | .panic => .panic
    | .ok packed =>
      if isDynamicType input.Ty then
        packArguments A abiArgs args (inputOffset + packed.length) (ret ++ packNum inputOffset)
          (variableInput ++ packed)
      else packArguments A abiArgs args inputOffset (ret ++ packed) variableInput
  | _, _, _, ret, variableInput => .ok (ret ++ variableInput)

/-- Method `Arguments.Pack`. -/
def Arguments.Pack (A : AbiEnv) (arguments : List abi.Argument) (args : List Any) : Result Bytes :=
  if args.length ≠ arguments.length then .error (.abiArgumentCount args.length arguments.length)
  else
    let inputOffset := (arguments.map (fun abiArg => getTypeSize abiArg.Ty)).sum
    packArguments A arguments args inputOffset [] []

/-- The loop of `signer.Sign` over the inputs but the last (lines 122 to 131):
the converted values `p` after the id. The index expression on `_args` panics
when the list is too short. -/
def signer.convertArgs (A : AbiEnv) : List abi.Argument → List Any → Result (List Any)
  | [], _ => .ok []
  | _ :: _, [] => .panic
  | arg :: inputs, a :: _args =>
    match packConvert A arg.Ty a with
    | .error err => .error err
    | .panic => .panic
    | .ok param =>
      match signer.convertArgs A inputs _args with
      | .error err => .error err
      | .panic => .panic
      | .ok p => .ok (param :: p)

/-- Lines 109 to 135 of `signer.Sign`: the packing of the id of the method and
of the converted arguments but the last. The type assertion on the name of
the fragment panics when there is no name or it is not a string. -/
def signer.encodeParams (A : AbiEnv) (_abi : List (Bytes × Any)) (_args : List Any) : Result Bytes :=
  match A.JSON _abi with
  | .error err => .error err
  | .ok a =>
    match mapIndex _abi (str "name") with
    | .string name =>
      let m := a.method name
      let bytes4 : abi.Argument := ⟨[], .FixedBytesTy 4⟩
      let id := copy (List.replicate 4 0) m.ID
      match signer.convertArgs A m.Inputs.dropLast _args with
      | .error err => .error err
      | .panic => .panic
      | .ok p => Arguments.Pack A (bytes4 :: m.Inputs.dropLast) (.array id :: p)
    | _ => .panic

/-- Method `Sign` of the signer: lines 109 to 135, then the rest. -/
def Signer.Sign (L : Lib) (E : Env) (A : AbiEnv) (db : DB) (cache : Cache)
    (account sender _uniq _signer : Bytes) (_abi : List (Bytes × Any)) (_args : List Any)
    (rnd : Bytes) : Result (List (Any ⊕ signature)) × Cache :=
  signer.Sign L E db cache account sender _uniq _signer _args (signer.encodeParams A _abi _args) rnd



/-! ## Sample values for closed examples -/

/-- The stand-in for AES-GCM in closed examples: the plaintext followed by a
tag of 16 bytes that all hold the first key byte. -/
def sampleSeal (key _nonce plaintext : Bytes) : Bytes := plaintext ++ List.replicate 16 (key.getD 0 0)

/-- The stand-in for opening: the tag is checked and removed. -/
def sampleOpen (key _nonce ciphertext : Bytes) : Option Bytes :=
  if ciphertext.drop (ciphertext.length - 16) = List.replicate 16 (key.getD 0 0)
    ∧ 16 ≤ ciphertext.length
  then some (ciphertext.take (ciphertext.length - 16)) else none

/-- The stand-in for `crypto.Sign` in closed examples: the digest padded to 64
bytes, then the parity of the scalar. -/
def sampleSign (hash : Bytes) (D : Nat) : Bytes := (hash ++ List.replicate 64 0).take 64 ++ [byte (D % 2)]

/-- A stand-in for the environment in closed examples: no variable is set, the
JSON codec outside plain ASCII is not exercised, the key-management service
wraps a key by leaving it as it is, and the cryptography is replaced by
`sampleSeal`, `sampleOpen` and `sampleSign`. -/
def sampleEnv : Env where
  LookupEnv := fun _ => none
  jsonQuote := fun s => [34] ++ s ++ [34]
  jsonUnquote := fun _ => .error (.external (str "invalid character"))
  timeString := fun t => Itoa t.unixNano.toNat
  marshalTime := fun t => .ok ([34] ++ Itoa t.unixNano.toNat ++ [34])
  addressString := fun a => str "0x" ++ hex.EncodeToString a
  errorText := fun _ => str "error"
  gcmSeal := sampleSeal
  gcmOpen := sampleOpen
  gcm_open_seal := fun key nonce plaintext _ _ => by simp [sampleOpen, sampleSeal]
  Keccak256 := copy32
  Keccak256_length := fun _ => by simp [copy32]
  PubkeyToAddress := fun D => (List.range 20).map (fun i => byte (D / 256 ^ (19 - i)))
  PubkeyToAddress_length := fun _ => by simp
  cryptoSign := fun hash D => .ok (sampleSign hash D)
  cryptoSign_spec := fun hash D sig h => by
    cases h
    have hl : ((hash ++ List.replicate 64 0).take 64).length = 64 := by simp
    refine ⟨by simp [sampleSign], ?_⟩
    rw [sampleSign, List.getD_eq_getElem?_getD, List.getElem?_append_right (by omega), hl]
    rcases Nat.mod_two_eq_zero_or_one D with h | h
    · left; rw [h]; rfl
    · right; rw [h]; rfl
  postDecrypt := fun _ data => .ok data
  postEncrypt := fun data => .ok (str "kek", data)

/-- An authenticator with the sample key and no auth secret. -/
def sampleAuth : auth := ⟨[sampleKey], none⟩

/-- A request with the headers of `sig2024` under the sample key. -/
def sampleCtx (body : Bytes) : Ctx :=
  ⟨fun h => if h = "X-Vault-Key-Hash" then VaultKey.HashString sampleLib sampleKey
    else if h = "X-Vault-Signature" then sig2024 else [], body⟩

/-- A sample key document: the id is twelve bytes 1. -/
def sampleDek : mongo.dataEncryptingKey :=
  ⟨List.replicate 12 1, str "kek", List.replicate 32 9, none⟩

/-- A sample oracle for the creation number `n`, counted from 0: the private
scalar is `n + 1`, the key id changes every 1000 creations and the wallet id
is `n`. -/
def sampleOracle (n : Nat) : Oracle :=
  ⟨.ok ⟨n + 1⟩, 0, .ok (List.replicate 32 9), List.replicate 12 (byte (n / 1000 + 2)),
    .ok (List.replicate 12 3), beBytes 12 n, t2024⟩

/-- A sample wallet document of the account `acct`: the id is `n`, the address `n + 1`. -/
def sampleWallet (n : Nat) : mongo.wallet :=
  ⟨beBytes 12 n, str "acct", str "w", beBytes 20 (n + 1), List.replicate 12 1, [], t2024, t2024, none⟩

/-- A sample database: one key and two wallets of the account `acct`. -/
def sampleDB : DB := ⟨[sampleDek], [sampleWallet 0, sampleWallet 1]⟩

/-- The wallet that `vault.CreateWallet` returns on the empty store with the sample oracle 0. -/
def sampleCreated : vault.wallet :=
  ⟨⟨List.replicate 12 0, str "acct", str "w0", List.replicate 19 0 ++ [1], List.replicate 12 2,
    List.replicate 12 3 ++ (List.replicate 31 0 ++ [1]) ++ List.replicate 16 9, t2024, t2024, none⟩⟩

/-- The store after that creation. -/
def sampleCreatedDB : DB :=
  ⟨[⟨List.replicate 12 2, str "kek", List.replicate 32 9, none⟩], [sampleCreated.wallet]⟩

/-- A cache that holds the private scalar 1 for the sample account and signer. -/
def sampleCache : Cache := [(⟨str "acct", List.replicate 19 0 ++ [1]⟩, ⟨1⟩)]

/-- An environment with the sample vault key and the auth secret `short`. -/
def sampleShortEnv : Env :=
  { sampleEnv with
    LookupEnv := fun key =>
      if key = str "VAULT_KEY" then some sampleKey
      else if key = str "VAULT_AUTH_SECRET_KEY" then some (str "short")
      else none }

/-- The inputs of the sample fragment: a `uint256` and the trailing `bytes`. -/
def sampleInputs : List abi.Argument := [⟨str "amount", .UintTy 256⟩, ⟨str "signature", .BytesTy⟩]

/-- A stand-in for what the signer takes from Go and go-ethereum: every
fragment is read as a function of the sample inputs under its name. -/
def sampleAbiEnv : AbiEnv :=
  ⟨fun _ => 0, fun _ _ => .error .abiCannotUse,
    fun _abi =>
      match mapIndex _abi (str "name") with
      | .string name => .ok ⟨[(name, abi.NewMethod sampleEnv name name sampleInputs)]⟩
      | _ => .ok ⟨[([], abi.NewMethod sampleEnv [] [] sampleInputs)]⟩⟩

/-- The sample fragment: a function `foo` with the sample inputs. -/
def sampleFragment : List (Bytes × Any) :=
  [(str "name", .string (str "foo")), (str "type", .string (str "function")),
    (str "inputs", .slice [.map [(str "type", .string (str "uint256"))],
      .map [(str "type", .string (str "bytes"))]])]

/-- The key document that the sample oracles create as key number `j`,
counted from 0: the id is twelve bytes `j + 2`. -/
def sampleKeyDoc (j : Nat) : mongo.dataEncryptingKey :=
  ⟨List.replicate 12 (byte (j + 2)), str "kek", List.replicate 32 9, none⟩

/-- The steps of `n` creations for the account `acct` with the sample oracles
0 to `n - 1`, starting at the creation number `m`. -/
def sampleSteps (m n : Nat) : List (Bytes × Bytes × Oracle) :=
  (List.range' m n).map (fun i => (str "acct", str "w", sampleOracle i))

/-- The state of a store after the creations of the sample oracles 0 to
`n - 1`: the invariant `filled`, `n` wallets with the ids and addresses of
these creations, and the sample key documents in order. -/
def sampleRun (db : DB) (n : Nat) : Prop :=
  db.filled ∧ db.wallets.length = n ∧
  (∀ w ∈ db.wallets, ∃ i, i < n ∧ w.ID_ = beBytes 12 i ∧
    w.Address_ = sampleEnv.PubkeyToAddress (i + 1)) ∧
  db.keys = (List.range db.keys.length).map sampleKeyDoc

end Vault

namespace Vault

/-! ## base32: decoding inverts encoding -/

theorem decodeMap_encodeSym : ∀ i : Fin 32, decodeMap (encodeSym i.val) = i.val := by decide

theorem encodeSym_ne_pad : ∀ i : Fin 32, encodeSym i.val ≠ 61 ∧ encodeSym i.val ≠ 255 := by decide

theorem padByte_std : StdEncoding.padByte = 61 := by decide

theorem padByte_nopad : (StdEncoding.WithPadding NoPadding).padByte = 255 := by decide

theorem readQuantum_sym (enc : Encoding) (he : enc.used) (olen fuel j i : Nat) (hi : i < 32)
    (src : Bytes) (dbuf : List Nat) :
    readQuantum enc olen (fuel + 1) j (encodeSym i :: src) dbuf
      = readQuantum enc olen fuel (j + 1) src (dbuf ++ [i]) := by
  have h1 := decodeMap_encodeSym ⟨i, hi⟩
  have h2 := encodeSym_ne_pad ⟨i, hi⟩
  simp only at h1 h2
  have hp : encodeSym i ≠ enc.padByte := by
    rcases he with rfl | rfl
    · rw [padByte_std]; exact h2.1
    · rw [padByte_nopad]; exact h2.2
  have hi' : i ≠ 255 := by omega
  simp [readQuantum, hp, h1, hi']

theorem or_eq_add {x y : Nat} (i : Nat) (hx : 2 ^ i ∣ x) (hy : y < 2 ^ i) : x ||| y = x + y := by
  obtain ⟨a, rfl⟩ := hx
  exact (Nat.mul_add_lt_is_or hy a).symm

theorem byte_val (n : Nat) : (byte n).val = n % 256 := rfl

theorem dst0_eq (c0 c1 : Nat) (h1 : c1 < 32) : c0 <<< 3 ||| c1 >>> 2 = c0 * 8 + c1 / 4 := by
  rw [Nat.shiftLeft_eq, Nat.shiftRight_eq_div_pow]
  exact or_eq_add 3 (by norm_num) (by norm_num; omega)

theorem dst1_eq (c1 c2 c3 : Nat) (h2 : c2 < 32) (h3 : c3 < 32) :
    c1 <<< 6 ||| c2 <<< 1 ||| c3 >>> 4 = c1 * 64 + c2 * 2 + c3 / 16 := by
  rw [Nat.shiftLeft_eq, Nat.shiftLeft_eq, Nat.shiftRight_eq_div_pow]
  have e : c1 * 2 ^ 6 ||| c2 * 2 ^ 1 = c1 * 2 ^ 6 + c2 * 2 ^ 1 := or_eq_add 6 (by simp) (by omega)
  rw [e, or_eq_add 1 (by omega) (Nat.div_lt_of_lt_mul (by omega))]
  norm_num

theorem dst2_eq (c3 c4 : Nat) (h4 : c4 < 32) : c3 <<< 4 ||| c4 >>> 1 = c3 * 16 + c4 / 2 := by
  rw [Nat.shiftLeft_eq, Nat.shiftRight_eq_div_pow]
  exact or_eq_add 4 (by norm_num) (by norm_num; omega)

theorem dst3_eq (c4 c5 c6 : Nat) (h5 : c5 < 32) (h6 : c6 < 32) :
    c4 <<< 7 ||| c5 <<< 2 ||| c6 >>> 3 = c4 * 128 + c5 * 4 + c6 / 8 := by
  rw [Nat.shiftLeft_eq, Nat.shiftLeft_eq, Nat.shiftRight_eq_div_pow]
  have e : c4 * 2 ^ 7 ||| c5 * 2 ^ 2 = c4 * 2 ^ 7 + c5 * 2 ^ 2 := or_eq_add 7 (by simp) (by omega)
  rw [e, or_eq_add 2 (by omega) (Nat.div_lt_of_lt_mul (by omega))]
  norm_num

theorem dst4_eq (c6 c7 : Nat) (h7 : c7 < 32) : c6 <<< 5 ||| c7 = c6 * 32 + c7 := by
  rw [Nat.shiftLeft_eq]
  exact or_eq_add 5 (by norm_num) (by norm_num; omega)

theorem packQuantum_full (b0 b1 b2 b3 b4 : Byte) :
    packQuantum (quantumIdx b0 b1 b2 b3 b4) 8 = [b0, b1, b2, b3, b4] := by
  have h0 := b0.isLt
  have h1 := b1.isLt
  have h2 := b2.isLt
  have h3 := b3.isLt
  have h4 := b4.isLt
  simp only [packQuantum, quantumIdx, List.getD_cons_zero, List.getD_cons_succ, if_true]
  rw [dst0_eq _ _ (by omega), dst1_eq _ _ _ (by omega) (by omega), dst2_eq _ _ (by omega),
    dst3_eq _ _ _ (by omega) (by omega), dst4_eq _ _ (by omega)]
  simp only [List.cons.injEq, and_true]
  refine ⟨?_, ?_, ?_, ?_, ?_⟩ <;> apply Fin.ext <;> rw [byte_val] <;> omega

theorem padChar_std : StdEncoding.padChar ≠ NoPadding := by decide

theorem padChar_nopad : (StdEncoding.WithPadding NoPadding).padChar = NoPadding := rfl

theorem quantumIdx_lt (b0 b1 b2 b3 b4 : Byte) : ∀ i ∈ quantumIdx b0 b1 b2 b3 b4, i < 32 := by
  have h0 := b0.isLt
  have h1 := b1.isLt
  have h2 := b2.isLt
  have h3 := b3.isLt
  have h4 := b4.isLt
  intro i hi
  simp only [quantumIdx, List.mem_cons, List.mem_singleton, List.not_mem_nil, or_false] at hi
  omega

theorem encodeQuantum_eq (b0 b1 b2 b3 b4 : Byte) :
    encodeQuantum b0 b1 b2 b3 b4 = (quantumIdx b0 b1 b2 b3 b4).map encodeSym := rfl

theorem readQuantum_syms (enc : Encoding) (he : enc.used) (olen : Nat) :
    ∀ (idx : List Nat), (∀ i ∈ idx, i < 32) → ∀ (fuel j : Nat) (src : Bytes) (dbuf : List Nat),
      readQuantum enc olen (fuel + idx.length) j (idx.map encodeSym ++ src) dbuf
        = readQuantum enc olen fuel (j + idx.length) src (dbuf ++ idx) := by
  intro idx
  induction idx with
  | nil => intro _ fuel j src dbuf; simp
  | cons i t ih =>
    intro h fuel j src dbuf
    have hi : i < 32 := h i (List.mem_cons_self _ _)
    have ht : ∀ x ∈ t, x < 32 := fun x hx => h x (List.mem_cons_of_mem _ hx)
    have e : fuel + (i :: t).length = (fuel + t.length) + 1 := by simp; omega
    rw [e, List.map_cons, List.cons_append, readQuantum_sym enc he olen _ j i hi, ih ht]
    simp [Nat.add_assoc, Nat.add_comm 1]

theorem readQuantum_padTail (enc : Encoding) (he : enc.used) (olen fuel j : Nat)
    (hj : j = 2 ∨ j = 4 ∨ j = 5 ∨ j = 7) (dbuf : List Nat) :
    ∃ rest, readQuantum enc olen (fuel + 1) j (padTail enc j) dbuf = .ok (dbuf, j, true, rest) := by
  rcases he with rfl | rfl
  · rcases hj with rfl | rfl | rfl | rfl <;> exact ⟨_, rfl⟩
  · rcases hj with rfl | rfl | rfl | rfl <;> exact ⟨_, rfl⟩

theorem decodeLoop_succ (enc : Encoding) (olen fuel : Nat) (src : Bytes) (h : src ≠ []) :
    decodeLoop enc olen (fuel + 1) src =
      (match readQuantum enc olen 8 0 src [] with
       | .error e => .error e
       | .ok (dbuf, dlen, true, _) => .ok (packQuantum dbuf dlen)
       | .ok (dbuf, dlen, false, rest) =>
          match decodeLoop enc olen fuel rest with
          | .error e => .error e
          | .ok out => .ok (packQuantum dbuf dlen ++ out)) := by
  cases src with
  | nil => exact absurd rfl h
  | cons c s => rfl

theorem decodeLoop_short (enc : Encoding) (he : enc.used) (olen fuel : Nat) (idx : List Nat)
    (hidx : ∀ i ∈ idx, i < 32) (hj : idx.length = 2 ∨ idx.length = 4 ∨ idx.length = 5 ∨ idx.length = 7) :
    decodeLoop enc olen (fuel + 1) (idx.map encodeSym ++ padTail enc idx.length)
      = .ok (packQuantum idx idx.length) := by
  have hne : idx.map encodeSym ++ padTail enc idx.length ≠ [] := by
    cases idx with
    | nil => simp at hj
    | cons a t => simp
  rw [decodeLoop_succ _ _ _ _ hne]
  have e8 : 8 = (8 - idx.length - 1 + 1) + idx.length := by omega
  have h := readQuantum_syms enc he olen idx hidx (8 - idx.length - 1 + 1) 0 (padTail enc idx.length) []
  rw [← e8] at h
  obtain ⟨rest, hr⟩ := readQuantum_padTail enc he olen (8 - idx.length - 1) idx.length hj idx
  simp only [Nat.zero_add, List.nil_append] at h
  rw [h, hr]

theorem encodeRemain_eq (enc : Encoding) (r : Nat) (b0 b1 b2 b3 : Byte) :
    encodeRemain enc r b0 b1 b2 b3
      = ((quantumIdx b0 b1 b2 b3 0).take (r * 8 / 5 + 1)).map encodeSym ++ padTail enc (r * 8 / 5 + 1) := by
  simp only [encodeRemain, encodeQuantum_eq, List.map_take, padTail]

theorem packQuantum_1 (b0 : Byte) : packQuantum ((quantumIdx b0 0 0 0 0).take 2) 2 = [b0] := by
  have h0 := b0.isLt
  simp only [packQuantum, quantumIdx, List.take, List.getD_cons_zero, List.getD_cons_succ,
    Fin.val_zero]
  rw [dst0_eq _ _ (by omega)]
  norm_num
  apply Fin.ext; rw [byte_val]; omega

theorem packQuantum_2 (b0 b1 : Byte) : packQuantum ((quantumIdx b0 b1 0 0 0).take 4) 4 = [b0, b1] := by
  have h0 := b0.isLt
  have h1 := b1.isLt
  simp only [packQuantum, quantumIdx, List.take, List.getD_cons_zero, List.getD_cons_succ,
    Fin.val_zero]
  rw [dst0_eq _ _ (by omega), dst1_eq _ _ _ (by omega) (by omega)]
  norm_num
  constructor <;> apply Fin.ext <;> rw [byte_val] <;> omega

theorem packQuantum_3 (b0 b1 b2 : Byte) :
    packQuantum ((quantumIdx b0 b1 b2 0 0).take 5) 5 = [b0, b1, b2] := by
  have h0 := b0.isLt
  have h1 := b1.isLt
  have h2 := b2.isLt
  simp only [packQuantum, quantumIdx, List.take, List.getD_cons_zero, List.getD_cons_succ,
    Fin.val_zero]
  rw [dst0_eq _ _ (by omega), dst1_eq _ _ _ (by omega) (by omega), dst2_eq _ _ (by omega)]
  norm_num
  refine ⟨?_, ?_, ?_⟩ <;> apply Fin.ext <;> rw [byte_val] <;> omega

theorem packQuantum_4 (b0 b1 b2 b3 : Byte) :
    packQuantum ((quantumIdx b0 b1 b2 b3 0).take 7) 7 = [b0, b1, b2, b3] := by
  have h0 := b0.isLt
  have h1 := b1.isLt
  have h2 := b2.isLt
  have h3 := b3.isLt
  simp only [packQuantum, quantumIdx, List.take, List.getD_cons_zero, List.getD_cons_succ,
    Fin.val_zero]
  rw [dst0_eq _ _ (by omega), dst1_eq _ _ _ (by omega) (by omega), dst2_eq _ _ (by omega),
    dst3_eq _ _ _ (by omega) (by omega)]
  norm_num
  refine ⟨?_, ?_, ?_, ?_⟩ <;> apply Fin.ext <;> rw [byte_val] <;> omega

theorem decodeLoop_remain (enc : Encoding) (he : enc.used) (olen fuel r : Nat) (b0 b1 b2 b3 : Byte)
    (hr : r = 1 ∨ r = 2 ∨ r = 3 ∨ r = 4) :
    decodeLoop enc olen (fuel + 1) (encodeRemain enc r b0 b1 b2 b3)
      = .ok (packQuantum ((quantumIdx b0 b1 b2 b3 0).take (r * 8 / 5 + 1)) (r * 8 / 5 + 1)) := by
  have hl : ((quantumIdx b0 b1 b2 b3 0).take (r * 8 / 5 + 1)).length = r * 8 / 5 + 1 := by
    rcases hr with rfl | rfl | rfl | rfl <;> rfl
  have h := decodeLoop_short enc he olen fuel ((quantumIdx b0 b1 b2 b3 0).take (r * 8 / 5 + 1))
    (fun i hi => quantumIdx_lt _ _ _ _ _ i (List.mem_of_mem_take hi))
    (by rw [hl]; rcases hr with rfl | rfl | rfl | rfl <;> simp)
  rw [hl] at h
  rw [encodeRemain_eq, h]

theorem decodeLoop_encode (enc : Encoding) (he : enc.used) (olen : Nat) :
    ∀ (bs : Bytes) (fuel : Nat), bs.length ≤ fuel →
      decodeLoop enc olen fuel (enc.EncodeToString bs) = .ok bs
  | [], fuel, _ => by cases fuel <;> rfl
  | [b0], fuel + 1, _ => by
      rw [Encoding.EncodeToString, decodeLoop_remain enc he _ _ 1 _ _ _ _ (by simp)]
      exact congrArg _ (packQuantum_1 b0)
  | [b0, b1], fuel + 1, _ => by
      rw [Encoding.EncodeToString, decodeLoop_remain enc he _ _ 2 _ _ _ _ (by simp)]
      exact congrArg _ (packQuantum_2 b0 b1)
  | [b0, b1, b2], fuel + 1, _ => by
      rw [Encoding.EncodeToString, decodeLoop_remain enc he _ _ 3 _ _ _ _ (by simp)]
      exact congrArg _ (packQuantum_3 b0 b1 b2)
  | [b0, b1, b2, b3], fuel + 1, _ => by
      rw [Encoding.EncodeToString, decodeLoop_remain enc he _ _ 4 _ _ _ _ (by simp)]
      exact congrArg _ (packQuantum_4 b0 b1 b2 b3)
  | b0 :: b1 :: b2 :: b3 :: b4 :: rest, fuel + 1, h => by
      have ih := decodeLoop_encode enc he olen rest fuel (by simp at h; omega)
      have hq := readQuantum_syms enc he olen (quantumIdx b0 b1 b2 b3 b4)
        (quantumIdx_lt _ _ _ _ _) 0 0 (enc.EncodeToString rest) []
      have e8 : (quantumIdx b0 b1 b2 b3 b4).length = 8 := rfl
      rw [e8] at hq
      rw [Encoding.EncodeToString, decodeLoop_succ _ _ _ _ (by simp [encodeQuantum]),
        encodeQuantum_eq, hq]
      simp only [readQuantum, List.nil_append, ih, packQuantum_full]
      rfl

theorem encode_length_ge (enc : Encoding) : ∀ bs : Bytes, bs.length ≤ (enc.EncodeToString bs).length
  | [] => by simp
  | [_] => by simp [Encoding.EncodeToString, encodeRemain, encodeQuantum]
  | [_, _] => by simp [Encoding.EncodeToString, encodeRemain, encodeQuantum]
  | [_, _, _] => by simp [Encoding.EncodeToString, encodeRemain, encodeQuantum]
  | [_, _, _, _] => by simp [Encoding.EncodeToString, encodeRemain, encodeQuantum]
  | _ :: _ :: _ :: _ :: _ :: rest => by
      have := encode_length_ge enc rest
      simp [Encoding.EncodeToString, encodeQuantum]
      omega

/-! ## strings: case folding and splitting of encoded components -/

theorem wireByte_encodeSym : ∀ i : Fin 32, wireByte (encodeSym i.val) = true := by decide

theorem wireByte_pad : wireByte 61 = true := by decide

theorem wireByte_quantum (b0 b1 b2 b3 b4 : Byte) :
    ∀ c ∈ encodeQuantum b0 b1 b2 b3 b4, wireByte c = true := by
  intro c hc
  rw [encodeQuantum_eq, List.mem_map] at hc
  obtain ⟨i, hi, rfl⟩ := hc
  exact wireByte_encodeSym ⟨i, quantumIdx_lt _ _ _ _ _ i hi⟩

theorem wireByte_remain (enc : Encoding) (he : enc.used) (r : Nat) (b0 b1 b2 b3 : Byte) :
    ∀ c ∈ encodeRemain enc r b0 b1 b2 b3, wireByte c = true := by
  intro c hc
  rw [encodeRemain, List.mem_append] at hc
  rcases hc with hc | hc
  · exact wireByte_quantum _ _ _ _ _ c (List.mem_of_mem_take hc)
  · rcases he with rfl | rfl
    · simp only [padChar_std, ne_eq, not_false_eq_true, if_true, padByte_std] at hc
      rw [(List.mem_replicate.mp hc).2]
      exact wireByte_pad
    · simp [padChar_nopad] at hc

theorem wireByte_encode (enc : Encoding) (he : enc.used) :
    ∀ (bs : Bytes), ∀ c ∈ enc.EncodeToString bs, wireByte c = true
  | [] => by simp [Encoding.EncodeToString]
  | [_] => by rw [Encoding.EncodeToString]; exact wireByte_remain enc he _ _ _ _ _
  | [_, _] => by rw [Encoding.EncodeToString]; exact wireByte_remain enc he _ _ _ _ _
  | [_, _, _] => by rw [Encoding.EncodeToString]; exact wireByte_remain enc he _ _ _ _ _
  | [_, _, _, _] => by rw [Encoding.EncodeToString]; exact wireByte_remain enc he _ _ _ _ _
  | b0 :: b1 :: b2 :: b3 :: b4 :: rest => by
      intro c hc
      rw [Encoding.EncodeToString, List.mem_append] at hc
      rcases hc with hc | hc
      · exact wireByte_quantum _ _ _ _ _ c hc
      · exact wireByte_encode enc he rest c hc

theorem wireByte_spec {c : Byte} (h : wireByte c = true) :
    c.val < 0x80 ∧ (lowerByte c).val < 0x80 ∧ upperByte (lowerByte c) = c ∧ lowerByte c ≠ 46
      ∧ c ≠ 10 ∧ c ≠ 13 := by
  simpa [wireByte, and_assoc] using h

theorem ToLower_wire (L : Lib) (s : Bytes) (h : ∀ c ∈ s, wireByte c = true) :
    ToLower L s = s.map lowerByte := by
  have : isASCII s = true := by
    simp only [isASCII, List.all_eq_true, decide_eq_true_eq]
    exact fun c hc => (wireByte_spec (h c hc)).1
  simp [ToLower, this]

theorem ToUpper_ToLower_wire (L : Lib) (s : Bytes) (h : ∀ c ∈ s, wireByte c = true) :
    ToUpper L (ToLower L s) = s := by
  rw [ToLower_wire L s h]
  have : isASCII (s.map lowerByte) = true := by
    simp only [isASCII, List.all_eq_true, decide_eq_true_eq, List.mem_map]
    rintro c ⟨d, hd, rfl⟩
    exact (wireByte_spec (h d hd)).2.1
  simp only [ToUpper, this, if_true, List.map_map]
  conv => rhs; rw [← List.map_id s]
  apply List.map_congr_left
  intro c hc
  exact (wireByte_spec (h c hc)).2.2.1

theorem stripNewlines_wire (s : Bytes) (h : ∀ c ∈ s, wireByte c = true) : stripNewlines s = s := by
  rw [stripNewlines, List.filter_eq_self]
  intro c hc
  have := wireByte_spec (h c hc)
  simp [this.2.2.2.2.1, this.2.2.2.2.2]

theorem dot_not_mem_ToLower_wire (L : Lib) (s : Bytes) (h : ∀ c ∈ s, wireByte c = true) :
    (46 : Byte) ∉ ToLower L s := by
  rw [ToLower_wire L s h, List.mem_map]
  rintro ⟨c, hc, hc46⟩
  exact (wireByte_spec (h c hc)).2.2.2.1 hc46

/-- Decoding inverts encoding, also through the lower-casing of `Sign` and the
upper-casing of `Parse`, for the padded and the unpadded standard encoding. -/
theorem DecodeString_EncodeToString (L : Lib) (enc : Encoding) (he : enc.used) (bs : Bytes) :
    enc.DecodeString (ToUpper L (ToLower L (enc.EncodeToString bs))) = .ok bs := by
  rw [ToUpper_ToLower_wire L _ (wireByte_encode enc he bs), Encoding.DecodeString,
    stripNewlines_wire _ (wireByte_encode enc he bs)]
  exact decodeLoop_encode enc he _ bs _ (encode_length_ge enc bs)

theorem Split_nodot (a : Bytes) (ha : (46 : Byte) ∉ a) : Split 46 a = [a] := by
  induction a with
  | nil => rfl
  | cons c t ih =>
    have hc : c ≠ 46 := fun h => ha (h ▸ List.mem_cons_self _ _)
    have ht : (46 : Byte) ∉ t := fun h => ha (List.mem_cons_of_mem _ h)
    simp [Split, hc, ih ht]

theorem Split_append (a rest : Bytes) (ha : (46 : Byte) ∉ a) :
    Split 46 (a ++ 46 :: rest) = a :: Split 46 rest := by
  induction a with
  | nil => simp [Split]
  | cons c t ih =>
    have hc : c ≠ 46 := fun h => ha (h ▸ List.mem_cons_self _ _)
    have ht : (46 : Byte) ∉ t := fun h => ha (List.mem_cons_of_mem _ h)
    simp [Split, hc, ih ht]

theorem Split_three (a b c : Bytes) (ha : (46 : Byte) ∉ a) (hb : (46 : Byte) ∉ b)
    (hc : (46 : Byte) ∉ c) : Split 46 (a ++ [46] ++ b ++ [46] ++ c) = [a, b, c] := by
  have e : a ++ [46] ++ b ++ [46] ++ c = a ++ 46 :: (b ++ 46 :: c) := by simp
  rw [e, Split_append a _ ha, Split_append b _ hb, Split_nodot c hc]

/-! ## varints: eight-byte values -/

set_option maxRecDepth 100000 in
theorem or_128_lt : ∀ c : Fin 256, (c.val ||| 0x80) = c.val % 128 + 128 := by decide

set_option maxRecDepth 100000 in
theorem and_7f : ∀ c : Fin 256, (c.val &&& 0x7f) = c.val % 128 := by decide

theorem or_128_mod (a c : Nat) (hc : c < 256) : (2 ^ 8 * a + c ||| 0x80) % 256 = c % 128 + 128 := by
  have hlt : c < 2 ^ 8 := by norm_num; omega
  have h1 := or_128_lt ⟨c, hc⟩
  simp only at h1
  have h2 : c ||| 0x80 < 2 ^ 8 := Nat.or_lt_two_pow hlt (by norm_num)
  rw [Nat.mul_add_lt_is_or hlt, Nat.or_assoc, ← Nat.mul_add_lt_is_or h2, h1]
  norm_num
  omega

theorem byte_or_128 (x : Nat) : (byte (x ||| 0x80)).val = x % 128 + 128 := by
  rw [byte_val]
  have h := or_128_mod (x / 256) (x % 256) (Nat.mod_lt _ (by norm_num))
  have hx : 2 ^ 8 * (x / 256) + x % 256 = x := by norm_num; omega
  rw [hx] at h
  rw [h]
  omega

theorem acc_bound (acc x s : Nat) (hs : s ≤ 64) (hacc : acc < 2 ^ s) (hx : x * 2 ^ s < 2 ^ 64) :
    acc + x * 2 ^ s < 2 ^ 64 := by
  have e : (2 : Nat) ^ 64 = 2 ^ (64 - s) * 2 ^ s := by
    rw [← Nat.pow_add]; congr 1; omega
  rw [e] at hx ⊢
  have h1 : x < 2 ^ (64 - s) := Nat.lt_of_mul_lt_mul_right hx
  have h2 : (x + 1) * 2 ^ s ≤ 2 ^ (64 - s) * 2 ^ s := Nat.mul_le_mul_right _ h1
  have h3 : (x + 1) * 2 ^ s = x * 2 ^ s + 2 ^ s := by ring
  omega

theorem uvarintBytes_length (k : Nat) :
    ∀ (fuel x : Nat), k ≤ fuel → 128 ^ k ≤ x ∨ k = 0 → x < 128 ^ (k + 1) →
      (uvarintBytes fuel x).length = k + 1 := by
  induction k with
  | zero =>
    intro fuel x _ _ hx
    have : ¬ x ≥ 128 := by simpa using hx
    cases fuel <;> simp [uvarintBytes, this]
  | succ k ih =>
    intro fuel x hf hlo hx
    obtain ⟨f, rfl⟩ : ∃ f, fuel = f + 1 := ⟨fuel - 1, by omega⟩
    have hlo' : 128 ^ (k + 1) ≤ x := by
      rcases hlo with h | h
      · exact h
      · omega
    have h128 : x ≥ 128 := by
      have : 128 ^ 1 ≤ 128 ^ (k + 1) := Nat.pow_le_pow_right (by norm_num) (by omega)
      omega
    have e1 : 128 ^ (k + 1) = 128 ^ k * 128 := by rw [Nat.pow_succ]
    have e2 : 128 ^ (k + 1 + 1) = 128 ^ (k + 1) * 128 := by rw [Nat.pow_succ]
    simp only [uvarintBytes, h128, ge_iff_le, if_true, List.length_cons, Nat.shiftRight_eq_div_pow]
    rw [ih f (x / 2 ^ 7) (by omega) (Or.inl ?_) ?_]
    · rw [show (2:Nat) ^ 7 = 128 by norm_num, Nat.le_div_iff_mul_le (by norm_num), ← e1]
      exact hlo'
    · rw [show (2:Nat) ^ 7 = 128 by norm_num, Nat.div_lt_iff_lt_mul (by norm_num), ← e2]
      exact hx

theorem uvarintLoop_bytes (rest : Bytes) :
    ∀ (fuel x i acc s : Nat), i ≤ 9 → 10 ≤ i + fuel → s = 7 * i → acc < 2 ^ s →
      x * 2 ^ s < 2 ^ 64 →
      uvarintLoop (uvarintBytes fuel x ++ rest) i acc s
        = (acc + x * 2 ^ s, (i : Int) + (uvarintBytes fuel x).length) := by
  intro fuel
  induction fuel with
  | zero => intro x i acc s h9 h10; omega
  | succ f ih =>
    intro x i acc s h9 h10 hs hacc hx
    have hi10 : i ≠ 10 := by omega
    have hx9 : i = 9 → x < 2 := by
      intro h
      subst h
      subst hs
      norm_num at hx
      omega
    by_cases hge : x ≥ 128
    · have hi8 : i ≤ 8 := by
        by_contra h
        have := hx9 (by omega)
        omega
      have hb : ¬ (byte (x ||| 0x80)).val < 0x80 := by rw [byte_or_128]; omega
      have hand : (byte (x ||| 0x80)).val &&& 0x7f = x % 128 := by
        rw [and_7f, byte_or_128]; omega
      have hP : 2 ^ (s + 7) = 128 * 2 ^ s := by rw [Nat.pow_add]; norm_num; ring
      have hmul : x * 2 ^ s = x / 128 * (128 * 2 ^ s) + x % 128 * 2 ^ s := by
        conv => lhs; rw [← Nat.div_add_mod x 128]
        ring
      have hle : x % 128 * 2 ^ s ≤ 127 * 2 ^ s := Nat.mul_le_mul_right _ (by omega)
      have hor : acc ||| (x % 128) <<< s = acc + x % 128 * 2 ^ s := by
        rw [Nat.or_comm, Nat.shiftLeft_eq, or_eq_add s (Dvd.intro_left _ rfl) hacc, Nat.add_comm]
      have hpos : 0 < 2 ^ s := Nat.pow_pos (by norm_num)
      have hmod : (acc + x % 128 * 2 ^ s) % 2 ^ 64 = acc + x % 128 * 2 ^ s := by
        apply Nat.mod_eq_of_lt
        have : x / 128 ≥ 1 := by omega
        have : x / 128 * (128 * 2 ^ s) ≥ 1 * (128 * 2 ^ s) := Nat.mul_le_mul_right _ this
        omega
      simp only [uvarintBytes, hge, if_true, List.cons_append, uvarintLoop, hi10, if_false, hb,
        hand, hor, hmod, List.length_cons, Nat.shiftRight_eq_div_pow]
      rw [show (2:Nat) ^ 7 = 128 by norm_num]
      rw [ih (x / 128) (i + 1) _ (s + 7) (by omega) (by omega) (by omega) (by rw [hP]; omega)
        (by rw [hP]; omega), hP]
      congr 1
      · omega
      · push_cast; omega
    · have hlt : x < 128 := by omega
      have hb : (byte x).val = x := by rw [byte_val]; omega
      have hor : acc ||| x <<< s = acc + x * 2 ^ s := by
        rw [Nat.or_comm, Nat.shiftLeft_eq, or_eq_add s (Dvd.intro_left _ rfl) hacc, Nat.add_comm]
      have hpos : 0 < 2 ^ s := Nat.pow_pos (by norm_num)
      have hmod : (acc + x * 2 ^ s) % 2 ^ 64 = acc + x * 2 ^ s := by
        exact Nat.mod_eq_of_lt (acc_bound acc x s (by omega) hacc hx)
      have hchk : ¬ (i = 10 - 1 ∧ x > 1) := by
        rintro ⟨h1, h2⟩
        have := hx9 (by omega)
        omega
      simp only [uvarintBytes, hge, if_false, List.cons_append, List.nil_append, uvarintLoop, hi10,
        hb, hlt, if_true, hchk, hor, hmod, List.length_cons, List.length_nil]
      rfl

theorem zigzag_eq (x : Int) (h : fitsEight x) :
    (zigzag x : Int) = if x < 0 then -2 * x - 1 else 2 * x := by
  unfold fitsEight at h
  simp only [zigzag, uint64, Nat.shiftLeft_eq]
  split <;> omega

theorem PutVarint_eight (x : Int) (h : fitsEight x) :
    ∃ tb, PutVarint tb0 x = some (tb, 8) ∧ tb.length = 8 ∧ Varint tb = (x, 8) := by
  have hz := zigzag_eq x h
  have hux : 128 ^ 7 ≤ zigzag x ∧ zigzag x < 128 ^ (7 + 1) := by
    unfold fitsEight at h
    norm_num
    split at hz <;> omega
  have hlen := uvarintBytes_length 7 10 (zigzag x) (by norm_num) (Or.inl hux.1) hux.2
  have hloop := uvarintLoop_bytes [] 10 (zigzag x) 0 0 0 (by norm_num) (by norm_num) rfl
    (by norm_num) (by norm_num at hux ⊢; omega)
  rw [hlen] at hloop
  refine ⟨uvarintBytes 10 (zigzag x), ?_, hlen, ?_⟩
  · have : PutVarint tb0 x = PutUvarint tb0 (zigzag x) := by
      simp only [PutVarint, zigzag]
    rw [this]
    simp [PutUvarint, hlen, tb0]
  · simp only [List.append_nil] at hloop
    simp only [Varint, Uvarint, hloop, Nat.and_one_is_mod, Nat.shiftRight_eq_div_pow, int64]
    unfold fitsEight at h
    norm_num
    split at hz <;> split <;> omega

/-! ## Sign, Parse and Verify on well-formed signatures -/

theorem used_std : StdEncoding.used := Or.inl rfl

theorem used_nopad : (StdEncoding.WithPadding NoPadding).used := Or.inr rfl

theorem Split_wire (L : Lib) (nonce tb hash : Bytes) :
    Split 46 (wire L nonce tb hash) =
      [ToLower L (StdEncoding.EncodeToString nonce), ToLower L (StdEncoding.EncodeToString tb),
        ToLower L (StdEncoding.EncodeToString hash)] :=
  Split_three _ _ _ (dot_not_mem_ToLower_wire L _ (wireByte_encode _ used_std nonce))
    (dot_not_mem_ToLower_wire L _ (wireByte_encode _ used_std tb))
    (dot_not_mem_ToLower_wire L _ (wireByte_encode _ used_std hash))

theorem Parse_wire (L : Lib) (nonce tb hash : Bytes) :
    VaultSignature.Parse L (wire L nonce tb hash) =
      if (Varint tb).2 ≠ 8 then .error (.invalidTimestamp (wire L nonce tb hash))
      else .ok (nonce, UnixMicro (Varint tb).1, hash) := by
  simp only [VaultSignature.Parse, Split_wire, DecodeString_EncodeToString L _ used_std]

theorem Sign_eq (L : Lib) (v : VaultKey) (timestamp : Time) (data nonce tb : Bytes) (n : Nat)
    (h : PutVarint tb0 timestamp.UnixMicro = some (tb, n)) :
    VaultKey.Sign L v timestamp data (.ok nonce)
      = .ok (wire L nonce tb (L.sha256 (data ++ nonce ++ tb ++ v))) := by
  simp only [VaultKey.Sign, h, wire]

theorem UnixMicro_UnixMicro (x : Int) (h : -2 ^ 63 ≤ x ∧ x < 2 ^ 63) :
    (UnixMicro x).UnixMicro = x := by
  simp only [UnixMicro, Time.UnixMicro, int64]
  omega

/-! ## varints: the eight-byte buffer in general -/

theorem zigzag_int64 (x : Int) (h : -2 ^ 63 ≤ x ∧ x < 2 ^ 63) :
    (zigzag x : Int) = if x < 0 then -2 * x - 1 else 2 * x := by
  simp only [zigzag, uint64, Nat.shiftLeft_eq]
  split <;> omega

theorem PutVarint_eq (buf : Bytes) (x : Int) : PutVarint buf x = PutUvarint buf (zigzag x) := by
  simp only [PutVarint, zigzag]

/-- The number of bytes of the varint of a `uint64`, by size classes. -/
theorem uvarintBytes_length_cases (x : Nat) (hx : x < 2 ^ 64) :
    (x < 128 ^ 7 ∧ (uvarintBytes 10 x).length ≤ 7) ∨
    (128 ^ 7 ≤ x ∧ x < 128 ^ 8 ∧ (uvarintBytes 10 x).length = 8) ∨
    (128 ^ 8 ≤ x ∧ 9 ≤ (uvarintBytes 10 x).length) := by
  have key : ∀ k, k ≤ 9 → (128 ^ k ≤ x ∨ k = 0) → x < 128 ^ (k + 1) →
      (uvarintBytes 10 x).length = k + 1 :=
    fun k hk h1 h2 => uvarintBytes_length k 10 x (by omega) h1 h2
  have h0 := key 0 (by norm_num)
  have h1 := key 1 (by norm_num)
  have h2 := key 2 (by norm_num)
  have h3 := key 3 (by norm_num)
  have h4 := key 4 (by norm_num)
  have h5 := key 5 (by norm_num)
  have h6 := key 6 (by norm_num)
  have h7 := key 7 (by norm_num)
  have h8 := key 8 (by norm_num)
  have h9 := key 9 (by norm_num)
  norm_num at h0 h1 h2 h3 h4 h5 h6 h7 h8 h9 hx ⊢
  by_cases c0 : x < 128
  · left; exact ⟨by omega, by have := h0 c0; omega⟩
  by_cases c1 : x < 16384
  · left; exact ⟨by omega, by have := h1 (by omega) c1; omega⟩
  by_cases c2 : x < 2097152
  · left; exact ⟨by omega, by have := h2 (by omega) c2; omega⟩
  by_cases c3 : x < 268435456
  · left; exact ⟨by omega, by have := h3 (by omega) c3; omega⟩
  by_cases c4 : x < 34359738368
  · left; exact ⟨by omega, by have := h4 (by omega) c4; omega⟩
  by_cases c5 : x < 4398046511104
  · left; exact ⟨by omega, by have := h5 (by omega) c5; omega⟩
  by_cases c6 : x < 562949953421312
  · left; exact ⟨by omega, by have := h6 (by omega) c6; omega⟩
  by_cases c7 : x < 72057594037927936
  · right; left; exact ⟨by omega, c7, h7 (by omega) c7⟩
  by_cases c8 : x < 9223372036854775808
  · right; right; exact ⟨by omega, by have := h8 (by omega) c8; omega⟩
  · right; right; exact ⟨by omega, by have := h9 (by omega) (by omega); omega⟩

theorem zigzag_lt (x : Int) : zigzag x < 2 ^ 64 := by
  simp only [zigzag]
  split
  · omega
  · exact Nat.mod_lt _ (by norm_num)

theorem fitsEight_iff_zigzag (x : Int) (h : -2 ^ 63 ≤ x ∧ x < 2 ^ 63) :
    fitsEight x ↔ 128 ^ 7 ≤ zigzag x ∧ zigzag x < 128 ^ 8 := by
  have hz := zigzag_int64 x h
  unfold fitsEight
  norm_num
  split at hz <;> omega

theorem int64_range (x : Int) : -2 ^ 63 ≤ int64 x ∧ int64 x < 2 ^ 63 := by
  simp only [int64]
  omega

/-- Writing a varint into the eight-byte buffer with `PutVarint`: panics exactly when the varint
needs nine bytes or more. -/
theorem PutVarint_tb0 (x : Int) :
    (PutVarint tb0 x = none ∧ 128 ^ 8 ≤ zigzag x) ∨
    (∃ n, PutVarint tb0 x
        = some (uvarintBytes 10 (zigzag x) ++ List.replicate (8 - n) 0, n)
      ∧ n = (uvarintBytes 10 (zigzag x)).length ∧ n ≤ 8 ∧ zigzag x < 128 ^ 8) := by
  rw [PutVarint_eq]
  rcases uvarintBytes_length_cases (zigzag x) (zigzag_lt x) with ⟨h1, h2⟩ | ⟨h1, h2, h3⟩ | ⟨h1, h2⟩
  · right
    have h8 : (uvarintBytes 10 (zigzag x)).length ≤ 8 := by omega
    refine ⟨_, ?_, rfl, h8, by norm_num at h1 ⊢; omega⟩
    simp only [PutUvarint, tb0, List.length_replicate, h8, if_true, List.drop_replicate]
  · right
    refine ⟨_, ?_, rfl, by omega, h2⟩
    simp only [PutUvarint, tb0, List.length_replicate, h3, le_refl, if_true, List.drop_replicate]
  · left
    refine ⟨?_, h1⟩
    have : ¬ (uvarintBytes 10 (zigzag x)).length ≤ 8 := by omega
    simp only [PutUvarint, tb0, List.length_replicate, this, if_false]

theorem unzigzag_zigzag (x : Int) (h : -2 ^ 63 ≤ x ∧ x < 2 ^ 63) :
    (if zigzag x &&& 1 ≠ 0 then -int64 ↑(zigzag x >>> 1) - 1 else int64 ↑(zigzag x >>> 1)) = x := by
  have hz := zigzag_int64 x h
  simp only [Nat.and_one_is_mod, Nat.shiftRight_eq_div_pow, int64]
  norm_num
  split at hz <;> split <;> omega

/-- Decoding what `PutVarint` left in the buffer gives the value back, with the
number of bytes of its varint. -/
theorem Varint_PutVarint (x : Int) (h : -2 ^ 63 ≤ x ∧ x < 2 ^ 63) (tb : Bytes) (n : Nat)
    (hp : PutVarint tb0 x = some (tb, n)) : Varint tb = (x, (n : Int)) := by
  rcases PutVarint_tb0 x with ⟨h1, _⟩ | ⟨m, h1, h2, h3, h4⟩
  · rw [h1] at hp; exact absurd hp (by simp)
  · rw [h1] at hp
    simp only [Option.some.injEq, Prod.mk.injEq] at hp
    obtain ⟨rfl, rfl⟩ := hp
    have hloop := uvarintLoop_bytes (List.replicate (8 - m) 0) 10 (zigzag x) 0 0 0 (by norm_num)
      (by norm_num) rfl (by norm_num) (by have := zigzag_lt x; omega)
    rw [← h2] at hloop
    simp only [Varint, Uvarint, hloop, Nat.pow_zero, Nat.mul_one, Nat.zero_add]
    rw [unzigzag_zigzag x h]
    simp

/-! ## Verify never panics; Parse characterised -/

theorem uvarintLoop_index (buf : Bytes) :
    ∀ (i acc s : Nat), (uvarintLoop buf i acc s).2 ≤ 0 ∨ (i : Int) < (uvarintLoop buf i acc s).2 := by
  induction buf with
  | nil => intro i acc s; left; simp [uvarintLoop]
  | cons b t ih =>
    intro i acc s
    simp only [uvarintLoop]
    split
    · left; simp only; omega
    · split
      · split
        · left; simp only; omega
        · right; simp only; omega
      · rcases ih (i + 1) ((acc ||| (b.val &&& 0x7f) <<< s) % 2 ^ 64) (s + 7) with h | h
        · left; exact h
        · right; omega

theorem or_shift_lt (acc c s : Nat) (hacc : acc < 2 ^ s) (hc : c < 128) :
    (acc ||| c <<< s) % 2 ^ 64 < 2 ^ (s + 7) := by
  have hor : acc ||| c <<< s = acc + c * 2 ^ s := by
    rw [Nat.or_comm, Nat.shiftLeft_eq, or_eq_add s (Dvd.intro_left _ rfl) hacc, Nat.add_comm]
  have hP : 2 ^ (s + 7) = 128 * 2 ^ s := by rw [Nat.pow_add]; norm_num; ring
  have hle : c * 2 ^ s ≤ 127 * 2 ^ s := Nat.mul_le_mul_right _ (by omega)
  have := Nat.mod_le (acc + c * 2 ^ s) (2 ^ 64)
  rw [hor, hP]
  omega

theorem uvarintLoop_eight (buf : Bytes) :
    ∀ (i acc s : Nat), i ≤ 7 → s = 7 * i → acc < 2 ^ s → (uvarintLoop buf i acc s).2 = 8 →
      (uvarintLoop buf i acc s).1 < 2 ^ 56 := by
  induction buf with
  | nil => intro i acc s _ _ _ h; simp [uvarintLoop] at h
  | cons b t ih =>
    intro i acc s hi hs hacc
    simp only [uvarintLoop]
    split
    · intro h; simp only at h; omega
    · split
      · rename_i hb
        split
        · intro h; simp only at h; omega
        · intro h
          simp only at h
          have h7 : i = 7 := by omega
          subst h7
          subst hs
          exact or_shift_lt acc b.val 49 hacc hb
      · intro h
        have hlt := or_shift_lt acc (b.val &&& 0x7f) s hacc (by rw [and_7f]; omega)
        have hidx := uvarintLoop_index t (i + 1) ((acc ||| (b.val &&& 0x7f) <<< s) % 2 ^ 64) (s + 7)
        have hi6 : i ≤ 6 := by
          rw [h] at hidx
          rcases hidx with h0 | h0
          · omega
          · have : ((i + 1 : Nat) : Int) < 8 := h0
            omega
        exact ih (i + 1) _ (s + 7) (by omega) (by omega) hlt h

theorem Varint_eight (tb : Bytes) (h : (Varint tb).2 = 8) :
    (-2 ^ 63 ≤ (Varint tb).1 ∧ (Varint tb).1 < 2 ^ 63) ∧ zigzag (Varint tb).1 < 128 ^ 8 := by
  have h8 : (uvarintLoop tb 0 0 0).2 = 8 := by simpa [Varint, Uvarint] using h
  have hlt := uvarintLoop_eight tb 0 0 0 (by norm_num) rfl (by norm_num) h8
  have hx : (Varint tb).1 = if (uvarintLoop tb 0 0 0).1 % 2 = 1
      then -((uvarintLoop tb 0 0 0).1 / 2 : Int) - 1 else ((uvarintLoop tb 0 0 0).1 / 2 : Int) := by
    simp only [Varint, Uvarint, Nat.and_one_is_mod, Nat.shiftRight_eq_div_pow, int64]
    norm_num
    split <;> omega
  generalize (uvarintLoop tb 0 0 0).1 = ux at hlt hx
  generalize (Varint tb).1 = x at hx
  have hr : -2 ^ 63 ≤ x ∧ x < 2 ^ 63 := by split at hx <;> omega
  refine ⟨hr, ?_⟩
  have hz := zigzag_int64 x hr
  norm_num
  split at hx <;> split at hz <;> omega

/-- Re-encoding a parsed timestamp never overruns the eight-byte buffer. -/
theorem PutVarint_parsed (tb : Bytes) (h : (Varint tb).2 = 8) :
    ∃ tb' n, PutVarint tb0 (UnixMicro (Varint tb).1).UnixMicro = some (tb', n) := by
  obtain ⟨hr, hz⟩ := Varint_eight tb h
  rw [UnixMicro_UnixMicro _ hr]
  rcases PutVarint_tb0 (Varint tb).1 with ⟨_, h2⟩ | ⟨n, h1, _⟩
  · omega
  · exact ⟨_, _, h1⟩

theorem Parse_ok_iff (L : Lib) (v : VaultSignature) (nonce hash : Bytes) (timestamp : Time) :
    VaultSignature.Parse L v = .ok (nonce, timestamp, hash) ↔
      ∃ c0 c1 c2 tb, Split 46 v = [c0, c1, c2] ∧
        StdEncoding.DecodeString (ToUpper L c0) = .ok nonce ∧
        StdEncoding.DecodeString (ToUpper L c1) = .ok tb ∧
        StdEncoding.DecodeString (ToUpper L c2) = .ok hash ∧
        (Varint tb).2 = 8 ∧ timestamp = UnixMicro (Varint tb).1 := by
  constructor
  · intro h
    unfold VaultSignature.Parse at h
    split at h
    · rename_i c0 c1 c2 hs
      split at h
      · simp at h
      · rename_i n hn
        split at h
        · simp at h
        · rename_i tb htb
          split at h
          · simp at h
          · rename_i hh hhh
            split at h
            · simp at h
            · rename_i h8
              simp only [Except.ok.injEq, Prod.mk.injEq] at h
              obtain ⟨rfl, rfl, rfl⟩ := h
              exact ⟨c0, c1, c2, tb, hs, hn, htb, hhh, by simpa using h8, rfl⟩
    · simp at h
  · rintro ⟨c0, c1, c2, tb, hs, hn, htb, hh, h8, rfl⟩
    simp [VaultSignature.Parse, hs, hn, htb, hh, h8]

theorem VaultKey_Verify_ne_panic (L : Lib) (v : VaultKey) (now : Time) (data : Bytes)
    (signature : VaultSignature) : VaultKey.Verify L v now data signature ≠ .panic := by
  unfold VaultKey.Verify
  split
  · simp
  · rename_i nonce timestamp hash hp
    obtain ⟨c0, c1, c2, tb, _, _, _, _, h8, rfl⟩ := (Parse_ok_iff L _ _ _ _).mp hp
    obtain ⟨tb', n, hput⟩ := PutVarint_parsed tb h8
    simp only [hput]
    split
    · simp
    · split
      · simp
      · split <;> simp

/-! ## Sign by cases; Verify on Sign's output -/

theorem Verify_wire_short (L : Lib) (v : VaultKey) (now : Time) (data nonce tb hash : Bytes)
    (h : (Varint tb).2 ≠ 8) :
    VaultKey.Verify L v now data (wire L nonce tb hash)
      = .error (.invalidTimestamp (wire L nonce tb hash)) := by
  simp only [VaultKey.Verify, Parse_wire, h, ne_eq, not_false_eq_true, if_true]

theorem Verify_wire_eight (L : Lib) (v : VaultKey) (now : Time) (data nonce tb hash : Bytes)
    (x : Int) (hx : -2 ^ 63 ≤ x ∧ x < 2 ^ 63) (htb : PutVarint tb0 x = some (tb, 8)) :
    VaultKey.Verify L v now data (wire L nonce tb hash)
      = if x * 1000 < now.unixNano - 2 * Minute then
          .error (.signatureExpired (UnixMicro x) now)
        else if x * 1000 > now.unixNano + 2 * Minute then
          .error (.signatureNotYetValid (UnixMicro x) now)
        else if L.sha256 (data ++ nonce ++ tb ++ v) = hash then .ok ()
        else .error (.invalidSignatureForData (wire L nonce tb hash)) := by
  have hv : Varint tb = (x, 8) := Varint_PutVarint x hx tb 8 htb
  have hr : (UnixMicro x).UnixMicro = x := UnixMicro_UnixMicro x hx
  have h1 : (UnixMicro x).Compare (now.Add (-2 * Minute)) < 0 ↔ x * 1000 < now.unixNano - 2 * Minute := by
    simp only [Time.Compare, Time.Add, UnixMicro]
    split
    · constructor
      · intro _; omega
      · intro _; decide
    · constructor
      · intro h; split at h <;> simp at h
      · intro h; omega
  have h2 : (UnixMicro x).Compare (now.Add (2 * Minute)) > 0 ↔ x * 1000 > now.unixNano + 2 * Minute := by
    simp only [Time.Compare, Time.Add, UnixMicro]
    split
    · constructor
      · intro h; simp at h
      · intro h; omega
    · split
      · constructor
        · intro _; omega
        · intro _; decide
      · constructor
        · intro h; simp at h
        · intro h; omega
  simp only [VaultKey.Verify, Parse_wire, hv, ne_eq, not_true_eq_false, if_false, h1, h2, hr, htb,
    hmacEqual, decide_eq_true_eq]

/-- What `Sign` does, by the size of the timestamp's varint. -/
theorem Sign_cases (L : Lib) (k : VaultKey) (t : Time) (b nonce : Bytes) :
    (VaultKey.Sign L k t b (.ok nonce) = .panic ∧ ¬ fitsEight t.UnixMicro) ∨
    (∃ tb n, PutVarint tb0 t.UnixMicro = some (tb, n) ∧ tb.length = 8 ∧
      (Varint tb).2 = (n : Int) ∧ (n = 8 ↔ fitsEight t.UnixMicro) ∧
      VaultKey.Sign L k t b (.ok nonce) = .ok (wire L nonce tb (L.sha256 (b ++ nonce ++ tb ++ k)))) := by
  have hr : -2 ^ 63 ≤ t.UnixMicro ∧ t.UnixMicro < 2 ^ 63 := int64_range _
  have hf := fitsEight_iff_zigzag t.UnixMicro hr
  rcases PutVarint_tb0 t.UnixMicro with ⟨h1, h2⟩ | ⟨n, h1, h2, h3, h4⟩
  · left
    refine ⟨by simp only [VaultKey.Sign, h1], ?_⟩
    rw [hf]; omega
  · right
    refine ⟨_, n, h1, ?_, ?_, ?_, Sign_eq L k t b nonce _ n h1⟩
    · simp only [List.length_append, List.length_replicate, ← h2]; omega
    · rw [Varint_PutVarint _ hr _ _ h1]
    · rw [hf]
      rcases uvarintBytes_length_cases (zigzag t.UnixMicro) (zigzag_lt _)
        with ⟨c1, c2⟩ | ⟨c1, c2, c3⟩ | ⟨c1, c2⟩ <;> constructor <;> intro h <;> omega

/-! ## base32: the shape of a padded lower-case component -/

theorem lowerByte_encodeSym : ∀ i : Fin 32, lowerByte (encodeSym i.val) ∈ base32lc := by decide

theorem encodeQuantum_length (b0 b1 b2 b3 b4 : Byte) : (encodeQuantum b0 b1 b2 b3 b4).length = 8 :=
  rfl

theorem lowerByte_quantum (b0 b1 b2 b3 b4 : Byte) :
    ∀ c ∈ encodeQuantum b0 b1 b2 b3 b4, lowerByte c ∈ base32lc := by
  intro c hc
  rw [encodeQuantum_eq, List.mem_map] at hc
  obtain ⟨i, hi, rfl⟩ := hc
  exact lowerByte_encodeSym ⟨i, quantumIdx_lt _ _ _ _ _ i hi⟩

theorem encodeRemain_nopad (r : Nat) (b0 b1 b2 b3 : Byte) :
    encodeRemain (StdEncoding.WithPadding NoPadding) r b0 b1 b2 b3
      = (encodeQuantum b0 b1 b2 b3 0).take (r * 8 / 5 + 1) := by
  simp [encodeRemain, padChar_nopad]

theorem encodeRemain_std (r : Nat) (b0 b1 b2 b3 : Byte) :
    encodeRemain StdEncoding r b0 b1 b2 b3
      = (encodeQuantum b0 b1 b2 b3 0).take (r * 8 / 5 + 1) ++
          List.replicate (8 - (r * 8 / 5 + 1)) 61 := by
  simp [encodeRemain, padChar_std, padByte_std]

theorem nopad_remain (r : Nat) (hr : r = 1 ∨ r = 2 ∨ r = 3 ∨ r = 4) (b0 b1 b2 b3 : Byte) :
    (encodeRemain (StdEncoding.WithPadding NoPadding) r b0 b1 b2 b3).length = (r * 8 + 4) / 5 ∧
    (∀ c ∈ encodeRemain (StdEncoding.WithPadding NoPadding) r b0 b1 b2 b3,
      lowerByte c ∈ base32lc) ∧
    encodeRemain StdEncoding r b0 b1 b2 b3
      = encodeRemain (StdEncoding.WithPadding NoPadding) r b0 b1 b2 b3 ++
          List.replicate ((8 - (r * 8 + 4) / 5 % 8) % 8) 61 := by
  rw [encodeRemain_nopad, encodeRemain_std]
  refine ⟨?_, fun c hc => lowerByte_quantum _ _ _ _ _ c (List.mem_of_mem_take hc), ?_⟩
  · rcases hr with rfl | rfl | rfl | rfl <;> rfl
  · rcases hr with rfl | rfl | rfl | rfl <;> rfl

/-- The unpadded encoding: its length, its alphabet, and the padded encoding
as the unpadded one followed by the padding. -/
theorem nopad_spec :
    ∀ bs : Bytes,
      ((StdEncoding.WithPadding NoPadding).EncodeToString bs).length = (bs.length * 8 + 4) / 5 ∧
      (∀ c ∈ (StdEncoding.WithPadding NoPadding).EncodeToString bs, lowerByte c ∈ base32lc) ∧
      StdEncoding.EncodeToString bs = (StdEncoding.WithPadding NoPadding).EncodeToString bs ++
        List.replicate ((8 - (bs.length * 8 + 4) / 5 % 8) % 8) 61
  | [] => by simp [Encoding.EncodeToString]
  | [b0] => by
      simp only [Encoding.EncodeToString]
      exact nopad_remain 1 (by simp) b0 0 0 0
  | [b0, b1] => by
      simp only [Encoding.EncodeToString]
      exact nopad_remain 2 (by simp) b0 b1 0 0
  | [b0, b1, b2] => by
      simp only [Encoding.EncodeToString]
      exact nopad_remain 3 (by simp) b0 b1 b2 0
  | [b0, b1, b2, b3] => by
      simp only [Encoding.EncodeToString]
      exact nopad_remain 4 (by simp) b0 b1 b2 b3
  | b0 :: b1 :: b2 :: b3 :: b4 :: rest => by
      obtain ⟨h1, h2, h3⟩ := nopad_spec rest
      simp only [Encoding.EncodeToString, List.length_append, encodeQuantum_length, List.length_cons]
      refine ⟨by omega, ?_, ?_⟩
      · intro c hc
        rcases List.mem_append.mp hc with h | h
        · exact lowerByte_quantum _ _ _ _ _ c h
        · exact h2 c h
      · rw [h3, List.append_assoc]
        have e : ((rest.length + 1 + 1 + 1 + 1 + 1) * 8 + 4) / 5
            = (rest.length * 8 + 4) / 5 + 8 := by omega
        rw [e, Nat.add_mod_right]

theorem lowerByte_pad : lowerByte 61 = 61 := by decide

theorem lowerPadded_encode (L : Lib) (bs : Bytes) (m p : Nat) (hm : m = (bs.length * 8 + 4) / 5)
    (hp : p = (8 - m % 8) % 8) : lowerPadded (ToLower L (StdEncoding.EncodeToString bs)) m p := by
  obtain ⟨h1, h2, h3⟩ := nopad_spec bs
  rw [ToLower_wire L _ (wireByte_encode _ used_std bs), h3, ← hm, ← hp, List.map_append,
    List.map_replicate, lowerByte_pad]
  have hl : (((StdEncoding.WithPadding NoPadding).EncodeToString bs).map lowerByte).length = m := by
    rw [List.length_map, h1, hm]
  refine ⟨by rw [List.length_append, hl, List.length_replicate], ?_, ?_⟩
  · rw [List.take_left' hl]
    intro x hx
    obtain ⟨c, hc, rfl⟩ := List.mem_map.mp hx
    exact h2 c hc
  · rw [List.drop_left' hl]

/-! ## Key lookup by hash -/

theorem copy32_eq (b : Bytes) (h : b.length = 32) : copy32 b = b := by
  rw [copy32, List.take_left' h]

theorem DecodeString_HashString (L : Lib) (k : VaultKey) :
    (StdEncoding.WithPadding NoPadding).DecodeString (ToUpper L (VaultKey.HashString L k))
      = .ok (VaultKey.Hash L k) :=
  DecodeString_EncodeToString L _ used_nopad _

theorem HashString_length (L : Lib) (k : VaultKey) : (VaultKey.HashString L k).length = 52 := by
  rw [VaultKey.HashString, ToLower_wire L _ (wireByte_encode _ used_nopad _), List.length_map,
    (nopad_spec _).1, VaultKey.Hash, L.sha256_size]

/-- Method `GetKeyMatchingHash` once the hash has decoded to 32 bytes: a key is found. -/
theorem GetKeyMatchingHash_some (L : Lib) (c : VaultKeyCollection) (hash b : Bytes) (v : VaultKey)
    (hd : (StdEncoding.WithPadding NoPadding).DecodeString (ToUpper L hash) = .ok b)
    (hb : b.length = 32) (hf : c.find? (fun v => decide (VaultKey.Hash L v = b)) = some v) :
    VaultKeyCollection.GetKeyMatchingHash L c hash = .ok v := by
  simp only [VaultKeyCollection.GetKeyMatchingHash, hd, hb, ne_eq, not_true_eq_false, if_false,
    copy32_eq b hb, hf]

/-- Method `GetKeyMatchingHash` once the hash has decoded to 32 bytes: no key is found. -/
theorem GetKeyMatchingHash_none (L : Lib) (c : VaultKeyCollection) (hash b : Bytes)
    (hd : (StdEncoding.WithPadding NoPadding).DecodeString (ToUpper L hash) = .ok b)
    (hb : b.length = 32) (hf : c.find? (fun v => decide (VaultKey.Hash L v = b)) = none) :
    VaultKeyCollection.GetKeyMatchingHash L c hash = .error (.keyNotConfigured hash) := by
  simp only [VaultKeyCollection.GetKeyMatchingHash, hd, hb, ne_eq, not_true_eq_false, if_false,
    copy32_eq b hb, hf]

theorem find_hash_some (L : Lib) (c : VaultKeyCollection) (b : Bytes)
    (h : ∃ v ∈ c, VaultKey.Hash L v = b) :
    ∃ pre v post, c = pre ++ v :: post ∧ VaultKey.Hash L v = b ∧
      (∀ u ∈ pre, VaultKey.Hash L u ≠ b) ∧
      c.find? (fun v => decide (VaultKey.Hash L v = b)) = some v := by
  cases hf : c.find? (fun v => decide (VaultKey.Hash L v = b)) with
  | none =>
    rw [List.find?_eq_none] at hf
    obtain ⟨v, hv, hvb⟩ := h
    exact absurd (by simpa using hvb) (hf v hv)
  | some v =>
    obtain ⟨hp, pre, post, hc, hpre⟩ := List.find?_eq_some.mp hf
    refine ⟨pre, v, post, hc, by simpa using hp, ?_, rfl⟩
    intro u hu
    simpa using hpre u hu

/-- Method `RequireVaultKey` once both headers are present and the key is found: the
signature verifies. -/
theorem RequireVaultKey_ok (L : Lib) (a : auth) (now : Time) (c : Ctx) (v : VaultKey)
    (hk : c.Get "X-Vault-Key-Hash" ≠ []) (hs : c.Get "X-Vault-Signature" ≠ [])
    (hv : VaultKeyCollection.GetKeyMatchingHash L a.vaultKeys (c.Get "X-Vault-Key-Hash") = .ok v)
    (hver : VaultKey.Verify L v now c.BodyRaw (c.Get "X-Vault-Signature") = .ok ()) :
    auth.RequireVaultKey L a now c = .next := by
  simp only [auth.RequireVaultKey, hk, hs, if_false, hv, hver]

/-- Method `RequireVaultKey` once both headers are present and the key is found: the
signature does not verify. -/
theorem RequireVaultKey_error (L : Lib) (a : auth) (now : Time) (c : Ctx) (v : VaultKey) (e : Err)
    (hk : c.Get "X-Vault-Key-Hash" ≠ []) (hs : c.Get "X-Vault-Signature" ≠ [])
    (hv : VaultKeyCollection.GetKeyMatchingHash L a.vaultKeys (c.Get "X-Vault-Key-Hash") = .ok v)
    (hver : VaultKey.Verify L v now c.BodyRaw (c.Get "X-Vault-Signature") = .error e) :
    auth.RequireVaultKey L a now c
      = .error (.invalidVaultSignature (c.Get "X-Vault-Signature") (c.Get "X-Vault-Key-Hash") e) := by
  simp only [auth.RequireVaultKey, hk, hs, if_false, hv, hver]

/-- Method `Verify` returns either no error or an error. -/
theorem VaultKey_Verify_cases (L : Lib) (v : VaultKey) (now : Time) (data : Bytes)
    (signature : VaultSignature) :
    VaultKey.Verify L v now data signature = .ok () ∨
      ∃ e, VaultKey.Verify L v now data signature = .error e := by
  have := VaultKey_Verify_ne_panic L v now data signature
  cases h : VaultKey.Verify L v now data signature with
  | ok u => left; rfl
  | error e => right; exact ⟨e, rfl⟩
  | panic => exact absurd h this

/-- Method `RequireVaultKey` once both headers are present and the key is found. -/
theorem RequireVaultKey_found (L : Lib) (a : auth) (now : Time) (c : Ctx) (v : VaultKey)
    (hk : c.Get "X-Vault-Key-Hash" ≠ []) (hs : c.Get "X-Vault-Signature" ≠ [])
    (hv : VaultKeyCollection.GetKeyMatchingHash L a.vaultKeys (c.Get "X-Vault-Key-Hash") = .ok v) :
    (auth.RequireVaultKey L a now c = .next ↔
      VaultKey.Verify L v now c.BodyRaw (c.Get "X-Vault-Signature") = .ok ()) ∧
    (auth.RequireVaultKey L a now c = .next ∨
      ∃ e, auth.RequireVaultKey L a now c = .error e) := by
  rcases VaultKey_Verify_cases L v now c.BodyRaw (c.Get "X-Vault-Signature") with h | ⟨e, h⟩
  · have := RequireVaultKey_ok L a now c v hk hs hv h
    exact ⟨⟨fun _ => h, fun _ => this⟩, Or.inl this⟩
  · have := RequireVaultKey_error L a now c v e hk hs hv h
    refine ⟨⟨fun hn => ?_, fun ho => ?_⟩, Or.inr ⟨_, this⟩⟩
    · rw [this] at hn; exact absurd hn (by simp)
    · rw [h] at ho; exact absurd ho (by simp)

/-! ## The claims -/

set_option maxRecDepth 100000

/-- C1, as stated, fails: at the Unix epoch the microsecond count is 0, `Sign`
leaves eight zero bytes in the timestamp buffer, and `Parse` reads a one-byte
varint from them, so `Verify` rejects the signature `Sign` has just returned
(`invalid timestamp in signature`). -/
theorem C1_counterexample :
    VaultKey.Sign sampleLib sampleKey epoch sampleBody (.ok sampleNonce) = .ok sigEpoch ∧
    VaultKey.Verify sampleLib sampleKey epoch sampleBody sigEpoch
      = .error (.invalidTimestamp sigEpoch) := by
  decide

/-- C1, amended: for every vault key `k`, body `b` (the empty one included),
nonce and timestamp `t`, `Sign(t, b)` returns a signature that `Verify(t, b, ·)`
accepts if and only if the count of whole microseconds of `t` since the epoch
takes exactly eight varint bytes, that is lies in `[2^48, 2^55)` or in
`[-2^55, -2^48)`. -/
theorem C1_verify_sign_same_instant (L : Lib) (k : VaultKey) (t : Time) (b nonce : Bytes) :
    (∃ s, VaultKey.Sign L k t b (.ok nonce) = .ok s ∧ VaultKey.Verify L k t b s = .ok ()) ↔
      fitsEight (t.unixNano / 1000) := by
  have hr : -2 ^ 63 ≤ t.UnixMicro ∧ t.UnixMicro < 2 ^ 63 := int64_range _
  have hm : Minute = 60000000000 := by norm_num [Minute]
  rcases Sign_cases L k t b nonce with ⟨h1, h2⟩ | ⟨tb, n, h1, h2, h3, h4, h5⟩
  · constructor
    · rintro ⟨s, hs, _⟩; rw [h1] at hs; simp at hs
    · intro hf
      exfalso; apply h2
      have : t.UnixMicro = t.unixNano / 1000 := by
        unfold fitsEight at hf
        simp only [Time.UnixMicro, int64]; omega
      rw [this]; exact hf
  · constructor
    · rintro ⟨s, hs, hv⟩
      rw [h5] at hs
      simp only [Result.ok.injEq] at hs
      subst hs
      by_cases h8 : n = 8
      · subst h8
        rw [Verify_wire_eight L k t b nonce tb _ _ hr h1] at hv
        have hf := h4.mp rfl
        split at hv
        · simp at hv
        · split at hv
          · simp at hv
          · have : t.UnixMicro = t.unixNano / 1000 := by
              simp only [Time.UnixMicro, int64] at *; omega
            rw [← this]; exact hf
      · rw [Verify_wire_short L k t b nonce tb _ (by rw [h3]; omega)] at hv
        simp at hv
    · intro hf
      have hx : t.UnixMicro = t.unixNano / 1000 := by
        unfold fitsEight at hf
        simp only [Time.UnixMicro, int64]; omega
      rw [← hx] at hf
      have h8 : n = 8 := h4.mpr hf
      subst h8
      refine ⟨_, h5, ?_⟩
      rw [Verify_wire_eight L k t b nonce tb _ _ hr h1, hx]
      have c1 : ¬ t.unixNano / 1000 * 1000 < t.unixNano - 2 * Minute := by omega
      have c2 : ¬ t.unixNano / 1000 * 1000 > t.unixNano + 2 * Minute := by omega
      simp only [c1, c2, if_false, if_true]

/-- C1, amended, at the spec's scenario: key `"a".repeat(32)`, body `{}`,
timestamp 2024-01-01T00:00:00Z. -/
theorem C1_witness :
    fitsEight (t2024.unixNano / 1000) ∧
    ∃ s, VaultKey.Sign sampleLib sampleKey t2024 sampleBody (.ok sampleNonce) = .ok s ∧
      VaultKey.Verify sampleLib sampleKey t2024 sampleBody s = .ok () :=
  have h : fitsEight (t2024.unixNano / 1000) := by unfold fitsEight; decide
  ⟨h, (C1_verify_sign_same_instant sampleLib sampleKey t2024 sampleBody sampleNonce).mpr h⟩

/-- C2: for every key, body, verifier time `now` and signature string that
`Parse` accepts, a parsed timestamp earlier than `now - 2min` makes `Verify`
fail with the `signature expired` error and one later than `now + 2min` with
the `signature not yet valid` error, whatever the nonce and digest components
are; `VaultKey.Verify` and `AuthSecretKey.Verify` alike. -/
theorem C2_verify_window (L : Lib) (k : Bytes) (now : Time) (data : Bytes)
    (signature : VaultSignature) (nonce hash : Bytes) (timestamp : Time)
    (hparse : VaultSignature.Parse L signature = .ok (nonce, timestamp, hash)) :
    (timestamp.unixNano < now.unixNano - 2 * Minute →
      VaultKey.Verify L k now data signature = .error (.signatureExpired timestamp now) ∧
      AuthSecretKey.Verify L k now data signature = .error (.signatureExpired timestamp now)) ∧
    (timestamp.unixNano > now.unixNano + 2 * Minute →
      VaultKey.Verify L k now data signature = .error (.signatureNotYetValid timestamp now) ∧
      AuthSecretKey.Verify L k now data signature
        = .error (.signatureNotYetValid timestamp now)) := by
  have hm : Minute = 60000000000 := by norm_num [Minute]
  constructor
  · intro h
    have h1 : timestamp.Compare (now.Add (-2 * Minute)) < 0 := by
      simp only [Time.Compare, Time.Add]
      split
      · decide
      · omega
    simp only [VaultKey.Verify, AuthSecretKey.Verify, hparse, h1, if_true, and_self]
  · intro h
    have h1 : ¬ timestamp.Compare (now.Add (-2 * Minute)) < 0 := by
      simp only [Time.Compare, Time.Add]
      split
      · omega
      · split <;> decide
    have h2 : timestamp.Compare (now.Add (2 * Minute)) > 0 := by
      simp only [Time.Compare, Time.Add]
      split
      · omega
      · decide
    simp only [VaultKey.Verify, AuthSecretKey.Verify, hparse, h1, h2, if_true, if_false, and_self]

/-- C2 at the spec's scenario: the signature made at 2024-01-01T00:00:00Z is
expired three minutes later and not yet valid three minutes earlier. -/
theorem C2_witness :
    VaultSignature.Parse sampleLib sig2024
      = .ok (sampleNonce, t2024, sampleLib.sha256 (sampleBody ++ sampleNonce ++
          [128, 128, 137, 130, 226, 245, 134, 6] ++ sampleKey)) ∧
    VaultKey.Verify sampleLib sampleKey (t2024.Add (3 * Minute)) sampleBody sig2024
      = .error (.signatureExpired t2024 (t2024.Add (3 * Minute))) ∧
    VaultKey.Verify sampleLib otherKey (t2024.Add (-3 * Minute)) [] sig2024
      = .error (.signatureNotYetValid t2024 (t2024.Add (-3 * Minute))) :=
  have hp : VaultSignature.Parse sampleLib sig2024
      = .ok (sampleNonce, t2024, sampleLib.sha256 (sampleBody ++ sampleNonce ++
          [128, 128, 137, 130, 226, 245, 134, 6] ++ sampleKey)) := by decide
  ⟨hp,
    ((C2_verify_window sampleLib sampleKey (t2024.Add (3 * Minute)) sampleBody sig2024 _ _ _ hp).1
      (by decide)).1,
    ((C2_verify_window sampleLib otherKey (t2024.Add (-3 * Minute)) [] sig2024 _ _ _ hp).2
      (by decide)).1⟩

/-- C3: for every key `k`, body `b`, nonce and times `ts`, `now` with
`now - 2min ≤ ts ≤ now + 2min` (both bounds included), where `ts` is a whole
number of microseconds whose count lies in `[2^48, 2^55)`, `Sign(ts, b)`
returns a signature and `Verify(now, b, ·)` accepts it. -/
theorem C3_verify_sign_window (L : Lib) (k : VaultKey) (b nonce : Bytes) (ts now : Time)
    (hwhole : ts.unixNano % 1000 = 0)
    (hrange : 2 ^ 48 ≤ ts.unixNano / 1000 ∧ ts.unixNano / 1000 < 2 ^ 55)
    (hlo : now.unixNano - 2 * Minute ≤ ts.unixNano)
    (hhi : ts.unixNano ≤ now.unixNano + 2 * Minute) :
    ∃ s, VaultKey.Sign L k ts b (.ok nonce) = .ok s ∧ VaultKey.Verify L k now b s = .ok () := by
  have hr : -2 ^ 63 ≤ ts.UnixMicro ∧ ts.UnixMicro < 2 ^ 63 := int64_range _
  have hx : ts.UnixMicro = ts.unixNano / 1000 := by
    simp only [Time.UnixMicro, int64]; omega
  have hf : fitsEight ts.UnixMicro := by rw [hx]; exact Or.inl hrange
  rcases Sign_cases L k ts b nonce with ⟨_, h2⟩ | ⟨tb, n, h1, _, _, h4, h5⟩
  · exact absurd hf h2
  · have h8 : n = 8 := h4.mpr hf
    subst h8
    refine ⟨_, h5, ?_⟩
    rw [Verify_wire_eight L k now b nonce tb _ _ hr h1, hx]
    have c1 : ¬ ts.unixNano / 1000 * 1000 < now.unixNano - 2 * Minute := by omega
    have c2 : ¬ ts.unixNano / 1000 * 1000 > now.unixNano + 2 * Minute := by omega
    simp only [c1, c2, if_false, if_true]

/-- C3 at the upper bound of the window: a signature stamped exactly two
minutes after the verifier's clock. -/
theorem C3_witness :
    ∃ s, VaultKey.Sign sampleLib sampleKey (t2024.Add (2 * Minute)) sampleBody (.ok sampleNonce)
        = .ok s ∧
      VaultKey.Verify sampleLib sampleKey t2024 sampleBody s = .ok () :=
  C3_verify_sign_window sampleLib sampleKey sampleBody sampleNonce (t2024.Add (2 * Minute)) t2024
    (by decide) (by decide) (by decide) (by decide)

/-- C4, as stated, fails: at the Unix epoch the two keys' digests differ, yet
`k2.Verify(t, b, k1.Sign(t, b))` returns the `invalid timestamp in signature`
error, not the `invalid signature` one: the signature is rejected by `Parse`
before any digest is computed. -/
theorem C4_counterexample :
    sampleLib.sha256 (sampleBody ++ sampleNonce ++ tb0 ++ sampleKey)
      ≠ sampleLib.sha256 (sampleBody ++ sampleNonce ++ tb0 ++ otherKey) ∧
    PutVarint tb0 epoch.UnixMicro = some (tb0, 1) ∧
    VaultKey.Sign sampleLib sampleKey epoch sampleBody (.ok sampleNonce) = .ok sigEpoch ∧
    VaultKey.Verify sampleLib otherKey epoch sampleBody sigEpoch
      = .error (.invalidTimestamp sigEpoch) := by
  decide

/-- C4, amended: for every body `b`, nonce, timestamp `t` and vault keys `k1`,
`k2` whose digests over `b‖nonce‖ts‖key` differ: when the microsecond count of
`t` takes exactly eight varint bytes (`[2^48, 2^55)` or `[-2^55, -2^48)`),
`k2.Verify(t, b, k1.Sign(t, b))` returns the `invalid signature` error; for
any other `t` at which `Sign` returns a signature, `Verify` fails all the same,
with another error. -/
theorem C4_verify_other_key (L : Lib) (k1 k2 : VaultKey) (b nonce : Bytes) (t : Time)
    (hsha : ∀ tb n, PutVarint tb0 t.UnixMicro = some (tb, n) →
      L.sha256 (b ++ nonce ++ tb ++ k1) ≠ L.sha256 (b ++ nonce ++ tb ++ k2)) :
    (fitsEight (t.unixNano / 1000) →
      ∃ s, VaultKey.Sign L k1 t b (.ok nonce) = .ok s ∧
        VaultKey.Verify L k2 t b s = .error (.invalidSignatureForData s)) ∧
    (∀ s, VaultKey.Sign L k1 t b (.ok nonce) = .ok s → ∃ e, VaultKey.Verify L k2 t b s = .error e) := by
  have hr : -2 ^ 63 ≤ t.UnixMicro ∧ t.UnixMicro < 2 ^ 63 := int64_range _
  have hm : Minute = 60000000000 := by norm_num [Minute]
  rcases Sign_cases L k1 t b nonce with ⟨h1, h2⟩ | ⟨tb, n, h1, _, h3, h4, h5⟩
  · constructor
    · intro hf
      exfalso; apply h2
      have : t.UnixMicro = t.unixNano / 1000 := by
        unfold fitsEight at hf
        simp only [Time.UnixMicro, int64]; omega
      rw [this]; exact hf
    · intro s hs; rw [h1] at hs; simp at hs
  · have hne := hsha tb n h1
    constructor
    · intro hf
      have hx : t.UnixMicro = t.unixNano / 1000 := by
        unfold fitsEight at hf
        simp only [Time.UnixMicro, int64]; omega
      rw [← hx] at hf
      have h8 : n = 8 := h4.mpr hf
      subst h8
      refine ⟨_, h5, ?_⟩
      rw [Verify_wire_eight L k2 t b nonce tb _ _ hr h1, hx]
      have c1 : ¬ t.unixNano / 1000 * 1000 < t.unixNano - 2 * Minute := by omega
      have c2 : ¬ t.unixNano / 1000 * 1000 > t.unixNano + 2 * Minute := by omega
      simp only [c1, c2, if_false, hne.symm]
    · intro s hs
      rw [h5] at hs
      simp only [Result.ok.injEq] at hs
      subst hs
      by_cases h8 : n = 8
      · subst h8
        rw [Verify_wire_eight L k2 t b nonce tb _ _ hr h1]
        simp only [hne.symm, if_false]
        split
        · exact ⟨_, rfl⟩
        · split <;> exact ⟨_, rfl⟩
      · rw [Verify_wire_short L k2 t b nonce tb _ (by rw [h3]; omega)]
        exact ⟨_, rfl⟩

/-- C4, amended, at the spec's scenario: signed with `"a".repeat(32)` at
2024-01-01T00:00:00Z, verified with `"b".repeat(32)`. -/
theorem C4_witness :
    fitsEight (t2024.unixNano / 1000) ∧
    ∃ s, VaultKey.Sign sampleLib sampleKey t2024 sampleBody (.ok sampleNonce) = .ok s ∧
      VaultKey.Verify sampleLib otherKey t2024 sampleBody s = .error (.invalidSignatureForData s) :=
  have h : fitsEight (t2024.unixNano / 1000) := by unfold fitsEight; decide
  have hp : PutVarint tb0 t2024.UnixMicro = some (tb2024, 8) := by decide
  ⟨h, (C4_verify_other_key sampleLib sampleKey otherKey sampleBody sampleNonce t2024
    (by
      intro tb n htb
      rw [hp] at htb
      simp only [Option.some.injEq, Prod.mk.injEq] at htb
      rw [← htb.1]
      decide)).1 h⟩

/-- C5, as stated, fails: the signature `Sign` returns in the spec's scenario
carries `=` padding in each of its three components. -/
theorem C5_counterexample :
    VaultKey.Sign sampleLib sampleKey t2024 sampleBody (.ok sampleNonce) = .ok sig2024 ∧
    Split 46 sig2024 =
      [str "a4dqobyha4dqobyha4dqobyha4dqobyha4dqobyha4dqobyha4dq====", str "qcaitaxc6wdam===",
        str "ru7o7icrakzwifogo4untcr35sou575qmejmg5bf22dtr2m2jp6a===="] := by
  decide

/-- C5, amended: for every key, timestamp, body and 32-byte nonce, the string
returned by `Sign` consists of exactly three `.`-separated components, the
lower-cased padded standard base32 encodings of the nonce, of the eight-byte
timestamp buffer and of the 32-byte SHA-256 digest of
body‖nonce‖timestamp bytes‖key: 52, 13 and 52 characters of the lower-case
alphabet followed by 4, 3 and 4 characters `=`. -/
theorem C5_sign_format (L : Lib) (k : VaultKey) (t : Time) (b nonce : Bytes) (s : VaultSignature)
    (hn : nonce.length = 32) (hs : VaultKey.Sign L k t b (.ok nonce) = .ok s) :
    ∃ tb n c0 c1 c2, PutVarint tb0 t.UnixMicro = some (tb, n) ∧ tb.length = 8 ∧
      (L.sha256 (b ++ nonce ++ tb ++ k)).length = 32 ∧
      s = c0 ++ [46] ++ c1 ++ [46] ++ c2 ∧ Split 46 s = [c0, c1, c2] ∧
      c0 = (StdEncoding.EncodeToString nonce).map lowerByte ∧
      c1 = (StdEncoding.EncodeToString tb).map lowerByte ∧
      c2 = (StdEncoding.EncodeToString (L.sha256 (b ++ nonce ++ tb ++ k))).map lowerByte ∧
      lowerPadded c0 52 4 ∧ lowerPadded c1 13 3 ∧ lowerPadded c2 52 4 := by
  rcases Sign_cases L k t b nonce with ⟨h1, _⟩ | ⟨tb, n, h1, h2, _, _, h5⟩
  · rw [h1] at hs; simp at hs
  · rw [h5] at hs
    simp only [Result.ok.injEq] at hs
    subst hs
    have hsz := L.sha256_size (b ++ nonce ++ tb ++ k)
    refine ⟨tb, n, _, _, _, h1, h2, hsz, rfl, Split_wire L _ _ _,
      ToLower_wire L _ (wireByte_encode _ used_std _),
      ToLower_wire L _ (wireByte_encode _ used_std _),
      ToLower_wire L _ (wireByte_encode _ used_std _),
      lowerPadded_encode L _ 52 4 (by rw [hn]) rfl,
      lowerPadded_encode L _ 13 3 (by rw [h2]) rfl,
      lowerPadded_encode L _ 52 4 (by rw [hsz]) rfl⟩

/-- C5, amended, at the spec's scenario. -/
theorem C5_witness :
    ∃ tb n c0 c1 c2, PutVarint tb0 t2024.UnixMicro = some (tb, n) ∧ tb.length = 8 ∧
      (sampleLib.sha256 (sampleBody ++ sampleNonce ++ tb ++ sampleKey)).length = 32 ∧
      sig2024 = c0 ++ [46] ++ c1 ++ [46] ++ c2 ∧ Split 46 sig2024 = [c0, c1, c2] ∧
      c0 = (StdEncoding.EncodeToString sampleNonce).map lowerByte ∧
      c1 = (StdEncoding.EncodeToString tb).map lowerByte ∧
      c2 = (StdEncoding.EncodeToString
        (sampleLib.sha256 (sampleBody ++ sampleNonce ++ tb ++ sampleKey))).map lowerByte ∧
      lowerPadded c0 52 4 ∧ lowerPadded c1 13 3 ∧ lowerPadded c2 52 4 :=
  C5_sign_format sampleLib sampleKey t2024 sampleBody sampleNonce sig2024 (by decide) (by decide)

/-- C6, as stated, fails: the unpadded lower-case encoding of a 32-byte nonce,
of the timestamp buffer of 2024-01-01T00:00:00Z and of a 32-byte digest,
joined by dots, is rejected by `Parse`: the padded decoder it uses reports
corrupt input where the first component ends without padding. With padding,
the buffer of a timestamp whose varint is shorter than eight bytes (the epoch)
is rejected as well, as an invalid timestamp. -/
theorem C6_counterexample :
    PutVarint tb0 t2024.UnixMicro = some (tb2024, 8) ∧
    ToLower sampleLib ((StdEncoding.WithPadding NoPadding).EncodeToString sampleNonce) ++ [46] ++
      ToLower sampleLib ((StdEncoding.WithPadding NoPadding).EncodeToString tb2024) ++ [46] ++
      ToLower sampleLib ((StdEncoding.WithPadding NoPadding).EncodeToString sampleNonce)
      = sigUnpadded ∧
    VaultSignature.Parse sampleLib sigUnpadded = .error (.corruptInput 48) ∧
    PutVarint tb0 epoch.UnixMicro = some (tb0, 1) ∧
    VaultSignature.Parse sampleLib
        (ToLower sampleLib (StdEncoding.EncodeToString sampleNonce) ++ [46] ++
          ToLower sampleLib (StdEncoding.EncodeToString tb0) ++ [46] ++
          ToLower sampleLib (StdEncoding.EncodeToString sampleNonce))
      = .error (.invalidTimestamp
          (ToLower sampleLib (StdEncoding.EncodeToString sampleNonce) ++ [46] ++
            ToLower sampleLib (StdEncoding.EncodeToString tb0) ++ [46] ++
            ToLower sampleLib (StdEncoding.EncodeToString sampleNonce))) := by
  decide

/-- C6, amended: `Parse` succeeds on every string
`base32lc(n).base32lc(t).base32lc(h)` written in lower-case base32 with `=`
padding, where `n` and `h` are byte strings (of 32 bytes or any other length)
and `t` is the eight-byte buffer `PutVarint` fills for a microsecond count that
takes exactly eight varint bytes, and returns `n`, the instant at that count
and `h`. -/
theorem C6_parse_padded (L : Lib) (n h tb : Bytes) (x : Int) (m : Nat) (hx : fitsEight x)
    (hput : PutVarint tb0 x = some (tb, m)) :
    VaultSignature.Parse L
        (ToLower L (StdEncoding.EncodeToString n) ++ [46] ++
          ToLower L (StdEncoding.EncodeToString tb) ++ [46] ++
          ToLower L (StdEncoding.EncodeToString h))
      = .ok (n, UnixMicro x, h) := by
  have hr : -2 ^ 63 ≤ x ∧ x < 2 ^ 63 := by unfold fitsEight at hx; omega
  obtain ⟨tb', hp', _, hv'⟩ := PutVarint_eight x hx
  rw [hput] at hp'
  simp only [Option.some.injEq, Prod.mk.injEq] at hp'
  obtain ⟨rfl, rfl⟩ := hp'
  have := Parse_wire L n tb h
  rw [hv'] at this
  simpa [wire] using this

/-- C6, amended, at a concrete input: the padded signature of the spec's
scenario parses to its nonce, 2024-01-01T00:00:00Z and its digest. -/
theorem C6_witness :
    fitsEight t2024.UnixMicro ∧
    VaultSignature.Parse sampleLib
        (ToLower sampleLib (StdEncoding.EncodeToString sampleNonce) ++ [46] ++
          ToLower sampleLib (StdEncoding.EncodeToString tb2024) ++ [46] ++
          ToLower sampleLib (StdEncoding.EncodeToString sampleKey))
      = .ok (sampleNonce, UnixMicro t2024.UnixMicro, sampleKey) :=
  have h : fitsEight t2024.UnixMicro := by unfold fitsEight; decide
  ⟨h, C6_parse_padded sampleLib sampleNonce sampleKey tb2024 t2024.UnixMicro 8 h (by decide)⟩

/-- C7: `Parse` returns the `invalid signature` error whenever the string does
not split on `.` into exactly three components, an error whenever the padded
standard base32 decoder rejects the upper-cased first, second or third
component, and an error whenever the decoded timestamp bytes are not a varint
of eight bytes; when it returns no error, its three results are the decoded
nonce bytes, the instant at the decoded microsecond count, and the decoded
digest bytes. -/
theorem C7_parse_errors (L : Lib) (v : VaultSignature) :
    ((Split 46 v).length ≠ 3 → VaultSignature.Parse L v = .error (.invalidSignature v)) ∧
    (∀ c0 c1 c2, Split 46 v = [c0, c1, c2] →
      (∀ e, StdEncoding.DecodeString (ToUpper L c0) = .error e →
        VaultSignature.Parse L v = .error e) ∧
      (∀ nonce e, StdEncoding.DecodeString (ToUpper L c0) = .ok nonce →
        StdEncoding.DecodeString (ToUpper L c1) = .error e →
        VaultSignature.Parse L v = .error e) ∧
      (∀ nonce tb e, StdEncoding.DecodeString (ToUpper L c0) = .ok nonce →
        StdEncoding.DecodeString (ToUpper L c1) = .ok tb →
        StdEncoding.DecodeString (ToUpper L c2) = .error e →
        VaultSignature.Parse L v = .error e) ∧
      (∀ nonce tb hash, StdEncoding.DecodeString (ToUpper L c0) = .ok nonce →
        StdEncoding.DecodeString (ToUpper L c1) = .ok tb →
        StdEncoding.DecodeString (ToUpper L c2) = .ok hash → (Varint tb).2 ≠ 8 →
        VaultSignature.Parse L v = .error (.invalidTimestamp v))) ∧
    (∀ nonce timestamp hash, VaultSignature.Parse L v = .ok (nonce, timestamp, hash) →
      ∃ c0 c1 c2 tb, Split 46 v = [c0, c1, c2] ∧
        StdEncoding.DecodeString (ToUpper L c0) = .ok nonce ∧
        StdEncoding.DecodeString (ToUpper L c1) = .ok tb ∧
        StdEncoding.DecodeString (ToUpper L c2) = .ok hash ∧
        (Varint tb).2 = 8 ∧ timestamp = UnixMicro (Varint tb).1) := by
  refine ⟨?_, ?_, ?_⟩
  · intro h
    unfold VaultSignature.Parse
    split
    · rename_i hs; rw [hs] at h; simp at h
    · rfl
  · intro c0 c1 c2 hs
    refine ⟨?_, ?_, ?_, ?_⟩
    · intro e h0
      simp only [VaultSignature.Parse, hs, h0]
    · intro nonce e h0 h1
      simp only [VaultSignature.Parse, hs, h0, h1]
    · intro nonce tb e h0 h1 h2
      simp only [VaultSignature.Parse, hs, h0, h1, h2]
    · intro nonce tb hash h0 h1 h2 h8
      simp only [VaultSignature.Parse, hs, h0, h1, h2, h8, ne_eq, not_false_eq_true, if_true]
  · intro nonce timestamp hash h
    exact (Parse_ok_iff L v nonce hash timestamp).mp h

/-- C8: `GetKeyMatchingHash(h)` returns the decoder's error when the unpadded
standard base32 decoder rejects the upper-cased `h`, an error when `h` does not
decode to exactly 32 bytes, and an error when no key of `c` has the decoded
bytes as its SHA-256; otherwise it returns the first key of `c` whose SHA-256
equals the decoded bytes. For every key `k` of `c`, `GetKeyMatchingHash` of
`k.HashString()` succeeds with a key whose hash equals that of `k`; with keys
`[K1, K2]` (of different hashes, or equal) it returns `K2` for the hash string
of `K2`, and `RequireVaultKey` then lets a request through exactly when its
signature verifies under `K2`. -/
theorem C8_get_key_matching_hash (L : Lib) (c : VaultKeyCollection) (hash : Bytes) :
    (∀ e, (StdEncoding.WithPadding NoPadding).DecodeString (ToUpper L hash) = .error e →
      VaultKeyCollection.GetKeyMatchingHash L c hash = .error e) ∧
    (∀ b, (StdEncoding.WithPadding NoPadding).DecodeString (ToUpper L hash) = .ok b →
      b.length ≠ 32 →
      VaultKeyCollection.GetKeyMatchingHash L c hash = .error (.invalidHashSize b.length)) ∧
    (∀ b, (StdEncoding.WithPadding NoPadding).DecodeString (ToUpper L hash) = .ok b →
      b.length = 32 → (∀ v ∈ c, VaultKey.Hash L v ≠ b) →
      VaultKeyCollection.GetKeyMatchingHash L c hash = .error (.keyNotConfigured hash)) ∧
    (∀ b, (StdEncoding.WithPadding NoPadding).DecodeString (ToUpper L hash) = .ok b →
      b.length = 32 → (∃ v ∈ c, VaultKey.Hash L v = b) →
      ∃ pre v post, c = pre ++ v :: post ∧ VaultKey.Hash L v = b ∧
        (∀ u ∈ pre, VaultKey.Hash L u ≠ b) ∧
        VaultKeyCollection.GetKeyMatchingHash L c hash = .ok v) ∧
    (∀ k ∈ c, ∃ v, VaultKeyCollection.GetKeyMatchingHash L c (VaultKey.HashString L k) = .ok v ∧
      v ∈ c ∧ VaultKey.Hash L v = VaultKey.Hash L k) ∧
    (∀ K1 K2, c = [K1, K2] → (VaultKey.Hash L K1 = VaultKey.Hash L K2 → K1 = K2) →
      VaultKeyCollection.GetKeyMatchingHash L c (VaultKey.HashString L K2) = .ok K2 ∧
      ∀ (a : auth) (now : Time) (ctx : Ctx), a.vaultKeys = c →
        ctx.Get "X-Vault-Key-Hash" = VaultKey.HashString L K2 →
        ctx.Get "X-Vault-Signature" ≠ [] →
        (auth.RequireVaultKey L a now ctx = .next ↔
          VaultKey.Verify L K2 now ctx.BodyRaw (ctx.Get "X-Vault-Signature") = .ok ())) := by
  refine ⟨?_, ?_, ?_, ?_, ?_, ?_⟩
  · intro e he
    simp only [VaultKeyCollection.GetKeyMatchingHash, he]
  · intro b hd hb
    simp only [VaultKeyCollection.GetKeyMatchingHash, hd, hb, ne_eq, not_false_eq_true, if_true]
  · intro b hd hb hnone
    apply GetKeyMatchingHash_none L c hash b hd hb
    rw [List.find?_eq_none]
    intro v hv
    simpa using hnone v hv
  · intro b hd hb hsome
    obtain ⟨pre, v, post, hc, hvb, hpre, hf⟩ := find_hash_some L c b hsome
    refine ⟨pre, v, post, hc, hvb, hpre, ?_⟩
    exact GetKeyMatchingHash_some L c hash b v hd hb hf
  · intro k hk
    obtain ⟨pre, v, post, hc, hvb, _, hf⟩ := find_hash_some L c (VaultKey.Hash L k) ⟨k, hk, rfl⟩
    refine ⟨v, ?_, by rw [hc]; simp, hvb⟩
    exact GetKeyMatchingHash_some L c _ _ v (DecodeString_HashString L k) (L.sha256_size k) hf
  · intro K1 K2 hc hinj
    have hget : VaultKeyCollection.GetKeyMatchingHash L c (VaultKey.HashString L K2) = .ok K2 := by
      apply GetKeyMatchingHash_some L c _ _ K2 (DecodeString_HashString L K2) (L.sha256_size K2)
      rw [hc]
      by_cases h12 : VaultKey.Hash L K1 = VaultKey.Hash L K2
      · have := hinj h12
        subst this
        simp [List.find?]
      · simp [List.find?, h12]
    refine ⟨hget, ?_⟩
    intro a now ctx ha hkh hsig
    have hne : ctx.Get "X-Vault-Key-Hash" ≠ [] := by
      intro h0
      have := HashString_length L K2
      rw [← hkh, h0] at this
      simp at this
    exact (RequireVaultKey_found L a now ctx K2 hne hsig (by rw [ha, hkh]; exact hget)).1

/-- C8 at the spec's multi-key scenario: with keys `[K1, K2]` the hash string
of `K2` selects `K2`. -/
theorem C8_witness :
    VaultKeyCollection.GetKeyMatchingHash sampleLib [sampleKey, otherKey]
      (VaultKey.HashString sampleLib otherKey) = .ok otherKey :=
  ((C8_get_key_matching_hash sampleLib [sampleKey, otherKey] []).2.2.2.2.2
    sampleKey otherKey rfl (by decide)).1

/-- C9: `RequireAuthSignature` calls the next handler in exactly two cases: no
auth secret is configured and the `X-Vault-Auth-Signature` header is absent
(empty once trimmed, which is how the handler sees a missing header), or a
secret is configured and the trimmed header verifies over the raw request body
under that secret; `AuthSecretKey.Verify` returns the same result as
`VaultKey.Verify` for the same secret string, time, body and signature. A
header present with no secret configured fails, a configured secret with no
header fails, and so does a header that does not verify; the handler never
panics. -/
theorem C9_require_auth_signature (L : Lib) (a : auth) (now : Time) (c : Ctx) :
    (auth.RequireAuthSignature L a now c = .next ↔
      (a.authSecretKey = none ∧ TrimSpace L (c.Get "X-Vault-Auth-Signature") = []) ∨
      (∃ k, a.authSecretKey = some k ∧ TrimSpace L (c.Get "X-Vault-Auth-Signature") ≠ [] ∧
        AuthSecretKey.Verify L k now c.BodyRaw (TrimSpace L (c.Get "X-Vault-Auth-Signature"))
          = .ok ())) ∧
    (∀ (k : Bytes) (t : Time) (data : Bytes) (signature : VaultSignature),
      AuthSecretKey.Verify L k t data signature = VaultKey.Verify L k t data signature) ∧
    (a.authSecretKey = none → TrimSpace L (c.Get "X-Vault-Auth-Signature") ≠ [] →
      auth.RequireAuthSignature L a now c = .error .authSecretNotConfigured) ∧
    (a.authSecretKey ≠ none → TrimSpace L (c.Get "X-Vault-Auth-Signature") = [] →
      auth.RequireAuthSignature L a now c = .error .authSignatureMissing) ∧
    (∀ k e, a.authSecretKey = some k → TrimSpace L (c.Get "X-Vault-Auth-Signature") ≠ [] →
      AuthSecretKey.Verify L k now c.BodyRaw (TrimSpace L (c.Get "X-Vault-Auth-Signature"))
        = .error e →
      auth.RequireAuthSignature L a now c = .error (.authSignature e)) ∧
    auth.RequireAuthSignature L a now c ≠ .panic := by
  have hnp : ∀ k, AuthSecretKey.Verify L k now c.BodyRaw
      (TrimSpace L (c.Get "X-Vault-Auth-Signature")) ≠ .panic :=
    fun k => VaultKey_Verify_ne_panic L k now c.BodyRaw _
  refine ⟨?_, fun _ _ _ _ => rfl, ?_, ?_, ?_, ?_⟩
  · unfold auth.RequireAuthSignature
    by_cases hh : TrimSpace L (c.Get "X-Vault-Auth-Signature") = []
    · cases hk : a.authSecretKey <;> simp [hh]
    · cases hk : a.authSecretKey with
      | none => simp [hh]
      | some k =>
        simp only [hh, ne_eq, not_false_eq_true, if_true]
        cases hv : AuthSecretKey.Verify L k now c.BodyRaw
          (TrimSpace L (c.Get "X-Vault-Auth-Signature")) <;> simp [hv]
  · intro hk hh
    simp only [auth.RequireAuthSignature, hh, ne_eq, not_false_eq_true, if_true, hk]
  · intro hk hh
    simp only [auth.RequireAuthSignature, hh, ne_eq, not_true_eq_false, if_false, hk,
      not_false_eq_true, if_true]
  · intro k e hk hh hv
    simp only [auth.RequireAuthSignature, hh, ne_eq, not_false_eq_true, if_true, hk, hv]
  · unfold auth.RequireAuthSignature
    by_cases hh : TrimSpace L (c.Get "X-Vault-Auth-Signature") = []
    · cases hk : a.authSecretKey <;> simp [hh]
    · cases hk : a.authSecretKey with
      | none => simp [hh]
      | some k =>
        simp only [hh, ne_eq, not_false_eq_true, if_true]
        have := hnp k
        cases hv : AuthSecretKey.Verify L k now c.BodyRaw
          (TrimSpace L (c.Get "X-Vault-Auth-Signature")) <;> simp_all

/-- C10: `RequireVaultKey` returns an error without calling the next handler
whenever the `X-Vault-Key-Hash` header or the `X-Vault-Signature` header is
missing, whenever no configured vault key matches the key hash, and whenever
the signature does not verify over the raw request body under the matched key;
it calls the next handler exactly when all of these checks pass, and never
panics. -/
theorem C10_require_vault_key (L : Lib) (a : auth) (now : Time) (c : Ctx) :
    (c.Get "X-Vault-Key-Hash" = [] →
      auth.RequireVaultKey L a now c = .error .keyHashHeaderMissing) ∧
    (c.Get "X-Vault-Key-Hash" ≠ [] → c.Get "X-Vault-Signature" = [] →
      auth.RequireVaultKey L a now c = .error .signatureHeaderMissing) ∧
    (c.Get "X-Vault-Key-Hash" ≠ [] → c.Get "X-Vault-Signature" ≠ [] →
      ∀ e, VaultKeyCollection.GetKeyMatchingHash L a.vaultKeys (c.Get "X-Vault-Key-Hash")
          = .error e →
        auth.RequireVaultKey L a now c = .error e) ∧
    (c.Get "X-Vault-Key-Hash" ≠ [] → c.Get "X-Vault-Signature" ≠ [] →
      ∀ v e, VaultKeyCollection.GetKeyMatchingHash L a.vaultKeys (c.Get "X-Vault-Key-Hash")
          = .ok v →
        VaultKey.Verify L v now c.BodyRaw (c.Get "X-Vault-Signature") = .error e →
        auth.RequireVaultKey L a now c
          = .error (.invalidVaultSignature (c.Get "X-Vault-Signature")
              (c.Get "X-Vault-Key-Hash") e)) ∧
    (auth.RequireVaultKey L a now c = .next ↔
      c.Get "X-Vault-Key-Hash" ≠ [] ∧ c.Get "X-Vault-Signature" ≠ [] ∧
      ∃ v, VaultKeyCollection.GetKeyMatchingHash L a.vaultKeys (c.Get "X-Vault-Key-Hash")
          = .ok v ∧
        VaultKey.Verify L v now c.BodyRaw (c.Get "X-Vault-Signature") = .ok ()) ∧
    (auth.RequireVaultKey L a now c = .next ∨ ∃ e, auth.RequireVaultKey L a now c = .error e) := by
  refine ⟨?_, ?_, ?_, ?_, ?_, ?_⟩
  · intro hk
    simp only [auth.RequireVaultKey, hk, if_true]
  · intro hk hs
    simp only [auth.RequireVaultKey, hk, hs, if_true, if_false]
  · intro hk hs e he
    simp only [auth.RequireVaultKey, hk, hs, if_false, he]
  · intro hk hs v e hv hver
    exact RequireVaultKey_error L a now c v e hk hs hv hver
  · by_cases hk : c.Get "X-Vault-Key-Hash" = []
    · simp [auth.RequireVaultKey, hk]
    · by_cases hs : c.Get "X-Vault-Signature" = []
      · simp [auth.RequireVaultKey, hk, hs]
      · cases hv : VaultKeyCollection.GetKeyMatchingHash L a.vaultKeys (c.Get "X-Vault-Key-Hash") with
        | error e => simp [auth.RequireVaultKey, hk, hs, hv]
        | ok v =>
          rw [(RequireVaultKey_found L a now c v hk hs hv).1]
          simp [hk, hs]
  · by_cases hk : c.Get "X-Vault-Key-Hash" = []
    · right; exact ⟨.keyHashHeaderMissing, by simp only [auth.RequireVaultKey, hk, if_true]⟩
    · by_cases hs : c.Get "X-Vault-Signature" = []
      · right
        exact ⟨.signatureHeaderMissing, by
          simp only [auth.RequireVaultKey, hk, hs, if_true, if_false]⟩
      · cases hv : VaultKeyCollection.GetKeyMatchingHash L a.vaultKeys (c.Get "X-Vault-Key-Hash") with
        | error e => right; exact ⟨e, by simp only [auth.RequireVaultKey, hk, hs, if_false, hv]⟩
        | ok v => exact (RequireVaultKey_found L a now c v hk hs hv).2

/-! ## Anonymized ids -/

theorem xor_byte (v : Byte) (k : Nat) : byte ((byte (v.val ^^^ (k % 256))).val ^^^ (k % 256)) = v := by
  have hk : k % 256 < 2 ^ 8 := Nat.mod_lt _ (by norm_num)
  have hv : v.val < 2 ^ 8 := v.isLt
  have hx : v.val ^^^ (k % 256) < 256 := Nat.xor_lt_two_pow hv hk
  apply Fin.ext
  rw [byte_val, byte_val, Nat.mod_eq_of_lt hx, Nat.xor_assoc, Nat.xor_self, Nat.xor_zero]
  exact Nat.mod_eq_of_lt v.isLt

theorem XORKeyStream_involution (src : Bytes) :
    ∀ c : Cipher, (c.XORKeyStream (c.XORKeyStream src).1).1 = src := by
  induction src with
  | nil => intro c; rfl
  | cons v rest ih =>
    intro c
    simp only [Cipher.XORKeyStream, xor_byte, ih]

theorem XORKeyStream_length (src : Bytes) :
    ∀ c : Cipher, (c.XORKeyStream src).1.length = src.length := by
  induction src with
  | nil => intro c; rfl
  | cons v rest ih => intro c; simp only [Cipher.XORKeyStream, List.length_cons, ih]

theorem NewCipher_ok (key : Bytes) (h : 1 ≤ key.length ∧ key.length ≤ 256) :
    NewCipher key = .ok ⟨keySchedule key 256 0 0 (List.range 256), 0, 0⟩ := by
  rw [NewCipher, if_neg (by omega)]

/-- With a key of 1 to 256 bytes `encryptRC4` succeeds, keeps the length, and
`decryptRC4` under the same key undoes it. -/
theorem decryptRC4_encryptRC4 (key p : Bytes) (h : 1 ≤ key.length ∧ key.length ≤ 256) :
    ∃ ct, encryptRC4 key p = .ok ct ∧ ct.length = p.length ∧ decryptRC4 key ct = .ok p := by
  refine ⟨_, by rw [encryptRC4, NewCipher_ok key h], XORKeyStream_length _ _, ?_⟩
  rw [decryptRC4, NewCipher_ok key h]
  simp only [XORKeyStream_involution]

theorem jsonPlain_base32lc : ∀ c ∈ base32lc, jsonPlain c = true := by decide

theorem jsonUnmarshal_jsonMarshal (E : Env) (s : Bytes) (h : ∀ c ∈ s, jsonPlain c = true) :
    jsonMarshal E s = [34] ++ s ++ [34] ∧ jsonUnmarshal E (jsonMarshal E s) = .ok s := by
  have hall : s.all jsonPlain = true := List.all_eq_true.mpr h
  have e : jsonMarshal E s = [34] ++ s ++ [34] := by rw [jsonMarshal, if_pos hall]
  refine ⟨e, ?_⟩
  have hd : (([34] ++ s ++ [34] : Bytes).drop 1).dropLast = s := by simp
  have hl : ([34] ++ s ++ [34] : Bytes).getLast? = some 34 := by
    rw [List.getLast?_append]; rfl
  rw [e, jsonUnmarshal, hd, if_pos ⟨by simp, by simp, hl, hall⟩]

/-- The lower-case unpadded base32 text of any bytes is plain for JSON. -/
theorem jsonPlain_ToLower (L : Lib) (bs : Bytes) :
    ∀ c ∈ ToLower L ((StdEncoding.WithPadding NoPadding).EncodeToString bs), jsonPlain c = true := by
  rw [ToLower_wire L _ (wireByte_encode _ used_nopad bs)]
  intro c hc
  obtain ⟨d, hd, rfl⟩ := List.mem_map.mp hc
  exact jsonPlain_base32lc _ ((nopad_spec bs).2.1 d hd)

theorem TrimPrefix_append (pre s : Bytes) : TrimPrefix (pre ++ s) pre = s := by
  simp [TrimPrefix, HasPrefix]

theorem copy_full (dst src : Bytes) (h : src.length = dst.length) : copy dst src = src := by
  simp [copy, ← h]

theorem zero_length : ObjectID.zero.length = 12 := rfl

/-- The string form of an id decodes to the id, for any prefix. -/
theorem FromString_String (L : Lib) (E : Env) (pre : Bytes) (id : ObjectID) (hid : id.length = 12)
    (hk : 1 ≤ (anonymizationKey E).length ∧ (anonymizationKey E).length ≤ 256) :
    ObjectIDFromStringWithPrefix L E pre (ObjectID.StringWithPrefix L E id pre) = .ok id := by
  obtain ⟨ct, h1, h2, h3⟩ := decryptRC4_encryptRC4 (anonymizationKey E) id hk
  simp only [ObjectID.StringWithPrefix, ObjectIDFromStringWithPrefix, h1,
    TrimPrefix_append, DecodeString_EncodeToString L _ used_nopad, h3]
  rw [copy_full _ _ (by rw [hid, zero_length])]

/-- The JSON form of an id, without prefix, decodes to the id. -/
theorem UnmarshalJSON_MarshalJSON (L : Lib) (E : Env) (id : ObjectID) (hid : id.length = 12)
    (hk : 1 ≤ (anonymizationKey E).length ∧ (anonymizationKey E).length ≤ 256) :
    ∃ b, ObjectID.MarshalJSON L E id = .ok b ∧
      ∀ o : ObjectID, o.length = 12 → ObjectID.UnmarshalJSON L E o b = .ok id := by
  obtain ⟨ct, h1, h2, h3⟩ := decryptRC4_encryptRC4 (anonymizationKey E) id hk
  refine ⟨jsonMarshal E (ToLower L ((StdEncoding.WithPadding NoPadding).EncodeToString ct)),
    by simp only [ObjectID.MarshalJSON, h1], ?_⟩
  intro o ho
  simp only [ObjectID.UnmarshalJSON, (jsonUnmarshal_jsonMarshal E _ (jsonPlain_ToLower L ct)).2,
    DecodeString_EncodeToString L _ used_nopad, h3]
  rw [copy_full _ _ (by rw [hid, ho])]

/-- The JSON form of an id with a plain prefix decodes to the id. -/
theorem UnmarshalJSON_MarshalJSON_WithPrefix (L : Lib) (E : Env) (pre : Bytes)
    (hp : ∀ c ∈ pre, jsonPlain c = true) (id : ObjectID) (hid : id.length = 12)
    (hk : 1 ≤ (anonymizationKey E).length ∧ (anonymizationKey E).length ≤ 256) :
    ∃ b, ObjectID.MarshalJSONWithPrefix L E id pre = .ok b ∧
      ∀ o : ObjectID, o.length = 12 → ObjectID.UnmarshalJSONWithPrefix L E o pre b = .ok id := by
  obtain ⟨ct, h1, h2, h3⟩ := decryptRC4_encryptRC4 (anonymizationKey E) id hk
  have hs := jsonPlain_ToLower L ct
  have hps : ∀ c ∈ pre ++ str "-" ++
      ToLower L ((StdEncoding.WithPadding NoPadding).EncodeToString ct), jsonPlain c = true := by
    intro c hc
    rcases List.mem_append.mp hc with h | h
    · rcases List.mem_append.mp h with h | h
      · exact hp c h
      · have : c = 45 := by simpa [str] using h
        subst this; decide
    · exact hs c h
  refine ⟨jsonMarshal E (pre ++ str "-" ++
      ToLower L ((StdEncoding.WithPadding NoPadding).EncodeToString ct)),
    by simp only [ObjectID.MarshalJSONWithPrefix, ObjectID.MarshalJSON, h1,
      (jsonUnmarshal_jsonMarshal E _ hs).2], ?_⟩
  intro o ho
  simp only [ObjectID.UnmarshalJSONWithPrefix, (jsonUnmarshal_jsonMarshal E _ hps).2,
    TrimPrefix_append]
  simp only [ObjectID.UnmarshalJSON, (jsonUnmarshal_jsonMarshal E _ hs).2,
    DecodeString_EncodeToString L _ used_nopad, h3]
  rw [copy_full _ _ (by rw [hid, ho])]

theorem jsonPlain_dek : ∀ c ∈ str "dek", jsonPlain c = true := by decide

theorem jsonPlain_wlt : ∀ c ∈ str "wlt", jsonPlain c = true := by decide

/-- C13: for every 12-byte id and every anonymization key of 1 to 256 bytes,
the string form and the JSON form of the id decode to the id again, for the
data-encrypting-key ids (prefix dek), the wallet ids (prefix wlt) and the
unprefixed JSON form of the anonymize package. -/
theorem C13_id_round_trip (L : Lib) (E : Env) (id : ObjectID) (hid : id.length = 12)
    (hk : 1 ≤ (anonymizationKey E).length ∧ (anonymizationKey E).length ≤ 256) :
    DataEncryptingKeyIDFromString L E (DataEncryptingKeyID.String L E id) = .ok id ∧
    WalletIDFromString L E (WalletID.String L E id) = .ok id ∧
    (∃ b, DataEncryptingKeyID.MarshalJSON L E id = .ok b ∧
      ∀ o : ObjectID, o.length = 12 → DataEncryptingKeyID.UnmarshalJSON L E o b = .ok id) ∧
    (∃ b, WalletID.MarshalJSON L E id = .ok b ∧
      ∀ o : ObjectID, o.length = 12 → WalletID.UnmarshalJSON L E o b = .ok id) ∧
    (∃ b, ObjectID.MarshalJSON L E id = .ok b ∧
      ∀ o : ObjectID, o.length = 12 → ObjectID.UnmarshalJSON L E o b = .ok id) :=
  ⟨FromString_String L E _ id hid hk, FromString_String L E _ id hid hk,
    UnmarshalJSON_MarshalJSON_WithPrefix L E _ jsonPlain_dek id hid hk,
    UnmarshalJSON_MarshalJSON_WithPrefix L E _ jsonPlain_wlt id hid hk,
    UnmarshalJSON_MarshalJSON L E id hid hk⟩

/-- C13 at the id of twelve bytes 1 under the default anonymization key. -/
theorem C13_witness :
    DataEncryptingKeyIDFromString sampleLib sampleEnv
        (DataEncryptingKeyID.String sampleLib sampleEnv (List.replicate 12 1))
      = .ok (List.replicate 12 1) ∧
    (anonymizationKey sampleEnv).length = 40 :=
  ⟨(C13_id_round_trip sampleLib sampleEnv (List.replicate 12 1) (by decide) (by decide)).1,
    by decide⟩

/-! ## The signed payload -/

theorem DecodeString_0x (s : Bytes) :
    hex.DecodeString (str "0x" ++ s) = ([], some (.hexInvalidByte 120)) := by
  show hex.DecodeString (48 :: 120 :: s) = _
  rw [hex.DecodeString]
  rfl

/-- A string that starts with `0x` decodes to no byte at all, so
`Hex2BytesFixed` returns zeros whatever follows the prefix. -/
theorem Hex2BytesFixed_0x (s : Bytes) (flen : Nat) :
    common.Hex2BytesFixed (str "0x" ++ s) flen = List.replicate flen 0 := by
  rw [common.Hex2BytesFixed, DecodeString_0x]
  rcases Nat.eq_zero_or_pos flen with h | h
  · subst h; rfl
  · simp only [List.length_nil, Nat.sub_zero]
    rw [if_neg (by omega), if_neg (by omega)]
    simp [copy]

theorem fromHexChar_hextable : ∀ i : Fin 16, fromHexChar (hextable.getD i.val 0) = some i.val := by
  decide

theorem DecodeString_EncodeToString_hex : ∀ u : Bytes, hex.DecodeString (hex.EncodeToString u) = (u, none)
  | [] => rfl
  | v :: rest => by
    have h1 := fromHexChar_hextable ⟨v.val / 16, by omega⟩
    have h2 := fromHexChar_hextable ⟨v.val % 16, by omega⟩
    simp only at h1 h2
    rw [hex.EncodeToString, hex.DecodeString, h1, h2]
    simp only [DecodeString_EncodeToString_hex rest]
    have : byte (v.val / 16 * 16 + v.val % 16) = v := by
      apply Fin.ext
      rw [byte_val]
      omega
    rw [this]

theorem take_payloadPack (uniq nonce sender encodedParams : Bytes) (h : uniq.length = 32) :
    (payloadPack uniq nonce sender encodedParams).take 32 = uniq := by
  have e : common.RightPadBytes uniq 32 = uniq := by
    rw [common.RightPadBytes, if_pos (by omega)]
  simp only [payloadPack, e, List.append_assoc]
  exact List.take_left' h

/-- Without the prefix, 64 hex digits put their 32 bytes into the first word of the payload. -/
theorem signBuffer_unprefixed (u rnd sender encodedParams : Bytes) (h : u.length = 32) :
    (signBuffer (hex.EncodeToString u) rnd sender encodedParams).2.take 32 = u := by
  have e : common.Hex2BytesFixed (hex.EncodeToString u) 32 = u := by
    rw [common.Hex2BytesFixed, DecodeString_EncodeToString_hex]
    simp only [h, if_true]
  simp only [signBuffer, e]
  rw [copy_full _ _ (by simp [h])]
  exact take_payloadPack _ _ _ _ h

/-- C16: for a uniq string that starts with 0x the code decodes no byte of it
(the decoder stops at the letter x and its error is dropped), so the first
word of the payload is 32 zero bytes whatever digits follow, and two
requests that differ only in such a uniq are signed over the same payload. -/
theorem C16_uniq_prefix_zeroes (s1 s2 rnd sender encodedParams : Bytes) :
    (signBuffer (str "0x" ++ s1) rnd sender encodedParams).2.take 32 = List.replicate 32 0 ∧
    signBuffer (str "0x" ++ s1) rnd sender encodedParams
      = signBuffer (str "0x" ++ s2) rnd sender encodedParams := by
  refine ⟨?_, by simp only [signBuffer, Hex2BytesFixed_0x]⟩
  simp only [signBuffer, Hex2BytesFixed_0x]
  rw [copy_full _ _ rfl]
  exact take_payloadPack _ _ _ _ (by simp)

/-! ## The error handler -/

theorem readQuantum_error (enc : Encoding) (olen : Nat) :
    ∀ (fuel j : Nat) (src : Bytes) (dbuf : List Nat) (e : Err),
      readQuantum enc olen fuel j src dbuf = .error e → ∃ n, e = .corruptInput n := by
  intro fuel
  induction fuel with
  | zero => intro j src dbuf e h; simp [readQuantum] at h
  | succ fuel ih =>
    intro j src dbuf e h
    cases src with
    | nil =>
      simp only [readQuantum] at h
      split at h
      · cases h; exact ⟨_, rfl⟩
      · cases h
    | cons c src =>
      simp only [readQuantum] at h
      split at h
      · split at h
        · cases h; exact ⟨_, rfl⟩
        · split at h
          · cases h; exact ⟨_, rfl⟩
          · split at h
            · cases h; exact ⟨_, rfl⟩
            · cases h
      · split at h
        · cases h; exact ⟨_, rfl⟩
        · exact ih _ _ _ _ h

theorem decodeLoop_error (enc : Encoding) (olen : Nat) :
    ∀ (fuel : Nat) (src : Bytes) (e : Err),
      decodeLoop enc olen fuel src = .error e → ∃ n, e = .corruptInput n := by
  intro fuel
  induction fuel with
  | zero => intro src e h; simp [decodeLoop] at h
  | succ fuel ih =>
    intro src e h
    cases src with
    | nil => simp [decodeLoop] at h
    | cons c src =>
      simp only [decodeLoop] at h
      split at h
      · rename_i e1 h1
        cases h
        exact readQuantum_error enc olen _ _ _ _ _ h1
      · cases h
      · split at h
        · rename_i e1 h1
          cases h
          exact ih _ _ h1
        · cases h

/-- The base32 decoder returns no other error than `CorruptInputError`. -/
theorem DecodeString_error (enc : Encoding) (s : Bytes) (e : Err)
    (h : enc.DecodeString s = .error e) : ∃ n, e = .corruptInput n :=
  decodeLoop_error enc _ _ _ e h

theorem GetKeyMatchingHash_error (L : Lib) (c : VaultKeyCollection) (hash : Bytes) (e : Err)
    (h : VaultKeyCollection.GetKeyMatchingHash L c hash = .error e) : asFiberError e = none := by
  simp only [VaultKeyCollection.GetKeyMatchingHash] at h
  split at h
  · rename_i e1 h1
    cases h
    obtain ⟨n, rfl⟩ := DecodeString_error _ _ _ h1
    rfl
  · split at h
    · cases h; rfl
    · split at h
      · cases h
      · cases h; rfl

/-- No error of `RequireVaultKey` is a `*fiber.Error`. -/
theorem RequireVaultKey_not_fiber (L : Lib) (a : auth) (now : Time) (c : Ctx) (e : Err)
    (h : auth.RequireVaultKey L a now c = .error e) : asFiberError e = none := by
  simp only [auth.RequireVaultKey] at h
  split at h
  · cases h; rfl
  · split at h
    · cases h; rfl
    · split at h
      · rename_i e1 h1
        cases h
        exact GetKeyMatchingHash_error L _ _ _ h1
      · split at h
        · cases h; rfl
        · cases h
        · cases h

/-- No error of `RequireAuthSignature` is a `*fiber.Error`. -/
theorem RequireAuthSignature_not_fiber (L : Lib) (a : auth) (now : Time) (c : Ctx) (e : Err)
    (h : auth.RequireAuthSignature L a now c = .error e) : asFiberError e = none := by
  simp only [auth.RequireAuthSignature] at h
  split at h
  · split at h
    · cases h; rfl
    · split at h
      · cases h; rfl
      · cases h
      · cases h
  · split at h
    · cases h; rfl
    · cases h

theorem ErrorHandler_not_fiber (E : Env) (e : Err) (h : asFiberError e = none) :
    ErrorHandler E e = ⟨500, false, some (Err.Error E e)⟩ := by
  simp only [ErrorHandler, h, StatusInternalServerError, NewErrorResponse]

/-- C11, the claim refuted: a request without the key-hash header is rejected
by `RequireVaultKey`, and the error handler answers that error with status 500,
not 401. -/
theorem C11_counterexample :
    auth.RequireVaultKey sampleLib sampleAuth t2024 ⟨fun _ => [], sampleBody⟩
      = .error .keyHashHeaderMissing ∧
    (ErrorHandler sampleEnv .keyHashHeaderMissing).status = 500 ∧
    (ErrorHandler sampleEnv .keyHashHeaderMissing).status ≠ 401 := by
  decide

/-- C11, amended: every error returned by `RequireVaultKey` or
`RequireAuthSignature` is answered by the error handler with status 500 and
an envelope that holds the message of the error: none of these errors is a
`*fiber.Error`, the only kind of error whose code the handler uses. -/
theorem C11_auth_errors_status_500 (L : Lib) (E : Env) (a : auth) (now : Time) (c : Ctx) (e : Err)
    (h : auth.RequireVaultKey L a now c = .error e ∨
      auth.RequireAuthSignature L a now c = .error e) :
    (ErrorHandler E e).status = 500 ∧
    (ErrorHandler E e).body = ⟨false, some (Err.Error E e)⟩ := by
  have hf : asFiberError e = none := by
    rcases h with h | h
    · exact RequireVaultKey_not_fiber L a now c e h
    · exact RequireAuthSignature_not_fiber L a now c e h
  rw [ErrorHandler_not_fiber E e hf]
  exact ⟨rfl, rfl⟩

/-- C11 at a request without the key-hash header. -/
theorem C11_witness :
    (ErrorHandler sampleEnv .keyHashHeaderMissing).status = 500 ∧
    (ErrorHandler sampleEnv .keyHashHeaderMissing).body
      = ⟨false, some (Err.Error sampleEnv .keyHashHeaderMissing)⟩ :=
  C11_auth_errors_status_500 sampleLib sampleEnv sampleAuth t2024 ⟨fun _ => [], sampleBody⟩
    .keyHashHeaderMissing (Or.inl (by decide))

theorem Error_invalidVaultSignature_ne (E : Env) (signature keyHash sig : Bytes) (ts now : Time) :
    Err.Error E (.invalidVaultSignature signature keyHash (.signatureExpired ts now))
      ≠ Err.Error E (.invalidVaultSignature signature keyHash (.invalidSignatureForData sig)) := by
  simp only [Err.Error, List.append_assoc, ne_eq, List.append_cancel_left_eq]
  intro h
  have e1 : str "signature expired timestamp: " = 115 :: str "ignature expired timestamp: " := by
    decide
  have e2 : str "invalid signature for data: " = 105 :: str "nvalid signature for data: " := by
    decide
  rw [e1, e2, List.cons_append, List.cons_append] at h
  exact absurd (List.cons.inj h).1 (by decide)

/-- C12, the claim refuted: with the headers of one signature made at the
start of 2024 under the sample key, the request checked three minutes later
is rejected as expired and the request with another body is rejected for its
digest, and the two error strings in the envelope differ. -/
theorem C12_counterexample :
    auth.RequireVaultKey sampleLib sampleAuth (t2024.Add (3 * Minute)) (sampleCtx sampleBody)
      = .error (.invalidVaultSignature sig2024 (VaultKey.HashString sampleLib sampleKey)
          (.signatureExpired t2024 (t2024.Add (3 * Minute)))) ∧
    auth.RequireVaultKey sampleLib sampleAuth t2024 (sampleCtx (str "x"))
      = .error (.invalidVaultSignature sig2024 (VaultKey.HashString sampleLib sampleKey)
          (.invalidSignatureForData sig2024)) ∧
    (NewErrorResponse sampleEnv (.invalidVaultSignature sig2024
        (VaultKey.HashString sampleLib sampleKey)
        (.signatureExpired t2024 (t2024.Add (3 * Minute))))).Error
      ≠ (NewErrorResponse sampleEnv (.invalidVaultSignature sig2024
        (VaultKey.HashString sampleLib sampleKey) (.invalidSignatureForData sig2024))).Error := by
  refine ⟨by decide, by decide, ?_⟩
  simp only [NewErrorResponse, ne_eq, Option.some.injEq]
  exact Error_invalidVaultSignature_ne _ _ _ _ _ _

/-- C12, amended: the envelope carries the message of the check that failed.
For the same key-hash and signature headers, a request rejected because the
signature is expired receives the common text followed by the expiry message
with both instants, a request rejected because the digest does not match
receives the common text followed by the digest message, and the two strings
differ. -/
theorem C12_error_strings_differ (L : Lib) (E : Env) (a : auth) (now1 now2 : Time) (c1 c2 : Ctx)
    (v : VaultKey) (ts : Time)
    (hk : c1.Get "X-Vault-Key-Hash" ≠ []) (hs : c1.Get "X-Vault-Signature" ≠ [])
    (hk2 : c2.Get "X-Vault-Key-Hash" = c1.Get "X-Vault-Key-Hash")
    (hs2 : c2.Get "X-Vault-Signature" = c1.Get "X-Vault-Signature")
    (hv : VaultKeyCollection.GetKeyMatchingHash L a.vaultKeys (c1.Get "X-Vault-Key-Hash") = .ok v)
    (h1 : VaultKey.Verify L v now1 c1.BodyRaw (c1.Get "X-Vault-Signature")
      = .error (.signatureExpired ts now1))
    (h2 : VaultKey.Verify L v now2 c2.BodyRaw (c1.Get "X-Vault-Signature")
      = .error (.invalidSignatureForData (c1.Get "X-Vault-Signature"))) :
    ∃ e1 e2, auth.RequireVaultKey L a now1 c1 = .error e1 ∧
      auth.RequireVaultKey L a now2 c2 = .error e2 ∧
      (ErrorHandler E e1).body.Error = some (str "invalid vault signature: "
        ++ c1.Get "X-Vault-Signature" ++ str " for key hash: " ++ c1.Get "X-Vault-Key-Hash"
        ++ str ", " ++ (str "signature expired timestamp: " ++ E.timeString ts
        ++ str " current time: " ++ E.timeString now1)) ∧
      (ErrorHandler E e2).body.Error = some (str "invalid vault signature: "
        ++ c1.Get "X-Vault-Signature" ++ str " for key hash: " ++ c1.Get "X-Vault-Key-Hash"
        ++ str ", " ++ (str "invalid signature for data: " ++ c1.Get "X-Vault-Signature")) ∧
      (ErrorHandler E e1).body.Error ≠ (ErrorHandler E e2).body.Error := by
  have r1 := RequireVaultKey_error L a now1 c1 v _ hk hs hv h1
  have r2 := RequireVaultKey_error L a now2 c2 v _ (by rw [hk2]; exact hk) (by rw [hs2]; exact hs)
    (by rw [hk2]; exact hv) (by rw [hs2]; exact h2)
  rw [hk2, hs2] at r2
  refine ⟨_, _, r1, r2, rfl, rfl, ?_⟩
  simp only [ErrorHandler, NewErrorResponse, ne_eq, Option.some.injEq]
  exact Error_invalidVaultSignature_ne _ _ _ _ _ _

/-- C12 at the signature made at the start of 2024 under the sample key: checked
three minutes later, and checked at once with another body. -/
theorem C12_witness :
    ∃ e1 e2,
      auth.RequireVaultKey sampleLib sampleAuth (t2024.Add (3 * Minute)) (sampleCtx sampleBody)
        = .error e1 ∧
      auth.RequireVaultKey sampleLib sampleAuth t2024 (sampleCtx (str "x")) = .error e2 ∧
      (ErrorHandler sampleEnv e1).body.Error ≠ (ErrorHandler sampleEnv e2).body.Error := by
  obtain ⟨e1, e2, h1, h2, _, _, h⟩ := C12_error_strings_differ sampleLib sampleEnv sampleAuth
    (t2024.Add (3 * Minute)) t2024 (sampleCtx sampleBody) (sampleCtx (str "x")) sampleKey t2024
    (by decide) (by decide) rfl rfl (by decide) (by decide) (by decide)
  exact ⟨e1, e2, h1, h2, h⟩

/-! ## Listing, key selection and the JSON form of a wallet -/

theorem Find_count {α : Type} (docs : List α) (offset : Nat) :
    Find docs (offset : Int) (CountDocuments docs) = .ok (docs.drop offset) := by
  simp only [Find, CountDocuments]
  rw [if_neg (by omega)]
  by_cases h : (docs.length : Int) = 0
  · rw [if_pos h]; rfl
  · rw [if_neg h]
    simp only [Int.toNat_ofNat, Int.natAbs_ofNat]
    rw [List.take_of_length_le (by simp)]

/-- C20: the page size is not the parameter. `ListWallets` and
`ListDataEncryptingKeys` pass the number of matching documents to `SetLimit`,
so the result does not depend on the limit asked for, and for every offset
the page holds all the matching documents after the first `offset`; with two
wallets of an account, offset 0 and limit 1, the page holds both. -/
theorem C20_limit_not_applied (db : DB) (account : Bytes) (offset : Nat) (limit limit2 : Int) :
    mongoStorageBackend.ListWallets db account offset limit
      = mongoStorageBackend.ListWallets db account offset limit2 ∧
    mongoStorageBackend.ListWallets db account offset limit
      = .ok ⟨((db.wallets.filter (fun w => decide (w.Account_ = account))).length : Int),
          (db.wallets.filter (fun w => decide (w.Account_ = account))).drop offset⟩ ∧
    mongoStorageBackend.ListDataEncryptingKeys db offset limit
      = .ok ⟨(db.keys.length : Int), db.keys.drop offset⟩ ∧
    mongoStorageBackend.ListWallets sampleDB (str "acct") 0 1
      = .ok ⟨2, [sampleWallet 0, sampleWallet 1]⟩ := by
  refine ⟨rfl, ?_, ?_, by decide⟩
  · simp only [mongoStorageBackend.ListWallets, Find_count]
    rfl
  · simp only [mongoStorageBackend.ListDataEncryptingKeys, Find_count]
    rfl

theorem lookupWallets_eq (db : DB) (k : mongo.dataEncryptingKey) :
    lookupWallets db k = if k.RefCount db = 0 then [] else [k.RefCount db] := by
  have e : db.wallets.filter (fun w => decide (k.ID_ = w.DataEncryptingKey_))
      = db.wallets.filter (fun w => decide (w.DataEncryptingKey_ = k.ID_)) := by
    congr 1; funext w; simp only [eq_comm]
  simp only [lookupWallets, mongo.dataEncryptingKey.RefCount, CountDocuments, e]
  by_cases h : db.wallets.filter (fun w => decide (w.DataEncryptingKey_ = k.ID_)) = []
  · simp [h]
  · have : (db.wallets.filter (fun w => decide (w.DataEncryptingKey_ = k.ID_))).length ≠ 0 := by
      simpa using h
    rw [if_neg h, if_neg (by omega)]

theorem aggregate_keys (db : DB) (maxRefCount : Int) (ks : List mongo.dataEncryptingKey) :
    ((ks.map (fun k => (lookupWallets db k).map (fun c => (k.ID_, c)))).flatten).filter
        (fun r => decide (r.2 < maxRefCount))
      = (ks.filter (fun k => decide (k.RefCount db ≠ 0 ∧ k.RefCount db < maxRefCount))).map
          (fun k => (k.ID_, k.RefCount db)) := by
  induction ks with
  | nil => rfl
  | cons k rest ih =>
    rw [List.map_cons, List.flatten_cons, List.filter_append, ih, List.filter_cons,
      lookupWallets_eq]
    by_cases h0 : k.RefCount db = 0
    · rw [if_pos h0, if_neg (by simp [h0])]; rfl
    · by_cases h1 : k.RefCount db < maxRefCount
      · rw [if_neg h0, if_pos (by simp [h0, h1])]
        simp [List.filter_cons, h1]
      · rw [if_neg h0, if_neg (by simp [h1])]
        simp [List.filter_cons, h1]

/-- The pipeline keeps the keys whose reference count is at least 1 and below
the maximum; a key that no wallet references is dropped. -/
theorem aggregate_eq (db : DB) (maxRefCount : Int) :
    aggregate db maxRefCount
      = (db.keys.filter (fun k => decide (k.RefCount db ≠ 0 ∧ k.RefCount db < maxRefCount))).map
          (fun k => (k.ID_, k.RefCount db)) :=
  aggregate_keys db maxRefCount db.keys

theorem RefCount_nonneg (db : DB) (k : mongo.dataEncryptingKey) : 0 ≤ k.RefCount db := by
  simp [mongo.dataEncryptingKey.RefCount, CountDocuments]

/-- C18: the pipeline selects among the keys whose reference count is at least
1 and below the maximum. A key that no wallet references has reference count
0 and is never selected: whatever keys a store without wallets holds, the
code asks the vault for a fresh key, as it does for the store that holds the
one sample key, whose reference count 0 is below 1000. -/
theorem C18_unreferenced_key_not_selected (L : Lib) (E : Env) (db : DB)
    (keys : List mongo.dataEncryptingKey) (maxRefCount : Int) (o : Oracle) :
    aggregate db maxRefCount
      = (db.keys.filter (fun k => decide (k.RefCount db ≠ 0 ∧ k.RefCount db < maxRefCount))).map
          (fun k => (k.ID_, k.RefCount db)) ∧
    mongoStorageBackend.GetOrCreateRandomKey L E ⟨keys, []⟩ maxRefCount o
      = vault.CreateDataEncryptingKey E ⟨keys, []⟩ o ∧
    sampleDek.RefCount ⟨[sampleDek], []⟩ = 0 ∧
    mongoStorageBackend.GetOrCreateRandomKey sampleLib sampleEnv ⟨[sampleDek], []⟩ 1000
        (sampleOracle 0)
      = (.ok ⟨List.replicate 12 2, str "kek", List.replicate 32 9, none⟩,
          ⟨[sampleDek, ⟨List.replicate 12 2, str "kek", List.replicate 32 9, none⟩], []⟩) := by
  refine ⟨aggregate_eq db maxRefCount, ?_, by decide, by decide⟩
  have h : aggregate ⟨keys, []⟩ maxRefCount = [] := by
    rw [aggregate_eq]
    simp [mongo.dataEncryptingKey.RefCount, CountDocuments]
  simp only [mongoStorageBackend.GetOrCreateRandomKey, h]
  rfl

/-- C15: the JSON object of a vault wallet has exactly the keys address,
created, expires, id, name and updated, with the values of the wallet, and
nothing else; the data-encrypting key and the encrypted private key are not
part of it, so a wallet with any other values in those two fields serialises
identically. -/
theorem C15_wallet_json (L : Lib) (E : Env) (w : vault.wallet) (dek enc : Bytes) :
    (w.jsonMap L E).map Prod.fst
      = [str "address", str "created", str "expires", str "id", str "name", str "updated"] ∧
    str "dataEncryptingKey" ∉ (w.jsonMap L E).map Prod.fst ∧
    str "encryptedPrivateKey" ∉ (w.jsonMap L E).map Prod.fst ∧
    vault.wallet.MarshalJSON L E
        ⟨{ w.wallet with DataEncryptingKey_ := dek, EncryptedPrivateKey_ := enc }⟩
      = vault.wallet.MarshalJSON L E w ∧
    (∀ b, vault.wallet.MarshalJSON L E w = .ok b →
      ∃ created expires updated,
        E.marshalTime w.wallet.Created_ = .ok created ∧
        E.marshalTime w.wallet.Updated_ = .ok updated ∧
        (w.wallet.Expires_ = none ∧ expires = str "null" ∨
          ∃ t, w.wallet.Expires_ = some t ∧ E.marshalTime t = .ok expires) ∧
        b = jsonObject
          [ jsonMarshal E (str "address") ++ str ":"
              ++ jsonMarshal E (str "0x" ++ hex.EncodeToString w.wallet.Address_),
            jsonMarshal E (str "created") ++ str ":" ++ created,
            jsonMarshal E (str "expires") ++ str ":" ++ expires,
            jsonMarshal E (str "id") ++ str ":" ++ jsonMarshal E (WalletID.String L E w.wallet.ID_),
            jsonMarshal E (str "name") ++ str ":" ++ jsonMarshal E w.wallet.Name_,
            jsonMarshal E (str "updated") ++ str ":" ++ updated ]) := by
  have hkeys : (w.jsonMap L E).map Prod.fst
      = [str "address", str "created", str "expires", str "id", str "name", str "updated"] := rfl
  refine ⟨hkeys, by rw [hkeys]; decide, by rw [hkeys]; decide, rfl, ?_⟩
  intro b hb
  simp only [vault.wallet.MarshalJSON, vault.wallet.jsonMap, jsonMarshalMap, mongo.wallet.ID] at hb
  cases hc : E.marshalTime w.wallet.Created_ with
  | error e => simp [hc] at hb
  | ok created =>
    cases hu : E.marshalTime w.wallet.Updated_ with
    | error e =>
      rw [hc, hu] at hb
      cases hx : w.wallet.Expires_ with
      | none => simp [hx] at hb
      | some t =>
        cases ht : E.marshalTime t with
        | error e => simp [hx, ht] at hb
        | ok expires => simp [hx, ht] at hb
    | ok updated =>
      rw [hc, hu] at hb
      cases hx : w.wallet.Expires_ with
      | none =>
        simp only [hx] at hb
        cases hb
        exact ⟨created, str "null", updated, rfl, rfl, Or.inl ⟨rfl, rfl⟩, rfl⟩
      | some t =>
        cases ht : E.marshalTime t with
        | error e => simp [hx, ht] at hb
        | ok expires =>
          simp only [hx, ht] at hb
          cases hb
          exact ⟨created, expires, updated, rfl, rfl, Or.inr ⟨t, rfl, ht⟩, rfl⟩

/-! ## Creating a wallet and reading its private key -/

theorem SetBytes_append (l : Bytes) (b : Byte) : SetBytes (l ++ [b]) = SetBytes l * 256 + b.val := by
  simp [SetBytes, List.foldl_append]

theorem SetBytes_beBytes : ∀ (n x : Nat), SetBytes (beBytes n x) = x % 256 ^ n
  | 0, x => by simp [beBytes, SetBytes, Nat.mod_one]
  | n + 1, x => by
    rw [beBytes, SetBytes_append, SetBytes_beBytes n, byte_val, pow_succ, Nat.mul_comm (256 ^ n) 256,
      Nat.mod_mul]
    omega

theorem beBytes_length : ∀ (n x : Nat), (beBytes n x).length = n
  | 0, _ => rfl
  | n + 1, x => by simp [beBytes, beBytes_length n]

theorem byteLen_le : ∀ (n fuel x : Nat), x < 256 ^ n → byteLen fuel x ≤ n
  | 0, fuel, x, h => by
    have hx : x = 0 := by simpa using h
    subst hx
    cases fuel <;> simp [byteLen]
  | n + 1, 0, x, _ => by simp [byteLen]
  | n + 1, fuel + 1, x, h => by
    rw [byteLen]
    split
    · omega
    · have : x / 256 < 256 ^ n := by
        rw [Nat.div_lt_iff_lt_mul (by norm_num)]
        rw [pow_succ] at h
        exact h
      have := byteLen_le n fuel (x / 256) this
      omega

/-- A scalar below the order of the curve has a 32-byte form that `ToECDSA` reads back. -/
theorem ToECDSA_FromECDSA (priv : PrivateKey) (h : 0 < priv.D ∧ priv.D < secp256k1N) :
    FromECDSA priv = beBytes 32 priv.D ∧ (FromECDSA priv).length = 32 ∧
      ToECDSA (FromECDSA priv) = .ok priv := by
  have hN : secp256k1N < 256 ^ 32 := by decide
  have hlt : priv.D < 256 ^ 32 := by omega
  have hl := byteLen_le 32 priv.D priv.D hlt
  have e : FromECDSA priv = beBytes 32 priv.D := by
    rw [FromECDSA, PaddedBigBytes, Nat.max_eq_left hl]
  have hs : SetBytes (beBytes 32 priv.D) = priv.D := by
    rw [SetBytes_beBytes, Nat.mod_eq_of_lt hlt]
  refine ⟨e, by rw [e, beBytes_length], ?_⟩
  rw [e, ToECDSA, beBytes_length, hs, if_neg (by decide), if_neg (by omega), if_neg (by omega)]

theorem decryptRC4_ok_key (key s p : Bytes) (h : decryptRC4 key s = .ok p) :
    1 ≤ key.length ∧ key.length ≤ 256 := by
  by_cases hk : key.length < 1 ∨ key.length > 256
  · rw [decryptRC4, NewCipher, if_pos hk] at h
    cases h
  · omega

theorem copy_length (dst src : Bytes) : (copy dst src).length = dst.length := by
  simp only [copy, List.length_append, List.length_take, List.length_drop]
  omega

/-- A string decodes to an id only under an anonymization key of 1 to 256
bytes, and the id has 12 bytes. -/
theorem FromString_ok (L : Lib) (E : Env) (pre s : Bytes) (x : ObjectID)
    (h : ObjectIDFromStringWithPrefix L E pre s = .ok x) :
    (1 ≤ (anonymizationKey E).length ∧ (anonymizationKey E).length ≤ 256) ∧ x.length = 12 := by
  simp only [ObjectIDFromStringWithPrefix] at h
  split at h
  · cases h
  · split at h
    · cases h
    · rename_i p hp
      cases h
      exact ⟨decryptRC4_ok_key _ _ _ hp, by rw [copy_length]; rfl⟩

theorem RefCount_congr (db : DB) (k k2 : mongo.dataEncryptingKey) (h : k.ID_ = k2.ID_) :
    k.RefCount db = k2.RefCount db := by
  simp only [mongo.dataEncryptingKey.RefCount, h]

/-- Looking a key up under the string form of a 12-byte id succeeds only
under a valid anonymization key, and finds the first key with that id. -/
theorem GetDataEncryptingKey_String (L : Lib) (E : Env) (db : DB) (id : ObjectID)
    (dek : mongo.dataEncryptingKey) (hid : id.length = 12)
    (h : mongoStorageBackend.GetDataEncryptingKey L E db (DataEncryptingKeyID.String L E id)
      = .ok dek) :
    (1 ≤ (anonymizationKey E).length ∧ (anonymizationKey E).length ≤ 256) ∧
      db.keys.find? (fun k => decide (k.ID_ = id)) = some dek := by
  simp only [mongoStorageBackend.GetDataEncryptingKey] at h
  cases hf : DataEncryptingKeyIDFromString L E (DataEncryptingKeyID.String L E id) with
  | error e => rw [hf] at h; cases h
  | ok _id =>
    have hk := (FromString_ok L E _ _ _ hf).1
    have e := FromString_String L E (str "dek") id hid hk
    rw [DataEncryptingKeyIDFromString, DataEncryptingKeyID.String] at hf
    rw [e] at hf
    cases hf
    rw [DataEncryptingKeyIDFromString, DataEncryptingKeyID.String, e] at h
    refine ⟨hk, ?_⟩
    cases hx : db.keys.find? (fun k => decide (k.ID_ = id)) with
    | none => simp only [hx] at h; cases h
    | some k => simp only [hx] at h; cases h; rfl

theorem find_key (keys : List mongo.dataEncryptingKey) (id : ObjectID) (dek : mongo.dataEncryptingKey)
    (h : keys.find? (fun k => decide (k.ID_ = id)) = some dek) : dek ∈ keys ∧ dek.ID_ = id :=
  ⟨List.mem_of_find?_eq_some h, by simpa using List.find?_some h⟩

theorem CreateDataEncryptingKey_ok (E : Env) (db db1 : DB) (o : Oracle) (dek : mongo.dataEncryptingKey)
    (h : vault.CreateDataEncryptingKey E db o = (.ok dek, db1)) :
    dek.ID_.length = 12 ∧ db1.wallets = db.wallets ∧ db1.keys = db.keys ++ [dek] ∧
      ∀ x ∈ db.keys, x.ID_ ≠ dek.ID_ := by
  simp only [vault.CreateDataEncryptingKey] at h
  split at h
  · cases h
  · split at h
    · cases h
    · simp only [mongoStorageBackend.CreateDataEncryptingKey, DB.InsertOneKey] at h
      split at h
      · cases h
      · rename_i db2 hins
        split at hins
        · cases hins
        · rename_i hany
          cases hins
          cases h
          refine ⟨by rw [copy_length]; rfl, rfl, rfl, ?_⟩
          intro x hx hxe
          apply hany
          simp only [List.any_eq_true, decide_eq_true_eq]
          exact ⟨x, hx, hxe⟩

/-- When `GetOrCreateRandomKey` succeeds on a store whose key ids have 12
bytes, it leaves the wallets alone and returns the first key of the store
afterwards that has its id; that key either was in the store with a reference
count of at least 1 and below the maximum, or is new, in which case no key
had such a count and the new key is appended under a fresh id. -/
theorem GetOrCreateRandomKey_ok (L : Lib) (E : Env) (db db1 : DB) (maxRefCount : Int) (o : Oracle)
    (dek : mongo.dataEncryptingKey) (hids : ∀ k ∈ db.keys, k.ID_.length = 12)
    (h : mongoStorageBackend.GetOrCreateRandomKey L E db maxRefCount o = (.ok dek, db1)) :
    db1.wallets = db.wallets ∧ dek.ID_.length = 12 ∧
    db1.keys.find? (fun k => decide (k.ID_ = dek.ID_)) = some dek ∧
    ((db1 = db ∧ dek ∈ db.keys ∧ dek.RefCount db ≠ 0 ∧ dek.RefCount db < maxRefCount) ∨
      (aggregate db maxRefCount = [] ∧ db1.keys = db.keys ++ [dek] ∧
        ∀ x ∈ db.keys, x.ID_ ≠ dek.ID_)) := by
  simp only [mongoStorageBackend.GetOrCreateRandomKey] at h
  cases hc : (aggregate db maxRefCount).get? (o.sample % (aggregate db maxRefCount).length) with
  | none =>
    rw [hc] at h
    have hagg : aggregate db maxRefCount = [] := by
      by_contra hne
      have hpos : 0 < (aggregate db maxRefCount).length := List.length_pos.mpr hne
      have := Nat.mod_lt o.sample hpos
      rw [List.get?_eq_none] at hc
      omega
    obtain ⟨h1, h2, h3, h4⟩ := CreateDataEncryptingKey_ok E db db1 o dek h
    refine ⟨h2, h1, ?_, Or.inr ⟨hagg, h3, h4⟩⟩
    rw [h3, List.find?_append]
    have : db.keys.find? (fun k => decide (k.ID_ = dek.ID_)) = none := by
      rw [List.find?_eq_none]
      intro x hx
      simpa using h4 x hx
    rw [this]
    simp
  | some r =>
    rw [hc] at h
    have hr : r ∈ aggregate db maxRefCount := List.get?_mem hc
    rw [aggregate_eq, List.mem_map] at hr
    obtain ⟨k, hk, rfl⟩ := hr
    rw [List.mem_filter] at hk
    have hk2 : k.RefCount db ≠ 0 ∧ k.RefCount db < maxRefCount := by simpa using hk.2
    have hpair := Prod.mk.inj h
    have hdb : db = db1 := hpair.2
    subst hdb
    obtain ⟨_, hfind⟩ := GetDataEncryptingKey_String L E db k.ID_ dek (hids k hk.1) hpair.1
    obtain ⟨hmem, hid⟩ := find_key _ _ _ hfind
    have hrc := RefCount_congr db dek k hid
    refine ⟨rfl, by rw [hid]; exact hids k hk.1, by rw [hid]; exact hfind,
      Or.inl ⟨rfl, hmem, by rw [hrc]; exact hk2.1, by rw [hrc]; exact hk2.2⟩⟩

theorem encrypt_ok (E : Env) (secretKey plaintext b : Bytes) (rand : Except Err Bytes)
    (h : encrypt E secretKey plaintext rand = .ok b) :
    newGCM secretKey = none ∧
      ∃ nonce, nonce.length = 12 ∧ b = nonce ++ E.gcmSeal secretKey nonce plaintext := by
  simp only [encrypt] at h
  split at h
  · cases h
  · rename_i hg
    split at h
    · cases h
    · cases h
      exact ⟨hg, _, by rw [copy_length]; rfl, rfl⟩

theorem decrypt_encrypt (E : Env) (secretKey plaintext nonce : Bytes) (hg : newGCM secretKey = none)
    (hn : nonce.length = 12) :
    decrypt E secretKey (nonce ++ E.gcmSeal secretKey nonce plaintext) = .ok plaintext := by
  have hk : secretKey.length = 16 ∨ secretKey.length = 24 ∨ secretKey.length = 32 := by
    by_contra hne
    rw [newGCM, if_neg hne] at hg
    cases hg
  simp only [decrypt, hg]
  rw [if_neg (by simp [hn]), List.take_left' hn, List.drop_left' hn,
    E.gcm_open_seal secretKey nonce plaintext hk hn]

theorem InsertOneWallet_ok (db db2 : DB) (w : mongo.wallet) (h : db.InsertOneWallet w = .ok db2) :
    db2 = ⟨db.keys, db.wallets ++ [w.bson]⟩ ∧
      ∀ x ∈ db.wallets, x.ID_ ≠ w.ID_ ∧ x.Address_ ≠ w.Address_ := by
  rw [DB.InsertOneWallet] at h
  split at h
  · cases h
  · rename_i hany
    cases h
    refine ⟨rfl, ?_⟩
    intro x hx
    constructor
    · intro hxe
      apply hany
      simp only [List.any_eq_true, decide_eq_true_eq]
      exact ⟨x, hx, Or.inl hxe⟩
    · intro hxe
      apply hany
      simp only [List.any_eq_true, decide_eq_true_eq]
      exact ⟨x, hx, Or.inr hxe⟩

theorem storage_CreateWallet_ok (L : Lib) (E : Env) (db db2 : DB)
    (account name address id enc objectID : Bytes) (now : Time) (w : mongo.wallet)
    (h : mongoStorageBackend.CreateWallet L E db account name address id enc objectID now
      = (.ok w, db2)) :
    ∃ _id, DataEncryptingKeyIDFromString L E id = .ok _id ∧
      w = ⟨copy ObjectID.zero objectID, account, name, address, _id, enc, now, now, none⟩ ∧
      db.InsertOneWallet w = .ok db2 := by
  rw [mongoStorageBackend.CreateWallet] at h
  cases hf : DataEncryptingKeyIDFromString L E id with
  | error e => rw [hf] at h; cases h
  | ok _id =>
    rw [hf] at h
    simp only at h
    cases hins : db.InsertOneWallet ⟨copy ObjectID.zero objectID, account, name, address, _id, enc,
        now, now, none⟩ with
    | error e => rw [hins] at h; cases h
    | ok db3 =>
      rw [hins] at h
      cases h
      exact ⟨_id, rfl, rfl, hins⟩

/-- What a successful `vault.CreateWallet` has done, on a store whose key ids
have 12 bytes. -/
theorem CreateWallet_ok (L : Lib) (E : Env) (db db2 : DB) (account name : Bytes) (o : Oracle)
    (W : vault.wallet) (hids : ∀ k ∈ db.keys, k.ID_.length = 12)
    (h : vault.CreateWallet L E db account name o = (.ok W, db2)) :
    ∃ priv dek db1 data nonce,
      o.GenerateKey = .ok priv ∧
      mongoStorageBackend.GetOrCreateRandomKey L E db 1000 o = (.ok dek, db1) ∧
      E.postDecrypt dek.KeyEncryptingKey_ dek.EncryptedKey_ = .ok data ∧
      newGCM data = none ∧ nonce.length = 12 ∧
      (1 ≤ (anonymizationKey E).length ∧ (anonymizationKey E).length ≤ 256) ∧
      W.wallet = ⟨copy ObjectID.zero o.walletObjectID, account, name, E.PubkeyToAddress priv.D,
        dek.ID_, nonce ++ E.gcmSeal data nonce (FromECDSA priv), o.now, o.now, none⟩ ∧
      db2.keys = db1.keys ∧ db2.wallets = db1.wallets ++ [W.wallet.bson] ∧
      ∀ x ∈ db1.wallets, x.ID_ ≠ W.wallet.ID_ ∧ x.Address_ ≠ W.wallet.Address_ := by
  rw [vault.CreateWallet] at h
  cases hg : o.GenerateKey with
  | error e => rw [hg] at h; cases h
  | ok priv =>
    rw [hg] at h
    simp only at h
    cases hk : mongoStorageBackend.GetOrCreateRandomKey L E db 1000 o with
    | mk r db1 =>
      rw [hk] at h
      cases r with
      | error e => cases h
      | ok dek =>
        simp only at h
        obtain ⟨_, hlen, _, _⟩ := GetOrCreateRandomKey_ok L E db db1 1000 o dek hids hk
        cases hp : E.postDecrypt dek.KeyEncryptingKey_ dek.EncryptedKey_ with
        | error e => rw [hp] at h; cases h
        | ok data =>
          rw [hp] at h
          simp only at h
          cases he : encrypt E data (FromECDSA priv) o.nonceRand with
          | error e => rw [he] at h; cases h
          | ok b =>
            rw [he] at h
            simp only at h
            obtain ⟨hgcm, nonce, hn, rfl⟩ := encrypt_ok E _ _ _ _ he
            cases hc : mongoStorageBackend.CreateWallet L E db1 account name
                (E.PubkeyToAddress priv.D) (dek.ID L E)
                (nonce ++ E.gcmSeal data nonce (FromECDSA priv)) o.walletObjectID o.now with
            | mk r2 db3 =>
              rw [hc] at h
              cases r2 with
              | error e => cases h
              | ok w =>
                cases h
                obtain ⟨_id, hf, hw, hins⟩ := storage_CreateWallet_ok L E _ _ _ _ _ _ _ _ _ _ hc
                have hkey := (FromString_ok L E _ _ _ hf).1
                have e := FromString_String L E (str "dek") dek.ID_ hlen hkey
                rw [mongo.dataEncryptingKey.ID, DataEncryptingKeyIDFromString,
                  DataEncryptingKeyID.String, e] at hf
                cases hf
                obtain ⟨hdb, hfresh⟩ := InsertOneWallet_ok _ _ _ hins
                subst hdb
                exact ⟨priv, dek, db1, data, nonce, rfl, rfl, hp, hgcm, hn, hkey, hw, rfl, rfl,
                  hfresh⟩

/-- C14: when `vault.CreateWallet` succeeds with a generated private key in the
range of the curve, on a store whose key ids have 12 bytes, then on the store
afterwards `PrivateKey` of the returned wallet returns the generated key: the
wallet references a stored key, the key-management service unwraps it to the
key under which the private key was sealed, the encrypted private key is a
12-byte nonce followed by the sealed 32-byte scalar, `decrypt` opens it to
that scalar, `ToECDSA` reads the scalar back, and the address of the wallet
is the address derived from it. -/
theorem C14_private_key_round_trip (L : Lib) (E : Env) (db db2 : DB) (account name : Bytes)
    (o : Oracle) (W : vault.wallet) (priv : PrivateKey)
    (hids : ∀ k ∈ db.keys, k.ID_.length = 12)
    (hgen : o.GenerateKey = .ok priv) (hD : 0 < priv.D ∧ priv.D < secp256k1N)
    (h : vault.CreateWallet L E db account name o = (.ok W, db2)) :
    W.PrivateKey L E db2 = .ok priv ∧
    ∃ dek data nonce,
      mongoStorageBackend.GetDataEncryptingKey L E db2 (W.wallet.DataEncryptingKey L E) = .ok dek ∧
      E.postDecrypt dek.KeyEncryptingKey_ dek.EncryptedKey_ = .ok data ∧
      nonce.length = 12 ∧
      W.wallet.EncryptedPrivateKey_ = nonce ++ E.gcmSeal data nonce (FromECDSA priv) ∧
      decrypt E data W.wallet.EncryptedPrivateKey_ = .ok (FromECDSA priv) ∧
      (FromECDSA priv).length = 32 ∧
      ToECDSA (FromECDSA priv) = .ok priv ∧
      E.PubkeyToAddress priv.D = W.wallet.Address_ := by
  obtain ⟨priv2, dek, db1, data, nonce, hg, hk, hp, hgcm, hn, hkey, hw, hkeys, _, _⟩ :=
    CreateWallet_ok L E db db2 account name o W hids h
  rw [hgen] at hg
  cases hg
  obtain ⟨_, hlen, hfind, _⟩ := GetOrCreateRandomKey_ok L E db db1 1000 o dek hids hk
  obtain ⟨_, h32, hto⟩ := ToECDSA_FromECDSA priv hD
  have hget : mongoStorageBackend.GetDataEncryptingKey L E db2 (W.wallet.DataEncryptingKey L E)
      = .ok dek := by
    rw [mongo.wallet.DataEncryptingKey, hw, mongoStorageBackend.GetDataEncryptingKey,
      DataEncryptingKeyIDFromString, DataEncryptingKeyID.String,
      FromString_String L E (str "dek") dek.ID_ hlen hkey]
    simp only [hkeys, hfind]
  have hdec : decrypt E data W.wallet.EncryptedPrivateKey_ = .ok (FromECDSA priv) := by
    rw [hw]
    exact decrypt_encrypt E data _ nonce hgcm hn
  refine ⟨?_, dek, data, nonce, hget, hp, hn, by rw [hw], hdec, h32, hto, by rw [hw]⟩
  rw [vault.wallet.PrivateKey, hget]
  simp only [hp, hdec, hto]

/-- The first creation on the empty store, evaluated. -/
theorem sample_CreateWallet :
    vault.CreateWallet sampleLib sampleEnv ⟨[], []⟩ (str "acct") (str "w0") (sampleOracle 0)
      = (.ok sampleCreated, sampleCreatedDB) := by
  decide

/-- C14 at the first wallet created on the empty store, with the private scalar 1. -/
theorem C14_witness :
    sampleCreated.PrivateKey sampleLib sampleEnv sampleCreatedDB = .ok ⟨1⟩ ∧
    sampleEnv.PubkeyToAddress 1 = sampleCreated.wallet.Address_ :=
  have h := C14_private_key_round_trip sampleLib sampleEnv ⟨[], []⟩ sampleCreatedDB (str "acct")
    (str "w0") (sampleOracle 0) sampleCreated ⟨1⟩ (by simp) rfl (by decide) sample_CreateWallet
  ⟨h.1, by decide⟩

/-! ## Key saturation -/

theorem RefCount_snoc (db db2 : DB) (w : mongo.wallet) (h : db2.wallets = db.wallets ++ [w])
    (k : mongo.dataEncryptingKey) :
    k.RefCount db2 = k.RefCount db + if w.DataEncryptingKey_ = k.ID_ then 1 else 0 := by
  simp only [mongo.dataEncryptingKey.RefCount, CountDocuments, h, List.filter_append]
  by_cases hw : w.DataEncryptingKey_ = k.ID_
  · simp [hw]
  · simp [hw]

theorem RefCount_fresh (db : DB) (dek : mongo.dataEncryptingKey)
    (hrefs : ∀ w ∈ db.wallets, ∃ k ∈ db.keys, k.ID_ = w.DataEncryptingKey_)
    (hfr : ∀ x ∈ db.keys, x.ID_ ≠ dek.ID_) : dek.RefCount db = 0 := by
  simp only [mongo.dataEncryptingKey.RefCount, CountDocuments]
  have : db.wallets.filter (fun w => decide (w.DataEncryptingKey_ = dek.ID_)) = [] := by
    rw [List.filter_eq_nil_iff]
    intro w hw
    obtain ⟨k, hk, hkw⟩ := hrefs w hw
    simpa [← hkw] using hfr k hk
  rw [this]
  rfl

theorem aggregate_nil (db : DB) (maxRefCount : Int) (h : aggregate db maxRefCount = [])
    (k : mongo.dataEncryptingKey) (hk : k ∈ db.keys) :
    k.RefCount db = 0 ∨ maxRefCount ≤ k.RefCount db := by
  rw [aggregate_eq, List.map_eq_nil_iff, List.filter_eq_nil_iff] at h
  have := h k hk
  simp only [decide_eq_true_eq, not_and, not_lt] at this
  by_cases h0 : k.RefCount db = 0
  · exact Or.inl h0
  · exact Or.inr (this h0)

/-- A successful creation keeps the invariant and adds one wallet. -/
theorem filled_step (L : Lib) (E : Env) (db db2 : DB) (account name : Bytes) (o : Oracle)
    (W : vault.wallet) (hinv : db.filled)
    (h : vault.CreateWallet L E db account name o = (.ok W, db2)) :
    db2.filled ∧ db2.wallets.length = db.wallets.length + 1 := by
  obtain ⟨hids, hrefs, hpw, hshape⟩ := hinv
  obtain ⟨priv, dek, db1, data, nonce, _, hk, _, _, _, _, hw, hkeys, hwal, _⟩ :=
    CreateWallet_ok L E db db2 account name o W hids h
  obtain ⟨hw1, hlen, _, hcase⟩ := GetOrCreateRandomKey_ok L E db db1 1000 o dek hids hk
  have hwal2 : db2.wallets = db.wallets ++ [W.wallet.bson] := by rw [hwal, hw1]
  have hdekW : W.wallet.bson.DataEncryptingKey_ = dek.ID_ := by rw [hw]; rfl
  have hrc : ∀ k : mongo.dataEncryptingKey,
      k.RefCount db2 = k.RefCount db + if dek.ID_ = k.ID_ then 1 else 0 := by
    intro k
    rw [RefCount_snoc db db2 _ hwal2 k, hdekW]
  have hlen2 : db2.wallets.length = db.wallets.length + 1 := by
    rw [hwal2, List.length_append]; rfl
  refine ⟨?_, hlen2⟩
  rcases hcase with ⟨hdb, hmem, hne0, hlt⟩ | ⟨hagg, hk1, hfr⟩
  · subst hdb
    have hrefs2 : ∀ w ∈ db2.wallets, ∃ k ∈ db2.keys, k.ID_ = w.DataEncryptingKey_ := by
      intro w hwm
      rw [hwal2, List.mem_append] at hwm
      rw [hkeys]
      rcases hwm with hwm | hwm
      · exact hrefs w hwm
      · rw [List.mem_singleton] at hwm
        subst hwm
        exact ⟨dek, hmem, hdekW.symm⟩
    refine ⟨by rw [hkeys]; exact hids, hrefs2, by rw [hkeys]; exact hpw, ?_⟩
    rcases hshape with ⟨hnil, _⟩ | ⟨init, last, hkl, hfull, h1, h2, hcount⟩
    · rw [hnil] at hmem; cases hmem
    · right
      have hlast : dek = last := by
        rw [hkl, List.mem_append] at hmem
        rcases hmem with hm | hm
        · have := hfull dek hm
          omega
        · exact List.mem_singleton.mp hm
      subst hlast
      rw [hkl, List.pairwise_append] at hpw
      refine ⟨init, dek, by rw [hkeys, hkl], ?_, ?_, ?_, ?_⟩
      · intro k hkm
        have hne : dek.ID_ ≠ k.ID_ := fun e => hpw.2.2 k hkm dek (List.mem_singleton.mpr rfl) e.symm
        rw [hrc k, if_neg hne, hfull k hkm]
        rfl
      · rw [hrc dek, if_pos rfl]; omega
      · rw [hrc dek, if_pos rfl]; omega
      · rw [hrc dek, if_pos rfl, hlen2]; push_cast; omega
  · have hk2 : db2.keys = db.keys ++ [dek] := by rw [hkeys, hk1]
    have hrefs2 : ∀ w ∈ db2.wallets, ∃ k ∈ db2.keys, k.ID_ = w.DataEncryptingKey_ := by
      intro w hwm
      rw [hwal2, List.mem_append] at hwm
      rw [hk2]
      rcases hwm with hwm | hwm
      · obtain ⟨k, hkm, hke⟩ := hrefs w hwm
        exact ⟨k, List.mem_append.mpr (Or.inl hkm), hke⟩
      · rw [List.mem_singleton] at hwm
        subst hwm
        exact ⟨dek, List.mem_append.mpr (Or.inr (List.mem_singleton.mpr rfl)), hdekW.symm⟩
    have hids2 : ∀ k ∈ db2.keys, k.ID_.length = 12 := by
      intro k hkm
      rw [hk2, List.mem_append] at hkm
      rcases hkm with hkm | hkm
      · exact hids k hkm
      · rw [List.mem_singleton.mp hkm]; exact hlen
    have hpw2 : db2.keys.Pairwise (fun a b => a.ID_ ≠ b.ID_) := by
      rw [hk2, List.pairwise_append]
      refine ⟨hpw, List.pairwise_singleton _ _, ?_⟩
      intro a ha b hb
      rw [List.mem_singleton.mp hb]
      exact hfr a ha
    have hzero : dek.RefCount db = 0 := RefCount_fresh db dek hrefs hfr
    have hold : ∀ k ∈ db.keys, k.RefCount db2 = k.RefCount db := by
      intro k hkm
      have hne : dek.ID_ ≠ k.ID_ := fun e => hfr k hkm e.symm
      rw [hrc k, if_neg hne]
      omega
    refine ⟨hids2, hrefs2, hpw2, Or.inr ?_⟩
    rcases hshape with ⟨hnil, hwnil⟩ | ⟨init, last, hkl, hfull, h1, h2, hcount⟩
    · refine ⟨[], dek, by rw [hk2, hnil], by simp, ?_, ?_, ?_⟩
      · rw [hrc dek, if_pos rfl, hzero]; omega
      · rw [hrc dek, if_pos rfl, hzero]; omega
      · rw [hrc dek, if_pos rfl, hzero, hlen2, hwnil]; rfl
    · have hlastmem : last ∈ db.keys := by
        rw [hkl]; exact List.mem_append.mpr (Or.inr (List.mem_singleton.mpr rfl))
      have hfullLast : last.RefCount db = 1000 := by
        rcases aggregate_nil db 1000 hagg last hlastmem with h0 | h0 <;> omega
      refine ⟨init ++ [last], dek, by rw [hk2, hkl], ?_, ?_, ?_, ?_⟩
      · intro k hkm
        have hkmem : k ∈ db.keys := by rw [hkl]; exact hkm
        rw [hold k hkmem]
        rcases List.mem_append.mp hkm with hm | hm
        · exact hfull k hm
        · rw [List.mem_singleton.mp hm]; exact hfullLast
      · rw [hrc dek, if_pos rfl, hzero]; omega
      · rw [hrc dek, if_pos rfl, hzero]; omega
      · rw [hrc dek, if_pos rfl, hzero, hlen2, List.length_append]
        push_cast
        simp only [List.length_singleton]
        omega

/-- A run of successful creations keeps the invariant and adds one wallet per step. -/
theorem createWallets_filled (L : Lib) (E : Env) :
    ∀ (steps : List (Bytes × Bytes × Oracle)) (db db2 : DB), db.filled →
      createWallets L E steps db = some db2 →
      db2.filled ∧ db2.wallets.length = db.wallets.length + steps.length
  | [], db, db2, hinv, h => by
    rw [createWallets] at h
    cases h
    exact ⟨hinv, rfl⟩
  | step :: rest, db, db2, hinv, h => by
    rw [createWallets] at h
    cases hc : vault.CreateWallet L E db step.1 step.2.1 step.2.2 with
    | mk r db1 =>
      rw [hc] at h
      cases r with
      | error e => cases h
      | ok W =>
        simp only at h
        obtain ⟨hinv1, hlen1⟩ := filled_step L E db db1 _ _ _ W hinv hc
        obtain ⟨hinv2, hlen2⟩ := createWallets_filled L E rest db1 db2 hinv1 h
        refine ⟨hinv2, ?_⟩
        rw [hlen2, hlen1, List.length_cons]
        omega

theorem filled_empty : DB.filled ⟨[], []⟩ :=
  ⟨by simp, by simp, List.Pairwise.nil, Or.inl ⟨rfl, rfl⟩⟩

/-- C19: starting from the empty store, after N wallet creations that all
succeed the store holds N wallets and exactly ceil(N/1000) keys, hence at
least ceil(N/1000) and at most N; no key is referenced by more than 1000
wallets; and after 1001 creations there are exactly two keys, the first
referenced by 1000 wallets and the second by 1. -/
theorem C19_key_count (L : Lib) (E : Env) (steps : List (Bytes × Bytes × Oracle)) (db : DB)
    (h : createWallets L E steps ⟨[], []⟩ = some db) :
    db.wallets.length = steps.length ∧
    db.keys.length = (steps.length + 999) / 1000 ∧
    (steps.length + 999) / 1000 ≤ db.keys.length ∧ db.keys.length ≤ steps.length ∧
    (∀ k ∈ db.keys, k.RefCount db ≤ 1000) ∧
    (steps.length = 1001 →
      ∃ k1 k2, db.keys = [k1, k2] ∧ k1.RefCount db = 1000 ∧ k2.RefCount db = 1) := by
  obtain ⟨⟨_, _, _, hshape⟩, hlen⟩ := createWallets_filled L E steps ⟨[], []⟩ db filled_empty h
  have hN : db.wallets.length = steps.length := by
    rw [hlen]; simp
  rcases hshape with ⟨hk, hw⟩ | ⟨init, last, hkl, hfull, h1, h2, hcount⟩
  · have h0 : steps.length = 0 := by rw [← hN, hw]; rfl
    rw [hk, h0]
    refine ⟨hN.trans h0, rfl, by simp, by simp, by simp, by omega⟩
  · have hkeys : db.keys.length = init.length + 1 := by rw [hkl, List.length_append]; rfl
    rw [hN] at hcount
    refine ⟨hN, by omega, by omega, by omega, ?_, ?_⟩
    · intro k hk
      rw [hkl, List.mem_append] at hk
      rcases hk with hk | hk
      · rw [hfull k hk]
      · rw [List.mem_singleton.mp hk]; exact h2
    · intro h1001
      have hi : init.length = 1 := by omega
      have hr : last.RefCount db = 1 := by omega
      match init, hi, hfull, hkl with
      | [k1], _, hfull, hkl =>
        exact ⟨k1, last, hkl, hfull k1 (List.mem_singleton.mpr rfl), hr⟩

/-! ## The signer -/

theorem isHexDigit_hextable : ∀ i : Fin 16, isHexDigit (hextable.getD i.val 0) = true := by decide

theorem EncodeToString_hex_spec : ∀ b : Bytes,
    (hex.EncodeToString b).length = 2 * b.length ∧ ∀ c ∈ hex.EncodeToString b, isHexDigit c = true
  | [] => by simp [hex.EncodeToString]
  | v :: rest => by
    obtain ⟨h1, h2⟩ := EncodeToString_hex_spec rest
    have d1 := isHexDigit_hextable ⟨v.val / 16, by omega⟩
    have d2 := isHexDigit_hextable ⟨v.val % 16, by omega⟩
    simp only at d1 d2
    rw [hex.EncodeToString]
    refine ⟨by simp only [List.length_cons, h1]; omega, ?_⟩
    intro c hc
    rcases List.mem_cons.mp hc with rfl | hc
    · exact d1
    · rcases List.mem_cons.mp hc with rfl | hc
      · exact d2
      · exact h2 c hc

/-- The hex form of 32 bytes behind `0x`: the prefix, then 64 lower-case hex digits. -/
theorem hex32 (b : Bytes) (h : b.length = 32) :
    (str "0x" ++ common.Bytes2Hex b).take 2 = str "0x" ∧
    ((str "0x" ++ common.Bytes2Hex b).drop 2).length = 64 ∧
    ∀ c ∈ (str "0x" ++ common.Bytes2Hex b).drop 2, isHexDigit c = true := by
  obtain ⟨h1, h2⟩ := EncodeToString_hex_spec b
  have e : (str "0x" ++ common.Bytes2Hex b).drop 2 = hex.EncodeToString b := rfl
  rw [e]
  exact ⟨rfl, by rw [h1, h], h2⟩

theorem signResult_ok {α : Type} (E : Env) (hash nonce : Bytes) (privateKey : PrivateKey)
    (_args : List α) (out : List (α ⊕ signature))
    (h : signResult E hash nonce privateKey _args = .ok out) :
    ∃ signatureBytes recid, E.cryptoSign hash privateKey.D = .ok signatureBytes ∧
      signatureBytes.length = 65 ∧ signatureBytes.getD 64 0 = recid ∧ (recid = 0 ∨ recid = 1) ∧
      out = _args.map Sum.inl ++ [Sum.inr
        ⟨str "0x" ++ common.Bytes2Hex nonce,
          str "0x" ++ common.Bytes2Hex (copy (List.replicate 32 0) (signatureBytes.take 32)),
          str "0x" ++ common.Bytes2Hex
            (copy (List.replicate 32 0) ((signatureBytes.take 64).drop 32)),
          byte (recid.val + 27)⟩] := by
  rw [signResult] at h
  cases hs : E.cryptoSign hash privateKey.D with
  | error e => rw [hs] at h; cases h
  | ok signatureBytes =>
    rw [hs] at h
    simp only at h
    obtain ⟨hlen, hrec⟩ := E.cryptoSign_spec _ _ _ hs
    have hget : signatureBytes.get? 64 = some (signatureBytes.getD 64 0) := by
      rw [List.getD_eq_getElem?_getD, List.get?_eq_getElem?, List.getElem?_eq_getElem (by omega)]
      rfl
    rw [hget] at h
    cases h
    exact ⟨signatureBytes, _, rfl, hlen, rfl, hrec, rfl⟩

/-- C17: when `Sign` succeeds on an argument list of length n, the result has
length n + 1, its first n elements are the arguments in order, and its last
element is a signature object whose nonce, r and s are each `0x` followed by
64 lower-case hex digits and whose v is the recovery id of `crypto.Sign`, the
last byte of its 65-byte signature, plus 27, hence 27 or 28. -/
theorem C17_sign_result {α : Type} (L : Lib) (E : Env) (db : DB) (cache cache2 : Cache)
    (account sender _uniq _signer : Bytes) (_args : List α) (encodedParams : Result Bytes)
    (rnd : Bytes) (out : List (α ⊕ signature))
    (h : signer.Sign L E db cache account sender _uniq _signer _args encodedParams rnd
      = (.ok out, cache2)) :
    out.length = _args.length + 1 ∧
    out.take _args.length = _args.map Sum.inl ∧
    ∃ (sig : signature) (hash : Bytes) (privateKey : PrivateKey) (signatureBytes : Bytes)
        (recid : Byte),
      out.drop _args.length = [Sum.inr sig] ∧
      E.cryptoSign hash privateKey.D = .ok signatureBytes ∧
      signatureBytes.length = 65 ∧ signatureBytes.getD 64 0 = recid ∧
      (recid = 0 ∨ recid = 1) ∧ sig.V_.val = recid.val + 27 ∧ (sig.V_ = 27 ∨ sig.V_ = 28) ∧
      (sig.Nonce_.take 2 = str "0x" ∧ (sig.Nonce_.drop 2).length = 64 ∧
        ∀ c ∈ sig.Nonce_.drop 2, isHexDigit c = true) ∧
      (sig.R_.take 2 = str "0x" ∧ (sig.R_.drop 2).length = 64 ∧
        ∀ c ∈ sig.R_.drop 2, isHexDigit c = true) ∧
      (sig.S_.take 2 = str "0x" ∧ (sig.S_.drop 2).length = 64 ∧
        ∀ c ∈ sig.S_.drop 2, isHexDigit c = true) := by
  have key : ∃ hash nonce privateKey, nonce.length = 32 ∧
      signResult E hash nonce privateKey _args = .ok out := by
    unfold signer.Sign at h
    cases encodedParams with
    | error e => cases h
    | panic => cases h
    | ok ep =>
      simp only at h
      have hn : (signBuffer _uniq rnd sender ep).1.length = 32 := by
        exact (copy_length _ _).trans (List.length_replicate _ _)
      cases hg : Cache.Get cache ⟨account, _signer⟩ with
      | mk found cache1 =>
        rw [hg] at h
        cases found with
        | some pk =>
          simp only at h
          exact ⟨_, _, pk, hn, (Prod.mk.inj h).1⟩
        | none =>
          simp only at h
          cases hw : vault.GetWallet E db account _signer with
          | error e => rw [hw] at h; cases h
          | ok wallet =>
            rw [hw] at h
            simp only at h
            split at h
            · cases h
            · cases hp : wallet.PrivateKey L E db with
              | error e => rw [hp] at h; cases h
              | panic => rw [hp] at h; cases h
              | ok pk =>
                rw [hp] at h
                exact ⟨_, _, pk, hn, (Prod.mk.inj h).1⟩
  obtain ⟨hash, nonce, privateKey, hn, hres⟩ := key
  obtain ⟨signatureBytes, recid, hs, hlen, hrec, hcases, hout⟩ :=
    signResult_ok E hash nonce privateKey _args out hres
  have hl : (_args.map (Sum.inl : α → α ⊕ signature)).length = _args.length := List.length_map _ _
  have hv : (byte (recid.val + 27)).val = recid.val + 27 := by
    rw [byte_val]
    rcases hcases with h0 | h0 <;> rw [h0] <;> rfl
  refine ⟨by rw [hout, List.length_append, hl]; rfl, by rw [hout, List.take_left' hl],
    _, hash, privateKey, signatureBytes, recid, by rw [hout, List.drop_left' hl], hs, hlen, hrec,
    hcases, hv, ?_, hex32 nonce hn,
    hex32 _ ((copy_length _ _).trans (List.length_replicate _ _)),
    hex32 _ ((copy_length _ _).trans (List.length_replicate _ _))⟩
  rcases hcases with h0 | h0
  · left; rw [h0]; rfl
  · right; rw [h0]; rfl

/-- C17 at a request with two arguments, signed with the cached private scalar 1. -/
theorem C17_witness :
    ∃ out : List (Nat ⊕ signature), out.length = 3 ∧ out.take 2 = [Sum.inl 10, Sum.inl 20] ∧
      ∃ sig, out.drop 2 = [Sum.inr sig] ∧ (sig.V_ = 27 ∨ sig.V_ = 28) := by
  have h := C17_sign_result sampleLib sampleEnv ⟨[], []⟩ sampleCache sampleCache (str "acct")
    sampleSender (str "0xab") (List.replicate 19 0 ++ [1]) [10, 20] (.ok [1, 2, 3])
    (List.replicate 32 5)
    ([Sum.inl 10, Sum.inl 20] ++ [Sum.inr ⟨str "0x" ++ common.Bytes2Hex (List.replicate 32 5),
      str "0x" ++ common.Bytes2Hex (List.replicate 32 0),
      str "0x" ++ common.Bytes2Hex (List.replicate 32 0), 28⟩]) (by decide)
  exact ⟨_, h.1, h.2.1, by
    obtain ⟨sig, _, _, _, _, h1, _, _, _, _, _, h2, _⟩ := h.2.2
    exact ⟨sig, h1, h2⟩⟩

/-! ## The auth secret, decrypt, and what a signature binds -/

theorem Validate_iff (k : AuthSecretKey) : (AuthSecretKey.Validate k).isSome = true ↔ k.length < 32 := by
  unfold AuthSecretKey.Validate minAuthSecretKeyLength
  split <;> simp_all

/-- C21, the claim refuted: with the auth secret `short` in the environment,
`NewAuth` returns an authenticator that holds this secret, which fails
`Validate`; the error of `Validate` is only logged. -/
theorem C21_counterexample :
    ∃ a w, NewAuth sampleLib sampleShortEnv = .ok (a, w) ∧
      a.authSecretKey = some (str "short") ∧
      AuthSecretKey.Validate (str "short") = some (.authSecretTooShort 32) :=
  ⟨_, _, rfl, rfl, rfl⟩

/-- C21, amended: `Validate` returns an error exactly when the secret has fewer
than 32 bytes; `NewAuth` puts in force whatever non-empty value the
environment variable has once trimmed, and when that secret fails `Validate`
it logs the error as a warning and installs the secret all the same. -/
theorem C21_validate_only_warns (L : Lib) (E : Env) (a : auth) (w : List Bytes)
    (h : NewAuth L E = .ok (a, w)) :
    (∀ k : AuthSecretKey, (AuthSecretKey.Validate k).isSome = true ↔ k.length < 32) ∧
    (a.authSecretKey = if TrimSpace L (Getenv E (str "VAULT_AUTH_SECRET_KEY")) ≠ []
      then some (TrimSpace L (Getenv E (str "VAULT_AUTH_SECRET_KEY"))) else none) ∧
    (∀ k, a.authSecretKey = some k → k.length < 32 →
      w = [Err.Error E (.authSecretTooShort 32)]) := by
  refine ⟨Validate_iff, ?_, ?_⟩
  · unfold NewAuth at h
    simp only at h
    split at h
    · cases h
    · split at h
      · rename_i hne
        rw [if_pos hne]
        split at h <;> (cases h; rfl)
      · rename_i hne
        rw [if_neg hne]
        cases h; rfl
  · intro k hk hlen
    unfold NewAuth at h
    simp only at h
    split at h
    · cases h
    · split at h
      · split at h
        · rename_i err hv
          cases h
          simp only [Option.some.injEq] at hk
          subst hk
          have : AuthSecretKey.Validate (TrimSpace L (Getenv E (str "VAULT_AUTH_SECRET_KEY")))
              = some (.authSecretTooShort 32) := by
            rw [AuthSecretKey.Validate, if_pos (by simpa [minAuthSecretKeyLength] using hlen)]
            rfl
          rw [this] at hv
          cases hv
          rfl
        · rename_i hv
          cases h
          simp only [Option.some.injEq] at hk
          subst hk
          rw [AuthSecretKey.Validate, if_pos (by simpa [minAuthSecretKeyLength] using hlen)] at hv
          cases hv
      · cases h
        cases hk

/-- C21 at the environment with the auth secret `short`. -/
theorem C21_witness :
    ∃ a w, NewAuth sampleLib sampleShortEnv = .ok (a, w) ∧
      a.authSecretKey = some (str "short") ∧
      w = [Err.Error sampleShortEnv (.authSecretTooShort 32)] :=
  ⟨_, _, rfl, rfl,
    (C21_validate_only_warns sampleLib sampleShortEnv _ _ rfl).2.2 (str "short") rfl (by decide)⟩

/-- C28: for a key of 16, 24 or 32 bytes, `decrypt` panics exactly on the
ciphertexts shorter than the 12-byte nonce, where slicing the nonce off is out
of range; on every other ciphertext it returns a plaintext or the error of
`Open`. -/
theorem C28_decrypt_short_panics (E : Env) (secretKey ciphertext : Bytes)
    (hk : secretKey.length = 16 ∨ secretKey.length = 24 ∨ secretKey.length = 32) :
    (decrypt E secretKey ciphertext = .panic ↔ ciphertext.length < 12) ∧
    (12 ≤ ciphertext.length →
      decrypt E secretKey ciphertext = .error .gcmOpenFailed ∨
      ∃ plaintext, decrypt E secretKey ciphertext = .ok plaintext) := by
  have hg : newGCM secretKey = none := by rw [newGCM, if_pos hk]
  simp only [decrypt, hg]
  by_cases hc : ciphertext.length < 12
  · simp [hc]
  · simp only [hc, if_false, false_iff]
    cases E.gcmOpen secretKey (ciphertext.take 12) (ciphertext.drop 12) with
    | none => exact ⟨by simp, fun _ => Or.inl rfl⟩
    | some p => exact ⟨by simp, fun _ => Or.inr ⟨p, rfl⟩⟩

/-- C28 at a key of 32 bytes and a ciphertext of 5 bytes. -/
theorem C28_witness : decrypt sampleEnv (List.replicate 32 9) (List.replicate 5 0) = .panic :=
  (C28_decrypt_short_panics sampleEnv (List.replicate 32 9) (List.replicate 5 0)
    (Or.inr (Or.inr rfl))).1.mpr (by decide)

/-- Method `Verify` accepts a signature assembled from components exactly when
the timestamp component starts with an eight-byte varint inside the window
and the digest component is the digest over the buffer that `PutVarint`
fills for the parsed count. -/
theorem Verify_wire_ok_iff (L : Lib) (k : VaultKey) (now : Time) (data nonce tb hash : Bytes) :
    VaultKey.Verify L k now data (wire L nonce tb hash) = .ok () ↔
      (Varint tb).2 = 8 ∧
      ¬ (UnixMicro (Varint tb).1).Compare (now.Add (-2 * Minute)) < 0 ∧
      ¬ (UnixMicro (Varint tb).1).Compare (now.Add (2 * Minute)) > 0 ∧
      ∃ buf n, PutVarint tb0 (UnixMicro (Varint tb).1).UnixMicro = some (buf, n) ∧
        L.sha256 (data ++ nonce ++ buf ++ k) = hash := by
  by_cases h8 : (Varint tb).2 = 8
  · obtain ⟨buf, n, hput⟩ := PutVarint_parsed tb h8
    have e : VaultKey.Verify L k now data (wire L nonce tb hash)
        = if (UnixMicro (Varint tb).1).Compare (now.Add (-2 * Minute)) < 0 then
            .error (.signatureExpired (UnixMicro (Varint tb).1) now)
          else if (UnixMicro (Varint tb).1).Compare (now.Add (2 * Minute)) > 0 then
            .error (.signatureNotYetValid (UnixMicro (Varint tb).1) now)
          else if L.sha256 (data ++ nonce ++ buf ++ k) = hash then .ok ()
          else .error (.invalidSignatureForData (wire L nonce tb hash)) := by
      simp only [VaultKey.Verify, Parse_wire, h8, ne_eq, not_true_eq_false, if_false, hput,
        hmacEqual, decide_eq_true_eq]
    rw [e]
    constructor
    · intro h
      split_ifs at h with h1 h2 h3
      exact ⟨h8, h1, h2, buf, n, hput, h3⟩
    · rintro ⟨_, h1, h2, buf2, n2, hp, hh⟩
      rw [hput] at hp
      cases hp
      rw [if_neg h1, if_neg h2, if_pos hh]
  · simp only [Verify_wire_short L k now data nonce tb hash h8, h8, false_and, iff_false]
    simp

/-- C26: the digest is taken over the plain concatenation of body, nonce,
timestamp buffer and key, and `Parse` accepts a nonce of any length, so bytes
can move from the end of the body to the front of the nonce: a signature
verifies for the body `b ++ c` exactly when the signature with the nonce
component of `c ++ nonce`, and the same timestamp and digest components,
verifies for the body `b`. The signature of the sample body {} verifies,
and so does, for the body {, the signature that differs from it only in
its nonce component. -/
theorem C26_body_not_bound (L : Lib) (k : VaultKey) (now : Time) (b c nonce tb hash : Bytes) :
    (VaultKey.Verify L k now (b ++ c) (wire L nonce tb hash) = .ok () ↔
      VaultKey.Verify L k now b (wire L (c ++ nonce) tb hash) = .ok ()) ∧
    sig2024 = wire sampleLib sampleNonce tb2024
      (sampleLib.sha256 (sampleBody ++ sampleNonce ++ tb2024 ++ sampleKey)) ∧
    sampleBody ≠ str "\x7b" ∧
    VaultKey.Verify sampleLib sampleKey t2024 sampleBody sig2024 = .ok () ∧
    VaultKey.Verify sampleLib sampleKey t2024 (str "\x7b") sigShifted = .ok () ∧
    Split 46 sig2024 = [str "a4dqobyha4dqobyha4dqobyha4dqobyha4dqobyha4dqobyha4dq====",
      str "qcaitaxc6wdam===", str "ru7o7icrakzwifogo4untcr35sou575qmejmg5bf22dtr2m2jp6a===="] ∧
    Split 46 sigShifted = [str "pudqobyha4dqobyha4dqobyha4dqobyha4dqobyha4dqobyha4dqo===",
      str "qcaitaxc6wdam===", str "ru7o7icrakzwifogo4untcr35sou575qmejmg5bf22dtr2m2jp6a===="] := by
  refine ⟨?_, by decide, by decide, by decide, by decide, by decide, by decide⟩
  rw [Verify_wire_ok_iff, Verify_wire_ok_iff]
  simp only [List.append_assoc]

/-- C27, the claim refuted: the signature whose timestamp component decodes to
the eight bytes of `t2024` followed by a zero byte verifies, with a decoded
component of nine bytes; and at the epoch the signature whose timestamp
component decodes to the varint of 0 written in eight bytes verifies, while
the digest is taken over the buffer of eight zero bytes that `PutVarint`
fills for the count 0. -/
theorem C27_counterexample :
    VaultKey.Verify sampleLib sampleKey t2024 sampleBody sigTrailing = .ok () ∧
    Split 46 sigTrailing = [str "a4dqobyha4dqobyha4dqobyha4dqobyha4dqobyha4dqobyha4dq====",
      str "qcaitaxc6wdamaa=", str "ru7o7icrakzwifogo4untcr35sou575qmejmg5bf22dtr2m2jp6a===="] ∧
    StdEncoding.DecodeString (ToUpper sampleLib (str "qcaitaxc6wdamaa="))
      = .ok [128, 128, 137, 130, 226, 245, 134, 6, 0] ∧
    VaultKey.Verify sampleLib sampleKey epoch sampleBody sigLongZero = .ok () ∧
    Split 46 sigLongZero = [str "a4dqobyha4dqobyha4dqobyha4dqobyha4dqobyha4dqobyha4dq====",
      str "qcaibaeaqcaaa===", str "zqhvffoydnpkdzbhnkw7am3wxh6d7awfbbfy5uiuk6nn2iddu3uq===="] ∧
    StdEncoding.DecodeString (ToUpper sampleLib (str "qcaibaeaqcaaa==="))
      = .ok [128, 128, 128, 128, 128, 128, 128, 0] ∧
    PutVarint tb0 epoch.UnixMicro = some ([0, 0, 0, 0, 0, 0, 0, 0], 1) := by
  decide

/-- C27, amended: for every signature that verifies, the decoded timestamp
component starts with a varint of exactly eight bytes, and the digest
component is the digest over body, decoded nonce, the eight-byte buffer that
`PutVarint` fills for the count read from that varint, and key. That buffer
is computed by `Verify`; it holds a varint of the same count, and the bytes
transmitted need not equal it. -/
theorem C27_verify_reencodes (L : Lib) (k : VaultKey) (now : Time) (data : Bytes)
    (s : VaultSignature) (h : VaultKey.Verify L k now data s = .ok ()) :
    ∃ c0 c1 c2 nonce tb hash buf n, Split 46 s = [c0, c1, c2] ∧
      StdEncoding.DecodeString (ToUpper L c0) = .ok nonce ∧
      StdEncoding.DecodeString (ToUpper L c1) = .ok tb ∧
      StdEncoding.DecodeString (ToUpper L c2) = .ok hash ∧
      (Varint tb).2 = 8 ∧
      PutVarint tb0 (Varint tb).1 = some (buf, n) ∧ buf.length = 8 ∧
      Varint buf = ((Varint tb).1, (n : Int)) ∧
      hash = L.sha256 (data ++ nonce ++ buf ++ k) := by
  unfold VaultKey.Verify at h
  split at h
  · cases h
  · rename_i nonce timestamp hash hp
    obtain ⟨c0, c1, c2, tb, hs, h0, h1, h2, h8, rfl⟩ := (Parse_ok_iff L _ _ _ _).mp hp
    obtain ⟨hr, _⟩ := Varint_eight tb h8
    rw [UnixMicro_UnixMicro _ hr] at h
    rcases PutVarint_tb0 (Varint tb).1 with ⟨hnone, _⟩ | ⟨n, hput, hn, hle, _⟩
    · rw [hnone] at h
      split at h
      · cases h
      · split at h <;> cases h
    · rw [hput] at h
      split at h
      · cases h
      · split at h
        · cases h
        · simp only [hmacEqual, decide_eq_true_eq] at h
          split at h
          · rename_i hh
            refine ⟨c0, c1, c2, nonce, tb, hash, _, n, hs, h0, h1, h2, h8, hput, ?_,
              Varint_PutVarint _ hr _ _ hput, hh.symm⟩
            rw [List.length_append, List.length_replicate, ← hn]
            omega
          · cases h

/-- C27 at the signature with the trailing zero byte. -/
theorem C27_witness :
    ∃ tb buf n, StdEncoding.DecodeString (ToUpper sampleLib (str "qcaitaxc6wdamaa=")) = .ok tb ∧
      PutVarint tb0 (Varint tb).1 = some (buf, n) ∧ buf.length = 8 := by
  obtain ⟨c0, c1, c2, nonce, tb, hash, buf, n, hs, _, h1, _, _, hput, hlen, _, _⟩ :=
    C27_verify_reencodes sampleLib sampleKey t2024 sampleBody sigTrailing (by decide)
  have e : Split 46 sigTrailing = [str "a4dqobyha4dqobyha4dqobyha4dqobyha4dqobyha4dqobyha4dq====",
      str "qcaitaxc6wdamaa=", str "ru7o7icrakzwifogo4untcr35sou575qmejmg5bf22dtr2m2jp6a===="] := by
    decide
  rw [e] at hs
  simp only [List.cons.injEq] at hs
  obtain ⟨_, rfl, _⟩ := hs
  exact ⟨tb, buf, n, h1, hput, hlen⟩

/-! ## The key cache of the signer -/

theorem Get_miss (c : Cache) (key : cacheKey) (h : (c.Get key).1 = none) :
    c.Get key = (none, c) ∧ ∀ e ∈ c, e.1 ≠ key := by
  unfold Cache.Get at h ⊢
  cases hf : c.find? (fun e => decide (e.1 = key)) with
  | some e => rw [hf] at h; cases h
  | none =>
    refine ⟨rfl, ?_⟩
    intro e he
    have := List.find?_eq_none.1 hf e he
    simpa using this

theorem Get_Add_miss (c : Cache) (key : cacheKey) (pk : PrivateKey)
    (h : (c.Get key).1 = none) :
    (c.Add key pk).Get key = (some pk, c.Add key pk) := by
  have hm := (Get_miss c key h).2
  have hany : c.any (fun e => decide (e.1 = key)) = false := by
    rw [List.any_eq_false]
    intro e he
    simpa using hm e he
  have hadd : c.Add key pk = (key, pk) :: c.take 10239 := by
    unfold Cache.Add
    rw [hany]
    simp only [Bool.false_eq_true, if_false]
    have : cacheSize = 10239 + 1 := rfl
    rw [this, List.take_succ_cons]
  rw [hadd]
  unfold Cache.Get
  have hfilter : (c.take 10239).filter (fun x => decide (x.1 ≠ key)) = c.take 10239 := by
    rw [List.filter_eq_self]
    intro e he
    simpa using hm e (List.mem_of_mem_take he)
  simp only [List.find?_cons, decide_True, List.filter_cons, ne_eq, not_true_eq_false,
    decide_False, Bool.false_eq_true, if_false]
  rw [show (fun x : cacheKey × PrivateKey => decide (¬ x.1 = key)) =
    (fun x => decide (x.1 ≠ key)) from rfl, hfilter]

theorem Sign_privateKey {α : Type} (L : Lib) (E : Env) (db : DB) (cache : Cache)
    (account sender _uniq _signer : Bytes) (_args : List α) (encodedParams rnd : Bytes) :
    signer.Sign L E db cache account sender _uniq _signer _args (.ok encodedParams) rnd =
      signer.finish E (E.Keccak256 (signBuffer _uniq rnd sender encodedParams).2)
        (signBuffer _uniq rnd sender encodedParams).1 _args
        (signer.privateKey cache account _signer (vault.GetWallet E db account _signer)
          (fun w => w.PrivateKey L E db)) := by
  unfold signer.Sign signer.privateKey
  simp only
  cases hg : cache.Get ⟨account, _signer⟩ with
  | mk o c1 =>
    cases o with
    | some pk => rfl
    | none =>
      simp only
      cases hw : vault.GetWallet E db account _signer with
      | error err => rfl
      | ok wallet =>
        simp only
        by_cases ha : wallet.wallet.Address_ ≠ _signer
        · rw [if_pos ha, if_pos ha]; rfl
        · rw [if_neg ha, if_neg ha]
          cases hp : wallet.PrivateKey L E db <;> rfl

/-- Claim C25: `signer.Sign` looks the private key up under (account, signer).
A hit returns the cached key whatever the vault would answer. On a miss a
failed wallet fetch, a wallet of another address (the error 'invalid signer')
and a failed unwrap leave the cache as it was; a key that is unwrapped is
added under (account, signer), and the next lookup of that pair is a hit that
returns this key and consults no vault. The rest of `Sign` only signs with
the key found. -/
theorem C25_key_cache (L : Lib) (E : Env) (cache : Cache) (account _signer : Bytes)
    (getWallet : Except Err vault.wallet) (unwrap : vault.wallet → Result PrivateKey) :
    (∀ pk c1, cache.Get ⟨account, _signer⟩ = (some pk, c1) →
      signer.privateKey cache account _signer getWallet unwrap = (.ok pk, c1)) ∧
    ((cache.Get ⟨account, _signer⟩).1 = none →
      (∀ err, getWallet = .error err →
        signer.privateKey cache account _signer getWallet unwrap = (.error err, cache)) ∧
      (∀ w, getWallet = .ok w → w.wallet.Address_ ≠ _signer →
        signer.privateKey cache account _signer getWallet unwrap =
          (.error (.invalidSigner _signer), cache)) ∧
      (∀ w err, getWallet = .ok w → w.wallet.Address_ = _signer → unwrap w = .error err →
        signer.privateKey cache account _signer getWallet unwrap = (.error err, cache)) ∧
      (∀ w, getWallet = .ok w → w.wallet.Address_ = _signer → unwrap w = .panic →
        signer.privateKey cache account _signer getWallet unwrap = (.panic, cache)) ∧
      (∀ w pk, getWallet = .ok w → w.wallet.Address_ = _signer → unwrap w = .ok pk →
        signer.privateKey cache account _signer getWallet unwrap =
          (.ok pk, cache.Add ⟨account, _signer⟩ pk) ∧
        ∀ getWallet2 unwrap2,
          signer.privateKey (cache.Add ⟨account, _signer⟩ pk) account _signer getWallet2 unwrap2 =
            (.ok pk, cache.Add ⟨account, _signer⟩ pk))) ∧
    (∀ (db : DB) (sender _uniq encodedParams rnd : Bytes) (_args : List Bytes),
      signer.Sign L E db cache account sender _uniq _signer _args (.ok encodedParams) rnd =
        signer.finish E (E.Keccak256 (signBuffer _uniq rnd sender encodedParams).2)
          (signBuffer _uniq rnd sender encodedParams).1 _args
          (signer.privateKey cache account _signer (vault.GetWallet E db account _signer)
            (fun w => w.PrivateKey L E db))) := by
  refine ⟨?_, ?_, ?_⟩
  · intro pk c1 h
    unfold signer.privateKey
    rw [h]
  · intro hmiss
    have hg := (Get_miss cache _ hmiss).1
    refine ⟨?_, ?_, ?_, ?_, ?_⟩
    · intro err he
      unfold signer.privateKey
      rw [hg, he]
    · intro w hw ha
      unfold signer.privateKey
      rw [hg, hw]
      simp only
      rw [if_pos ha]
    · intro w err hw ha hu
      unfold signer.privateKey
      rw [hg, hw]
      simp only
      rw [if_neg (not_not.2 ha), hu]
    · intro w hw ha hu
      unfold signer.privateKey
      rw [hg, hw]
      simp only
      rw [if_neg (not_not.2 ha), hu]
    · intro w pk hw ha hu
      constructor
      · unfold signer.privateKey
        rw [hg, hw]
        simp only
        rw [if_neg (not_not.2 ha), hu]
      · intro gw2 un2
        unfold signer.privateKey
        rw [Get_Add_miss cache _ pk hmiss]
  · intro db sender _uniq encodedParams rnd _args
    exact Sign_privateKey L E db cache account sender _uniq _signer _args encodedParams rnd

/-- An instance of C25 on the empty cache: a wallet of another address gives
'invalid signer' and an empty cache; a wallet of the signer puts its key in
the cache. -/
theorem C25_witness :
    signer.privateKey [] (str "acct") (sampleWallet 1).Address_ (.ok ⟨sampleWallet 2⟩)
        (fun _ => .ok ⟨5⟩) = (.error (.invalidSigner (sampleWallet 1).Address_), []) ∧
      signer.privateKey [] (str "acct") (sampleWallet 1).Address_ (.ok ⟨sampleWallet 1⟩)
        (fun _ => .ok ⟨5⟩) = (.ok ⟨5⟩, [(⟨str "acct", (sampleWallet 1).Address_⟩, ⟨5⟩)]) :=
  have h := (C25_key_cache sampleLib sampleEnv [] (str "acct") (sampleWallet 1).Address_
    (.ok ⟨sampleWallet 2⟩) (fun _ => .ok ⟨5⟩)).2.1 rfl
  have k := (C25_key_cache sampleLib sampleEnv [] (str "acct") (sampleWallet 1).Address_
    (.ok ⟨sampleWallet 1⟩) (fun _ => .ok ⟨5⟩)).2.1 rfl
  ⟨h.2.1 _ rfl (by decide), (k.2.2.2.2 _ _ rfl rfl rfl).1⟩

/-! ## The ABI conversion and the first phase of the signer -/

theorem reflectIntType_Ptr (unsigned : Bool) (size : Nat) :
    reflectIntType unsigned size = .Ptr ↔ ¬ (size = 8 ∨ size = 16 ∨ size = 32 ∨ size = 64) := by
  unfold reflectIntType
  constructor
  · intro h
    split_ifs at h
    simp_all
  · intro h
    push_neg at h
    obtain ⟨h8, h16, h32, h64⟩ := h
    simp [h8, h16, h32, h64]

theorem packConvert_big (A : AbiEnv) (arg : abi.Ty) (s : Bytes) (h : arg.Kind = .Ptr) :
    packConvert A arg (.string s) = .ok (.bigInt
      (if HasPrefix s (str "0x") then SetString (s.drop 2) 16 else SetString s 10)) := by
  rw [packConvert, if_pos h]
  split_ifs <;> rfl

theorem packConvert_native (A : AbiEnv) (unsigned : Bool) (size : Nat) (param : Any)
    (h : size = 8 ∨ size = 16 ∨ size = 32 ∨ size = 64) :
    packConvert A (if unsigned then .UintTy size else .IntTy size) param = .ok param := by
  rcases h with rfl | rfl | rfl | rfl <;> cases unsigned <;> rfl

theorem pack_native (A : AbiEnv) (unsigned : Bool) (size : Nat) (s : Bytes)
    (h : size = 8 ∨ size = 16 ∨ size = 32 ∨ size = 64) :
    abi.Ty.pack A (if unsigned then .UintTy size else .IntTy size) (.string s) =
      .error .abiCannotUse := by
  rcases h with rfl | rfl | rfl | rfl <;> cases unsigned <;> rfl

/-- Claim C23: for the widths 8, 16, 32 and 64 `packConvert` returns a string
argument as it is, and the packer rejects a string for these types; for
every other width the string becomes the `*big.Int` that `SetString` reads in
base 16 after `0x` and in base 10 otherwise. -/
theorem C23_native_widths_not_converted (A : AbiEnv) (size : Nat) (s : Bytes) :
    ((size = 8 ∨ size = 16 ∨ size = 32 ∨ size = 64) →
      packConvert A (.UintTy size) (.string s) = .ok (.string s) ∧
      packConvert A (.IntTy size) (.string s) = .ok (.string s) ∧
      abi.Ty.pack A (.UintTy size) (.string s) = .error .abiCannotUse ∧
      abi.Ty.pack A (.IntTy size) (.string s) = .error .abiCannotUse) ∧
    (¬ (size = 8 ∨ size = 16 ∨ size = 32 ∨ size = 64) →
      packConvert A (.UintTy size) (.string s) = .ok (.bigInt
        (if HasPrefix s (str "0x") then SetString (s.drop 2) 16 else SetString s 10)) ∧
      packConvert A (.IntTy size) (.string s) = .ok (.bigInt
        (if HasPrefix s (str "0x") then SetString (s.drop 2) 16 else SetString s 10))) ∧
    packConvert A (.UintTy 8) (.string (str "1")) = .ok (.string (str "1")) ∧
    Arguments.Pack A [⟨[], .UintTy 8⟩] [.string (str "1")] = .error .abiCannotUse ∧
    packConvert A (.UintTy 256) (.string (str "255")) = .ok (.bigInt (some 255)) ∧
    packConvert A (.UintTy 256) (.string (str "0xff")) = .ok (.bigInt (some 255)) ∧
    Arguments.Pack A [⟨[], .UintTy 256⟩] [.bigInt (some 255)] = .ok (packNum 255) := by
  refine ⟨?_, ?_, rfl, rfl, rfl, rfl, rfl⟩
  · intro h
    exact ⟨packConvert_native A true size _ h, packConvert_native A false size _ h,
      pack_native A true size s h, pack_native A false size s h⟩
  · intro h
    exact ⟨packConvert_big A _ s ((reflectIntType_Ptr true size).2 h),
      packConvert_big A _ s ((reflectIntType_Ptr false size).2 h)⟩

theorem copy_zeros (n : Nat) (src : Bytes) :
    copy (List.replicate n 0) src = src.take n ++ List.replicate (n - src.length) 0 := by
  unfold copy
  rw [List.length_replicate, List.drop_replicate]

/-- Claim C24: for an argument `0x` followed by a string that the hex decoder
accepts, `packConvert` at `bytesN` returns the array of N bytes that holds the
first N decoded bytes, followed by zero bytes when there are fewer; at `bytes`
it returns the decoded bytes. -/
theorem C24_bytes_conversion (A : AbiEnv) (size : Nat) (h b : Bytes)
    (hh : hex.DecodeString h = (b, none)) :
    packConvert A (.FixedBytesTy size) (.string (str "0x" ++ h)) =
      .ok (.array (b.take size ++ List.replicate (size - b.length) 0)) ∧
    (b.take size ++ List.replicate (size - b.length) 0).length = size ∧
    packConvert A .BytesTy (.string (str "0x" ++ h)) = .ok (.bytes b) := by
  have hd : (str "0x" ++ h).drop 2 = h := rfl
  have hl : ¬ (str "0x" ++ h).length < 2 := by
    rw [List.length_append]
    have : (str "0x").length = 2 := rfl
    omega
  have hb : common.Hex2Bytes h = b := by rw [common.Hex2Bytes, hh]
  refine ⟨?_, ?_, ?_⟩
  · rw [packConvert]
    simp only [abi.Ty.Kind, reduceCtorEq, if_false, if_true, hl, hd, hb, abi.Ty.byteArrayLen,
      copy_zeros]
  · rw [List.length_append, List.length_take, List.length_replicate]
    omega
  · rw [packConvert]
    simp only [abi.Ty.Kind, reduceCtorEq, if_false, if_true, hl, hd, hb]

/-- An instance of C24: `0xaabb` at `bytes4`, at `bytes1` and at `bytes`. -/
theorem C24_witness :
    packConvert sampleAbiEnv (.FixedBytesTy 4) (.string (str "0xaabb")) =
      .ok (.array [0xaa, 0xbb, 0, 0]) ∧
    packConvert sampleAbiEnv (.FixedBytesTy 1) (.string (str "0xaabb")) = .ok (.array [0xaa]) ∧
    packConvert sampleAbiEnv .BytesTy (.string (str "0xaabb")) = .ok (.bytes [0xaa, 0xbb]) :=
  ⟨(C24_bytes_conversion sampleAbiEnv 4 (str "aabb") [0xaa, 0xbb] (by decide)).1,
    (C24_bytes_conversion sampleAbiEnv 1 (str "aabb") [0xaa, 0xbb] (by decide)).1,
    (C24_bytes_conversion sampleAbiEnv 4 (str "aabb") [0xaa, 0xbb] (by decide)).2.2⟩

/-- Claim C30: `packConvert` at `uint256` returns no error for any string: the
result is what `SetString` gives, the nil pointer for a string that is not a
numeral, such as `zz` or `0x`; the packer then panics on that nil pointer, and
so does the first phase of `signer.Sign` on the sample fragment. -/
theorem C30_invalid_numeral_gives_nil (A : AbiEnv) (s : Bytes) :
    (∀ err, packConvert A (.UintTy 256) (.string s) ≠ .error err) ∧
    packConvert A (.UintTy 256) (.string s) = .ok (.bigInt
      (if HasPrefix s (str "0x") then SetString (s.drop 2) 16 else SetString s 10)) ∧
    packConvert A (.UintTy 256) (.string (str "zz")) = .ok (.bigInt none) ∧
    packConvert A (.UintTy 256) (.string (str "0x")) = .ok (.bigInt none) ∧
    Arguments.Pack A [⟨[], .UintTy 256⟩] [.bigInt none] = .panic ∧
    signer.encodeParams sampleAbiEnv sampleFragment [.string (str "zz"), .string (str "0x")] =
      .panic := by
  have h := packConvert_big A (.UintTy 256) s rfl
  refine ⟨?_, h, rfl, rfl, rfl, rfl⟩
  intro err he
  rw [h] at he
  cases he

theorem convertArgs_append (A : AbiEnv) (inputs : List abi.Argument) (_args extra : List Any)
    (h : _args.length = inputs.length) :
    signer.convertArgs A inputs (_args ++ extra) = signer.convertArgs A inputs _args := by
  induction inputs generalizing _args with
  | nil => cases _args <;> cases extra <;> rfl
  | cons arg inputs ih =>
    cases _args with
    | nil => cases h
    | cons a _args =>
      have hl : _args.length = inputs.length := by simpa using h
      rw [List.cons_append, signer.convertArgs, signer.convertArgs, ih _args hl]

theorem convertArgs_ok (A : AbiEnv) (inputs : List abi.Argument) (_args p : List Any)
    (h : signer.convertArgs A inputs _args = .ok p) :
    p.length = inputs.length ∧
      List.Forall₂ (fun (x : abi.Argument × Any) v => packConvert A x.1.Ty x.2 = .ok v)
        (inputs.zip _args) p := by
  induction inputs generalizing _args p with
  | nil =>
    rw [signer.convertArgs] at h
    cases h
    exact ⟨rfl, List.Forall₂.nil⟩
  | cons arg inputs ih =>
    cases _args with
    | nil => rw [signer.convertArgs] at h; cases h
    | cons a _args =>
      rw [signer.convertArgs] at h
      cases hc : packConvert A arg.Ty a with
      | error err => rw [hc] at h; cases h
      | panic => rw [hc] at h; cases h
      | ok param =>
        rw [hc] at h
        cases hr : signer.convertArgs A inputs _args with
        | error err => rw [hr] at h; cases h
        | panic => rw [hr] at h; cases h
        | ok q =>
          rw [hr] at h
          cases h
          obtain ⟨hl, hf⟩ := ih _args q hr
          exact ⟨by rw [List.length_cons, List.length_cons, hl], List.Forall₂.cons hc hf⟩

theorem encodeParams_eq (A : AbiEnv) (_abi : List (Bytes × Any)) (_args : List Any) (a : ABI)
    (name : Bytes) (hj : A.JSON _abi = .ok a) (hn : mapIndex _abi (str "name") = .string name)
    (p : List Any) (hp : signer.convertArgs A (a.method name).Inputs.dropLast _args = .ok p) :
    signer.encodeParams A _abi _args =
      Arguments.Pack A (⟨[], .FixedBytesTy 4⟩ :: (a.method name).Inputs.dropLast)
        (.array (copy (List.replicate 4 0) (a.method name).ID) :: p) := by
  unfold signer.encodeParams
  rw [hj]
  simp only
  rw [hn]
  simp only
  rw [hp]

theorem encodeParams_congr (A : AbiEnv) (_abi : List (Bytes × Any)) (args1 args2 : List Any)
    (a : ABI) (name : Bytes) (hj : A.JSON _abi = .ok a)
    (hn : mapIndex _abi (str "name") = .string name)
    (h : signer.convertArgs A (a.method name).Inputs.dropLast args1 =
      signer.convertArgs A (a.method name).Inputs.dropLast args2) :
    signer.encodeParams A _abi args1 = signer.encodeParams A _abi args2 := by
  unfold signer.encodeParams
  rw [hj]
  simp only
  rw [hn]
  simp only
  rw [h]

/-- Claim C22: when the fragment is read as the function `name` with the
inputs `inputs`, and the conversion of the arguments gives `p`, the encoded
parameters are the packing of a `bytes4` and the types of all inputs but the
last, applied to the id and `p`: the id is the first four bytes of the
Keccak-256 digest of the name followed by the names of all input types in
brackets, `p` holds the converted arguments of all inputs but the last, and
what follows these arguments in the list does not change the packing. -/
theorem C22_encoded_params (E : Env) (A : AbiEnv) (_abi : List (Bytes × Any)) (a : ABI)
    (name : Bytes) (inputs : List abi.Argument) (_args : List Any)
    (hj : A.JSON _abi = .ok a) (hn : mapIndex _abi (str "name") = .string name)
    (hm : a.method name = abi.NewMethod E name name inputs) :
    (∀ p, signer.convertArgs A inputs.dropLast _args = .ok p →
      p.length = inputs.length - 1 ∧
      List.Forall₂ (fun (x : abi.Argument × Any) v => packConvert A x.1.Ty x.2 = .ok v)
        (inputs.dropLast.zip _args) p ∧
      signer.encodeParams A _abi _args =
        Arguments.Pack A (⟨[], .FixedBytesTy 4⟩ :: inputs.dropLast)
          (.array ((E.Keccak256 (name ++ str "(" ++
            (str ",").intercalate (inputs.map (fun input => input.Ty.String)) ++ str ")")).take 4)
            :: p)) ∧
    (_args.length = inputs.length - 1 → ∀ rest1 rest2,
      signer.encodeParams A _abi (_args ++ rest1) = signer.encodeParams A _abi (_args ++ rest2)) := by
  have hi : (a.method name).Inputs = inputs := by rw [hm]; rfl
  have hid : copy (List.replicate 4 0) (a.method name).ID =
      (E.Keccak256 (name ++ str "(" ++
        (str ",").intercalate (inputs.map (fun input => input.Ty.String)) ++ str ")")).take 4 := by
    rw [hm]
    simp only [abi.NewMethod]
    rw [copy_zeros, List.length_take, E.Keccak256_length, List.take_take]
    simp
  constructor
  · intro p hp
    obtain ⟨hl, hf⟩ := convertArgs_ok A _ _ _ hp
    refine ⟨by rw [hl, List.length_dropLast], hf, ?_⟩
    rw [← hi] at hp
    rw [encodeParams_eq A _abi _args a name hj hn p hp, hid, hi]
  · intro hlen rest1 rest2
    apply encodeParams_congr A _abi _ _ a name hj hn
    rw [hi]
    have hl : _args.length = inputs.dropLast.length := by rw [List.length_dropLast]; exact hlen
    rw [convertArgs_append A _ _ rest1 hl, convertArgs_append A _ _ rest2 hl]

/-- An instance of C22 on the sample fragment `foo(uint256,bytes)` with the
first argument `0x1`: the packing is that of the id and the number 1, whatever
the last argument is. -/
theorem C22_witness :
    signer.encodeParams sampleAbiEnv sampleFragment [.string (str "0x1")] =
      Arguments.Pack sampleAbiEnv [⟨[], .FixedBytesTy 4⟩, ⟨str "amount", .UintTy 256⟩]
        [.array ((sampleEnv.Keccak256 (str "foo(uint256,bytes)")).take 4), .bigInt (some 1)] ∧
    signer.encodeParams sampleAbiEnv sampleFragment ([.string (str "0x1")] ++ [.string (str "0x")]) =
      signer.encodeParams sampleAbiEnv sampleFragment ([.string (str "0x1")] ++ [.nil]) :=
  have h := C22_encoded_params sampleEnv sampleAbiEnv sampleFragment
    ⟨[(str "foo", abi.NewMethod sampleEnv (str "foo") (str "foo") sampleInputs)]⟩ (str "foo")
    sampleInputs [.string (str "0x1")] rfl rfl rfl
  ⟨(h.1 [.bigInt (some 1)] rfl).2.2, h.2 rfl [.string (str "0x")] [.nil]⟩

mutual
theorem packConvert_ne_error (A : AbiEnv) :
    ∀ (arg : abi.Ty) (param : Any) (err : Err), packConvert A arg param ≠ .error err
  | .TupleTy names elems, param, err => by
    have h := packConvertFields_ne_error A names elems
    unfold packConvert
    simp only [abi.Ty.Kind, reduceCtorEq, if_false, if_true]
    cases param <;> simp only [ne_eq, reduceCtorEq, not_false_eq_true]
    rename_i p
    cases hf : packConvertFields A names elems p with
    | ok out => simp
    | panic => simp
    | error e => exact absurd hf (h p e)
  | .IntTy size, param, err => by
    unfold packConvert
    simp only [abi.Ty.Kind]
    split_ifs <;> cases param <;> (try dsimp only) <;> (try split_ifs) <;> (try split) <;> simp
  | .UintTy size, param, err => by
    unfold packConvert
    simp only [abi.Ty.Kind]
    split_ifs <;> cases param <;> (try dsimp only) <;> (try split_ifs) <;> (try split) <;> simp
  | .BoolTy, param, err => by
    unfold packConvert
    simp [abi.Ty.Kind]
  | .StringTy, param, err => by
    unfold packConvert
    simp [abi.Ty.Kind]
  | .SliceTy elem, param, err => by
    unfold packConvert
    simp only [abi.Ty.Kind, reduceCtorEq, if_false, if_true]
    cases param <;> (try dsimp only) <;> (try split_ifs) <;> simp
  | .BytesTy, param, err => by
    unfold packConvert
    simp only [abi.Ty.Kind, reduceCtorEq, if_false, if_true]
    cases param <;> (try dsimp only) <;> (try split_ifs) <;> simp
  | .ArrayTy size elem, param, err => by
    unfold packConvert
    simp only [abi.Ty.Kind, reduceCtorEq, if_false, if_true]
    cases param <;> (try dsimp only) <;> (try split_ifs) <;> (try split) <;> simp
  | .AddressTy, param, err => by
    unfold packConvert
    simp only [abi.Ty.Kind, reduceCtorEq, if_false, if_true]
    cases param <;> (try dsimp only) <;> (try split_ifs) <;> (try split) <;> simp
  | .FixedBytesTy size, param, err => by
    unfold packConvert
    simp only [abi.Ty.Kind, reduceCtorEq, if_false, if_true]
    cases param <;> (try dsimp only) <;> (try split_ifs) <;> (try split) <;> simp
  | .FunctionTy, param, err => by
    unfold packConvert
    simp only [abi.Ty.Kind, reduceCtorEq, if_false, if_true]
    cases param <;> (try dsimp only) <;> (try split_ifs) <;> (try split) <;> simp
theorem packConvertFields_ne_error (A : AbiEnv) :
    ∀ (names : List Bytes) (elems : List abi.Ty) (p : List (Bytes × Any)) (err : Err),
      packConvertFields A names elems p ≠ .error err
  | _, [], _, err => by
    rw [packConvertFields]
    simp
  | [], _ :: _, _, err => by
    rw [packConvertFields]
    simp
  | name :: names, a :: args, p, err => by
    rw [packConvertFields]
    have h1 := packConvert_ne_error A a (mapIndex p name)
    have h2 := packConvertFields_ne_error A names args p
    cases hc : packConvert A a (mapIndex p name) with
    | error e => exact absurd hc (h1 e)
    | panic => simp
    | ok v =>
      simp only
      split_ifs
      · cases hf : packConvertFields A names args p with
        | error e => exact absurd hf (h2 e)
        | panic => simp
        | ok out => simp
      · simp
end

theorem convertArgs_short (A : AbiEnv) (inputs : List abi.Argument) (_args : List Any)
    (h : _args.length < inputs.length) : signer.convertArgs A inputs _args = .panic := by
  induction inputs generalizing _args with
  | nil => cases h
  | cons arg inputs ih =>
    cases _args with
    | nil => rfl
    | cons a _args =>
      have hl : _args.length < inputs.length := by simpa using h
      rw [signer.convertArgs, ih _args hl]
      cases hc : packConvert A arg.Ty a with
      | error e => exact absurd hc (packConvert_ne_error A _ _ e)
      | panic => rfl
      | ok v => rfl

theorem encodeParams_no_name (A : AbiEnv) (_abi : List (Bytes × Any)) (_args : List Any) (a : ABI)
    (hj : A.JSON _abi = .ok a) (hn : ∀ name, mapIndex _abi (str "name") ≠ .string name) :
    signer.encodeParams A _abi _args = .panic := by
  unfold signer.encodeParams
  rw [hj]
  cases hm : mapIndex _abi (str "name") with
  | string name => exact absurd hm (hn name)
  | _ => rfl

theorem encodeParams_convert_panic (A : AbiEnv) (_abi : List (Bytes × Any)) (_args : List Any)
    (a : ABI) (name : Bytes) (hj : A.JSON _abi = .ok a)
    (hn : mapIndex _abi (str "name") = .string name)
    (hp : signer.convertArgs A (a.method name).Inputs.dropLast _args = .panic) :
    signer.encodeParams A _abi _args = .panic := by
  unfold signer.encodeParams
  rw [hj]
  simp only
  rw [hn]
  simp only
  rw [hp]

/-- Claim C29: on a fragment that `abi.JSON` accepts, `Signer.Sign` panics
when the fragment has no string under `name`, when there are fewer arguments
than inputs but the last, and when the first of two or more inputs is of a
type kept in an array or a slice (an address, `bytesN`, `bytes`) and its
argument is a JSON number; the cache is as before. -/
theorem C29_sign_panics (L : Lib) (E : Env) (A : AbiEnv) (db : DB) (cache : Cache)
    (account sender _uniq _signer : Bytes) (_abi : List (Bytes × Any)) (_args : List Any)
    (rnd : Bytes) (a : ABI) (hj : A.JSON _abi = .ok a) :
    ((∀ name, mapIndex _abi (str "name") ≠ .string name) →
      Signer.Sign L E A db cache account sender _uniq _signer _abi _args rnd = (.panic, cache)) ∧
    (∀ name, mapIndex _abi (str "name") = .string name →
      _args.length + 1 < (a.method name).Inputs.length →
      Signer.Sign L E A db cache account sender _uniq _signer _abi _args rnd = (.panic, cache)) ∧
    (∀ name n t input inputs bits rest, mapIndex _abi (str "name") = .string name →
      (a.method name).Inputs = ⟨n, t⟩ :: input :: inputs →
      (t.Kind = .Array ∨ t.Kind = .Slice) → _args = .float64 bits :: rest →
      Signer.Sign L E A db cache account sender _uniq _signer _abi _args rnd = (.panic, cache)) := by
  refine ⟨?_, ?_, ?_⟩
  · intro hn
    unfold Signer.Sign
    rw [encodeParams_no_name A _abi _args a hj hn]
    rfl
  · intro name hn hlen
    unfold Signer.Sign
    rw [encodeParams_convert_panic A _abi _args a name hj hn
      (convertArgs_short A _ _ (by rw [List.length_dropLast]; omega))]
    rfl
  · intro name n t input inputs bits rest hn hi hk ha
    unfold Signer.Sign
    have hp : signer.convertArgs A (a.method name).Inputs.dropLast _args = .panic := by
      rw [hi, ha, List.dropLast_cons₂, signer.convertArgs]
      have : packConvert A t (.float64 bits) = .panic := by
        unfold packConvert
        rcases hk with hk | hk <;> simp [hk]
      simp only [this]
    rw [encodeParams_convert_panic A _abi _args a name hj hn hp]
    rfl

/-- An instance of C29 on the sample reading of fragments: a fragment
without a name, and the sample fragment with a number where `bytes` stands
first. -/
theorem C29_witness :
    Signer.Sign sampleLib sampleEnv sampleAbiEnv sampleDB sampleCache (str "acct") sampleSender
        (List.replicate 32 0) (List.replicate 19 0 ++ [1]) [] [] [] = (.panic, sampleCache) ∧
      signer.encodeParams sampleAbiEnv sampleFragment [] = .panic :=
  ⟨(C29_sign_panics sampleLib sampleEnv sampleAbiEnv sampleDB sampleCache (str "acct") sampleSender
      (List.replicate 32 0) (List.replicate 19 0 ++ [1]) [] [] []
      ⟨[([], abi.NewMethod sampleEnv [] [] sampleInputs)]⟩ rfl).1 (fun _ h => by cases h), rfl⟩

/-! ## A run of 1001 creations -/

theorem sample_anonymizationKey :
    1 ≤ (anonymizationKey sampleEnv).length ∧ (anonymizationKey sampleEnv).length ≤ 256 := by
  decide

theorem beBytes_inj (n a b : Nat) (ha : a < 256 ^ n) (hb : b < 256 ^ n)
    (h : beBytes n a = beBytes n b) : a = b := by
  have := congrArg SetBytes h
  rwa [SetBytes_beBytes, SetBytes_beBytes, Nat.mod_eq_of_lt ha, Nat.mod_eq_of_lt hb] at this

theorem sample_address_inj (a b : Nat) (ha : a < 256 ^ 3) (hb : b < 256 ^ 3)
    (h : sampleEnv.PubkeyToAddress a = sampleEnv.PubkeyToAddress b) : a = b := by
  have h0 := congrArg (fun l => (l.getD 19 0).val) h
  have h1 := congrArg (fun l => (l.getD 18 0).val) h
  have h2 := congrArg (fun l => (l.getD 17 0).val) h
  simp only [sampleEnv, List.getD_eq_getElem?_getD, List.getElem?_map, List.getElem?_range,
    show (19 : Nat) < 20 from by decide, show (18 : Nat) < 20 from by decide,
    show (17 : Nat) < 20 from by decide, Option.map_some', Option.getD_some, byte_val] at h0 h1 h2
  norm_num at h0 h1 h2 ha hb
  omega

theorem sampleKeyDoc_mem (db : DB) (h : db.keys = (List.range db.keys.length).map sampleKeyDoc)
    (k : mongo.dataEncryptingKey) (hk : k ∈ db.keys) : ∃ j, j < db.keys.length ∧ k = sampleKeyDoc j := by
  rw [h, List.mem_map] at hk
  obtain ⟨j, hj, e⟩ := hk
  exact ⟨j, List.mem_range.1 hj, e.symm⟩

theorem sampleKeyDoc_inj (i j : Nat) (hi : i < 254) (hj : j < 254)
    (h : (sampleKeyDoc i).ID_ = (sampleKeyDoc j).ID_) : i = j := by
  have h1 : byte (i + 2) = byte (j + 2) := (List.replicate_right_inj (by decide)).1 h
  have h2 := congrArg Fin.val h1
  rw [byte_val, byte_val] at h2
  omega

/-- On a store in the state of `n` sample creations, the key selection of the
next creation succeeds with a sample key document and keeps the keys in order. -/
theorem sample_GetOrCreateRandomKey (db : DB) (n : Nat) (h : sampleRun db n) (hn : n < 250000) :
    ∃ dek db1, mongoStorageBackend.GetOrCreateRandomKey sampleLib sampleEnv db 1000 (sampleOracle n)
        = (.ok dek, db1) ∧
      db1.wallets = db.wallets ∧ (∃ j, dek = sampleKeyDoc j) ∧
      db1.keys = (List.range db1.keys.length).map sampleKeyDoc := by
  obtain ⟨hfilled, hlen, _, hkeys⟩ := h
  unfold mongoStorageBackend.GetOrCreateRandomKey
  simp only
  cases hc : (aggregate db 1000).get? ((sampleOracle n).sample % (aggregate db 1000).length) with
  | some r =>
    simp only
    have hr : r ∈ aggregate db 1000 := List.get?_mem hc
    rw [aggregate_eq, List.mem_map] at hr
    obtain ⟨k, hk, rfl⟩ := hr
    have hkm : k ∈ db.keys := List.mem_of_mem_filter hk
    obtain ⟨j, _, hj⟩ := sampleKeyDoc_mem db hkeys k hkm
    have hid : k.ID_.length = 12 := by rw [hj]; rfl
    have hfs := FromString_String sampleLib sampleEnv (str "dek") k.ID_ hid sample_anonymizationKey
    cases hf : db.keys.find? (fun x => decide (x.ID_ = k.ID_)) with
    | none =>
      have := List.find?_eq_none.1 hf k hkm
      simp at this
    | some k2 =>
      have hk2 : k2 ∈ db.keys := List.mem_of_find?_eq_some hf
      obtain ⟨j2, _, hj2⟩ := sampleKeyDoc_mem db hkeys k2 hk2
      refine ⟨k2, db, ?_, rfl, ⟨j2, hj2⟩, hkeys⟩
      rw [mongoStorageBackend.GetDataEncryptingKey, DataEncryptingKeyIDFromString,
        DataEncryptingKeyID.String, hfs]
      simp only [hf]
  | none =>
    simp only
    have hagg : aggregate db 1000 = [] := by
      have h0 : (sampleOracle n).sample % (aggregate db 1000).length = 0 := Nat.zero_mod _
      rw [h0] at hc
      cases hl : aggregate db 1000 with
      | nil => rfl
      | cons a l => rw [hl] at hc; cases hc
    have hcount : n = 1000 * db.keys.length := by
      obtain ⟨_, _, _, hshape⟩ := hfilled
      rcases hshape with ⟨hk0, hw0⟩ | ⟨init, last, hkl, hfull, h1, h2, hcnt⟩
      · rw [← hlen, hk0, hw0]; rfl
      · have hlast : last ∈ db.keys := by
          rw [hkl]; exact List.mem_append.mpr (Or.inr (List.mem_singleton.mpr rfl))
        have hl2 : db.keys.length = init.length + 1 := by rw [hkl, List.length_append]; rfl
        rcases aggregate_nil db 1000 hagg last hlast with h0 | h0 <;> omega
    have hkl : db.keys.length < 250 := by omega
    have hdiv : n / 1000 = db.keys.length := by omega
    have hfresh : db.keys.any (fun x => decide (x.ID_ = (sampleKeyDoc db.keys.length).ID_)) = false := by
      rw [List.any_eq_false]
      intro x hx
      obtain ⟨j, hjl, hj⟩ := sampleKeyDoc_mem db hkeys x hx
      simp only [decide_eq_true_eq]
      intro he
      rw [hj] at he
      have := sampleKeyDoc_inj j db.keys.length (by omega) (by omega) he
      omega
    have hcreate : vault.CreateDataEncryptingKey sampleEnv db (sampleOracle n)
        = (.ok (sampleKeyDoc db.keys.length), ⟨db.keys ++ [sampleKeyDoc db.keys.length], db.wallets⟩) := by
      have hoid : copy ObjectID.zero (sampleOracle n).keyObjectID = (sampleKeyDoc db.keys.length).ID_ := by
        rw [sampleKeyDoc, ← hdiv]
        exact copy_full _ _ (by rw [zero_length]; exact List.length_replicate _ _)
      have hd : copy (List.replicate 32 0) (List.replicate 32 9) = (List.replicate 32 9 : Bytes) := by
        decide
      have hpe : sampleEnv.postEncrypt (List.replicate 32 9) = .ok (str "kek", List.replicate 32 9) := rfl
      have hkr : (sampleOracle n).keyRand = .ok (List.replicate 32 9) := rfl
      simp only [vault.CreateDataEncryptingKey, hkr, hd, hpe,
        mongoStorageBackend.CreateDataEncryptingKey, hoid, DB.InsertOneKey, hfresh,
        Bool.false_eq_true, if_false]
      rfl
    refine ⟨_, _, hcreate, rfl, ⟨_, rfl⟩, ?_⟩
    simp only [List.length_append, List.length_singleton, List.range_succ, List.map_append,
      List.map_singleton, List.map_nil]
    rw [← hkeys]

/-- On a store in the state of `n` sample creations, the next creation
succeeds, and the store is then in the state of `n + 1` creations. -/
theorem sampleRun_step (db : DB) (n : Nat) (h : sampleRun db n) (hn : n < 250000) :
    ∃ W db2, vault.CreateWallet sampleLib sampleEnv db (str "acct") (str "w") (sampleOracle n)
        = (.ok W, db2) ∧ sampleRun db2 (n + 1) := by
  obtain ⟨dek, db1, hg, hw1, ⟨j, hj⟩, hk1⟩ := sample_GetOrCreateRandomKey db n h hn
  obtain ⟨hfilled, hlen, hws, hkeys⟩ := h
  have hid : dek.ID_.length = 12 := by rw [hj]; rfl
  have hfs := FromString_String sampleLib sampleEnv (str "dek") dek.ID_ hid sample_anonymizationKey
  have hgen : (sampleOracle n).GenerateKey = .ok ⟨n + 1⟩ := rfl
  have hpd : sampleEnv.postDecrypt dek.KeyEncryptingKey_ dek.EncryptedKey_
      = .ok (List.replicate 32 9) := by rw [hj]; rfl
  have henc : encrypt sampleEnv (List.replicate 32 9) (FromECDSA ⟨n + 1⟩) (sampleOracle n).nonceRand
      = .ok (List.replicate 12 3 ++ sampleEnv.gcmSeal (List.replicate 32 9) (List.replicate 12 3)
          (FromECDSA ⟨n + 1⟩)) := rfl
  have hoid : copy ObjectID.zero (sampleOracle n).walletObjectID = beBytes 12 n :=
    copy_full _ _ (by rw [zero_length]; exact beBytes_length 12 n)
  have hfresh : db1.wallets.any (fun x => decide (x.ID_ = beBytes 12 n ∨
      x.Address_ = sampleEnv.PubkeyToAddress (n + 1))) = false := by
    rw [List.any_eq_false, hw1]
    intro x hx
    obtain ⟨i, hi, hxi, hxa⟩ := hws x hx
    simp only [decide_eq_true_eq, not_or]
    constructor
    · intro he
      rw [hxi] at he
      have := beBytes_inj 12 i n (by norm_num; omega) (by norm_num; omega) he
      omega
    · intro he
      rw [hxa] at he
      have := sample_address_inj (i + 1) (n + 1) (by norm_num; omega) (by norm_num; omega) he
      omega
  have hcw : vault.CreateWallet sampleLib sampleEnv db (str "acct") (str "w") (sampleOracle n)
      = (.ok ⟨⟨beBytes 12 n, str "acct", str "w", sampleEnv.PubkeyToAddress (n + 1), dek.ID_,
          List.replicate 12 3 ++ sampleEnv.gcmSeal (List.replicate 32 9) (List.replicate 12 3)
            (FromECDSA ⟨n + 1⟩), t2024, t2024, none⟩⟩,
        ⟨db1.keys, db1.wallets ++ [mongo.wallet.bson ⟨beBytes 12 n, str "acct", str "w",
          sampleEnv.PubkeyToAddress (n + 1), dek.ID_,
          List.replicate 12 3 ++ sampleEnv.gcmSeal (List.replicate 32 9) (List.replicate 12 3)
            (FromECDSA ⟨n + 1⟩), t2024, t2024, none⟩]⟩) := by
    have hnow : (sampleOracle n).now = t2024 := rfl
    simp only [vault.CreateWallet, hgen, hg, hpd, henc, mongoStorageBackend.CreateWallet,
      mongo.dataEncryptingKey.ID, DataEncryptingKeyIDFromString, DataEncryptingKeyID.String, hfs,
      hoid, hnow, DB.InsertOneWallet, hfresh, Bool.false_eq_true, if_false]
  refine ⟨_, _, hcw, ?_⟩
  obtain ⟨hf2, hl2⟩ := filled_step sampleLib sampleEnv db _ _ _ _ _ hfilled hcw
  refine ⟨hf2, by rw [hl2, hlen], ?_, hk1⟩
  intro w hw
  simp only [List.mem_append, List.mem_singleton] at hw
  rcases hw with hw | hw
  · rw [hw1] at hw
    obtain ⟨i, hi, hxi, hxa⟩ := hws w hw
    exact ⟨i, by omega, hxi, hxa⟩
  · exact ⟨n, by omega, by rw [hw]; rfl, by rw [hw]; rfl⟩

/-- The sample creations from number `m` on all succeed. -/
theorem sampleRun_steps : ∀ (n m : Nat) (db : DB), sampleRun db m → m + n ≤ 250000 →
    ∃ db2, createWallets sampleLib sampleEnv (sampleSteps m n) db = some db2 ∧ sampleRun db2 (m + n)
  | 0, m, db, h, _ => ⟨db, rfl, h⟩
  | n + 1, m, db, h, hb => by
    obtain ⟨W, db1, hc, h1⟩ := sampleRun_step db m h (by omega)
    obtain ⟨db2, hr, h2⟩ := sampleRun_steps n (m + 1) db1 h1 (by omega)
    have e : m + 1 + n = m + (n + 1) := by omega
    refine ⟨db2, ?_, e ▸ h2⟩
    rw [sampleSteps, List.range'_succ, List.map_cons, createWallets]
    simp only [hc]
    exact hr

theorem sampleRun_empty : sampleRun ⟨[], []⟩ 0 :=
  ⟨filled_empty, rfl, by simp, rfl⟩

/-- C19 at 1001 creations with the sample oracles on the empty store: they all
succeed, and the store then holds 1001 wallets and the first two sample keys;
no key is referenced by more than 1000 wallets, the first is referenced by
1000 and the second by 1. -/
theorem C19_witness :
    ∃ db, createWallets sampleLib sampleEnv (sampleSteps 0 1001) ⟨[], []⟩ = some db ∧
      db.wallets.length = 1001 ∧ db.keys = [sampleKeyDoc 0, sampleKeyDoc 1] ∧
      (∀ k ∈ db.keys, k.RefCount db ≤ 1000) ∧
      ∃ k1 k2, db.keys = [k1, k2] ∧ k1.RefCount db = 1000 ∧ k2.RefCount db = 1 :=
  have ⟨db, hr, hrun⟩ := sampleRun_steps 1001 0 ⟨[], []⟩ sampleRun_empty (by decide)
  have hl : (sampleSteps 0 1001).length = 1001 := by simp [sampleSteps]
  have h := C19_key_count sampleLib sampleEnv (sampleSteps 0 1001) db hr
  have hk : db.keys.length = 2 := by rw [h.2.1, hl]
  ⟨db, hr, by rw [h.1, hl], by rw [hrun.2.2.2, hk]; rfl, h.2.2.2.2.1, h.2.2.2.2.2 hl⟩

end Vault
